import Mathlib

/-!
# Terra core: stability tax, oracle, treasury and budget

A shallow embedding of `x/auth/ante.go` (the ante handler with the stability
tax) together with models of the oracle, treasury and budget modules, whose
keepers are exercised by the simulation tests of the repository.

Conventions.
* `sdk.Int` is a big integer; it is embedded as `Int`.  The 255-bit overflow
  panics of `sdk.Int` and `sdk.Dec` are outside the model.
* `sdk.Dec` is an 18-digit fixed-point decimal; `Dec.raw` is the stored big
  integer, that is the value times `10 ^ 18`.
* `sdk.Coins` is a slice of coins; it is embedded as `List Coin`.
* A Go panic that the code does not recover is the result `none`.
* The texts of logs and errors are not modelled, nor is the gas that the
  key-value store charges for the reads and writes of the keepers.
-/

namespace Terra

/-! ## `sdk.Int`, `sdk.Dec` -/

/-- Number of decimal places of `sdk.Dec`. -/
def Precision : Nat := 18

/-- The big integer `10 ^ Precision`. -/
def precisionReuse : Int := 10 ^ Precision

/-- The big integer `5 * 10 ^ (Precision - 1)`, half of `precisionReuse`. -/
def fivePrecision : Int := Int.tdiv precisionReuse 2

/-- Fixed-point decimal `sdk.Dec`: `raw` is the value times `10 ^ 18`. -/
structure Dec where
  /-- The stored big integer. -/
  raw : Int
deriving DecidableEq, Repr

/-- Rounding of a non-negative big integer to `Precision` fewer digits, half to even. -/
def chopPrecisionAndRoundNonneg (d : Int) : Int :=
  let quo := Int.tdiv d precisionReuse
  let rem := Int.tmod d precisionReuse
  if rem = 0 then quo
  else if rem < fivePrecision then quo
  else if rem > fivePrecision then quo + 1
  else if quo % 2 = 0 then quo
  else quo + 1

/-- The `chopPrecisionAndRound` of `sdk.Dec`: the sign is removed, the absolute
value is rounded half to even, and the sign is put back. -/
def chopPrecisionAndRound (d : Int) : Int :=
  if d < 0 then -(chopPrecisionAndRoundNonneg (-d)) else chopPrecisionAndRoundNonneg d

namespace Dec

/-- The decimal `sdk.ZeroDec()`. -/
def ZeroDec : Dec := ⟨0⟩

/-- The decimal `sdk.OneDec()`. -/
def OneDec : Dec := ⟨precisionReuse⟩

/-- The decimal `sdk.NewDecFromInt(i)`. -/
def NewDecFromInt (i : Int) : Dec := ⟨i * precisionReuse⟩

/-- The comparison `d.Equal(d2)`. -/
def Equal (d d2 : Dec) : Bool := decide (d.raw = d2.raw)

/-- The comparison `d.LT(d2)`. -/
def LT (d d2 : Dec) : Bool := decide (d.raw < d2.raw)

/-- The comparison `d.GT(d2)`. -/
def GT (d d2 : Dec) : Bool := decide (d.raw > d2.raw)

/-- The absolute value `d.Abs()`. -/
def Abs (d : Dec) : Dec := ⟨|d.raw|⟩

/-- The sum `d.Add(d2)`. -/
def Add (d d2 : Dec) : Dec := ⟨d.raw + d2.raw⟩

/-- The difference `d.Sub(d2)`. -/
def Sub (d d2 : Dec) : Dec := ⟨d.raw - d2.raw⟩

/-- The product `d.Mul(d2)`, rounded half to even at the 18th digit. -/
def Mul (d d2 : Dec) : Dec := ⟨chopPrecisionAndRound (d.raw * d2.raw)⟩

/-- The product `d.MulInt(i)` of a decimal and an integer; it is exact. -/
def MulInt (d : Dec) (i : Int) : Dec := ⟨d.raw * i⟩

/-- The quotient `d.Quo(d2)`: the dividend is scaled by `10 ^ 36`, divided with
truncation, and rounded half to even at the 18th digit.  Go panics on a zero
divisor; here the quotient by zero is zero, and callers guard the division. -/
def Quo (d d2 : Dec) : Dec :=
  ⟨chopPrecisionAndRound (Int.tdiv (d.raw * precisionReuse * precisionReuse) d2.raw)⟩

/-- The integer `d.TruncateInt()`: the decimal places are dropped (toward zero). -/
def TruncateInt (d : Dec) : Int := Int.tdiv d.raw precisionReuse

/-- The decimal `sdk.NewDec(i)` of a 64-bit integer. -/
def NewDec (i : Int) : Dec := ⟨i * precisionReuse⟩

/-- The test `d.IsZero()`. -/
def IsZero (d : Dec) : Bool := decide (d.raw = 0)

/-- The decimal `d.Ceil()`: the next integer upward. -/
def Ceil (d : Dec) : Dec :=
  let quo := Int.tdiv d.raw precisionReuse
  let rem := Int.tmod d.raw precisionReuse
  if rem = 0 then NewDecFromInt quo
  else if rem < 0 then NewDecFromInt quo
  else NewDecFromInt (quo + 1)

/-- The integer `d.RoundInt()`, rounded half to even. -/
def RoundInt (d : Dec) : Int := chopPrecisionAndRound d.raw

end Dec

/-! ## `sdk.Coin`, `sdk.Coins` -/

/-- A coin `sdk.Coin`. -/
structure Coin where
  /-- The denomination. -/
  Denom : String
  /-- The amount; it may be negative inside `SafeSub`. -/
  Amount : Int
deriving DecidableEq, Repr

/-- A set of coins `sdk.Coins`, a slice of coins. -/
abbrev Coins := List Coin

/-- The denomination of the native coin, `assets.MicroLunaDenom`. -/
def MicroLunaDenom : String := "uluna"

/-- The three-way comparison `strings.Compare`: the order of Go strings is the
lexicographic order of their bytes, which is that of their code points. -/
def stringsCompare (a b : String) : Ordering :=
  if a.toList < b.toList then Ordering.lt
  else if a = b then Ordering.eq
  else Ordering.gt

/-- The constructor `sdk.NewCoin`: it panics on a negative amount.  Denominations
are taken to satisfy the denomination syntax of the SDK, which `NewCoin` also
checks. -/
def NewCoin (denom : String) (amount : Int) : Option Coin :=
  if amount < 0 then none else some ⟨denom, amount⟩

namespace Coin

/-- The test `coin.IsZero()`. -/
def IsZero (coin : Coin) : Bool := decide (coin.Amount = 0)

/-- The test `coin.IsPositive()`. -/
def IsPositive (coin : Coin) : Bool := decide (0 < coin.Amount)

/-- The test `coin.IsNegative()`. -/
def IsNegative (coin : Coin) : Bool := decide (coin.Amount < 0)

end Coin

/-- The helper `removeZeroCoins`: the coins of amount zero are dropped. -/
def removeZeroCoins (coins : Coins) : Coins :=
  coins.filter (fun coin => !coin.IsZero)

/-- Inner loop of `safeAdd` while the head `coinA` of the first set is fixed:
`recA` continues with the rest of the first set, `restA` is that rest. -/
def safeAddAux (coinA : Coin) (recA : Coins → Coins) (restA : Coins) : Coins → Coins
  | [] => removeZeroCoins (coinA :: restA)
  | coinB :: restB =>
    match stringsCompare coinA.Denom coinB.Denom with
    | Ordering.lt =>
      if coinA.IsZero then recA (coinB :: restB) else coinA :: recA (coinB :: restB)
    | Ordering.eq =>
      let res : Coin := ⟨coinA.Denom, coinA.Amount + coinB.Amount⟩
      if res.IsZero then recA restB else res :: recA restB
    | Ordering.gt =>
      if coinB.IsZero then safeAddAux coinA recA restA restB
      else coinB :: safeAddAux coinA recA restA restB

/-- The merge `coins.safeAdd(coinsB)` of two sets of coins sorted by denomination:
equal denominations are summed and coins of amount zero are dropped. -/
def safeAdd : Coins → Coins → Coins
  | [], coinsB => removeZeroCoins coinsB
  | coinA :: restA, coinsB => safeAddAux coinA (safeAdd restA) restA coinsB

namespace Coins

/-- The sum `coins.Add(coinsB)`. -/
def Add (coins coinsB : Coins) : Coins := safeAdd coins coinsB

/-- The set `coins.negative()`: every amount is negated. -/
def negative (coins : Coins) : Coins :=
  coins.map (fun coin => ⟨coin.Denom, -coin.Amount⟩)

/-- The test `coins.IsAnyNegative()`. -/
def IsAnyNegative (coins : Coins) : Bool := coins.any (fun coin => coin.IsNegative)

/-- The difference `coins.SafeSub(coinsB)` with the flag "some amount is negative". -/
def SafeSub (coins coinsB : Coins) : Coins × Bool :=
  let diff := safeAdd coins (negative coinsB)
  (diff, IsAnyNegative diff)

/-- The test `coins.IsZero()`: every amount is zero. -/
def IsZero (coins : Coins) : Bool := coins.all (fun coin => coin.IsZero)

/-- The test `coins.Empty()`. -/
def Empty (coins : Coins) : Bool := coins.isEmpty

/-- The amount of a denomination in a set of coins, zero when it is absent
(`coins.AmountOf(denom)`, read off by a linear search). -/
def AmountOf (coins : Coins) (denom : String) : Int :=
  match coins.find? (fun coin => decide (coin.Denom = denom)) with
  | some coin => coin.Amount
  | none => 0

/-- The test `coins.IsAnyGTE(coinsB)`: some coin is present in `coinsB` with a
non-zero amount that it reaches. -/
def IsAnyGTE (coins coinsB : Coins) : Bool :=
  if coinsB.length = 0 then false
  else coins.any (fun coin =>
    decide (coin.Amount ≥ AmountOf coinsB coin.Denom) && !decide (AmountOf coinsB coin.Denom = 0))

/-- Strictly increasing denominations, the order invariant of `sdk.Coins`. -/
def Sorted (coins : Coins) : Prop :=
  coins.Pairwise (fun a b => a.Denom.toList < b.Denom.toList)

/-- Sorted by denomination with every amount positive: the part of
`coins.IsValid()` that does not concern the syntax of denominations. -/
def IsValid (coins : Coins) : Prop :=
  Sorted coins ∧ ∀ coin ∈ coins, 0 < coin.Amount

instance (coins : Coins) : Decidable (Coins.Sorted coins) := by
  unfold Coins.Sorted
  exact inferInstance

instance (coins : Coins) : Decidable (Coins.IsValid coins) := by
  unfold Coins.IsValid
  exact inferInstance

end Coins

/-- The constructor `sdk.NewCoins` at one coin: a zero coin gives the empty set,
a negative one a panic (the set would be invalid). -/
def NewCoins (coin : Coin) : Option Coins :=
  if coin.IsZero then some []
  else if coin.IsPositive then some [coin]
  else none

/-! ## `x/auth/ante.go`: the stability tax -/

/-- The part of the `TreasuryKeeper` interface that the ante handler reads, at
the context of the transaction: `GetTaxRate(ctx, util.GetEpoch(ctx))` and
`GetTaxCap(ctx, denom)`. -/
structure TreasuryKeeper where
  /-- The tax rate of the current epoch. -/
  GetTaxRate : Dec
  /-- The tax cap of a denomination. -/
  GetTaxCap : String → Int

/-- The loop of `computeTax` over the coins of the principal, `taxes` being the
coins accumulated so far. -/
def computeTaxLoop (taxRate : Dec) (tk : TreasuryKeeper) : Coins → Coins → Option Coins
  | taxes, [] => some taxes
  | taxes, coin :: rest =>
    if coin.Denom = MicroLunaDenom then computeTaxLoop taxRate tk taxes rest
    else
      let taxDue := ((Dec.NewDecFromInt coin.Amount).Mul taxRate).TruncateInt
      let taxCap := tk.GetTaxCap coin.Denom
      let taxDue := if taxDue > taxCap then taxCap else taxDue
      if taxDue = 0 then computeTaxLoop taxRate tk taxes rest
      else
        match NewCoin coin.Denom taxDue with
        | none => none
        | some taxCoin =>
          match NewCoins taxCoin with
          | none => none
          | some taxCoins => computeTaxLoop taxRate tk (taxes.Add taxCoins) rest

/-- The function `computeTax`: the stability tax on a principal according to
tax rate and tax cap. -/
def computeTax (tk : TreasuryKeeper) (principal : Coins) : Option Coins :=
  let taxRate := tk.GetTaxRate
  if taxRate.Equal Dec.ZeroDec then some []
  else computeTaxLoop taxRate tk [] principal

/-- The reference value of the pay tests:
`taxRate.MulInt(amount).TruncateInt()`, replaced by the cap when greater. -/
def referenceTaxDue (taxRate : Dec) (taxCap : Int) (amount : Int) : Int :=
  let taxDue := (taxRate.MulInt amount).TruncateInt
  if taxDue > taxCap then taxCap else taxDue

/-! ## Keys, signatures, accounts and transactions -/

/-- A slice of bytes. -/
abbrev Bytes := List Nat

/-- An account address `sdk.AccAddress`. -/
abbrev AccAddress := Bytes

/-- The implementations of `crypto.PubKey`: the key types of tendermint and any
other type, given by the name of its Go type. -/
inductive PubKey where
  | secp256k1 (key : Bytes)
  | ed25519 (key : Bytes)
  | multisig (K : Nat) (PubKeys : List PubKey)
  | other (typeName : List Char) (key : Bytes)

/-- A signature `auth.StdSignature`; the public key is optional. -/
structure StdSignature where
  /-- The public key, `nil` when absent. -/
  PubKey : Option PubKey
  /-- The bytes of the signature. -/
  Signature : Bytes

/-- A decoded `multisig.Multisignature`: the bit array of the signers and their
signatures. -/
structure Multisignature where
  /-- The bit array, one bit for each sub-key. -/
  BitArray : List Bool
  /-- The signatures of the sub-keys whose bit is set. -/
  Sigs : List Bytes

/-- The fee `auth.StdFee`. -/
structure StdFee where
  /-- The amount of the fee. -/
  Amount : Coins
  /-- The gas limit, a `uint64`. -/
  Gas : Nat

/-- An input of a `bank.MsgMultiSend`. -/
structure Input where
  /-- The address that sends. -/
  Address : AccAddress
  /-- The coins sent. -/
  Coins : Coins

/-- An output of a `bank.MsgMultiSend`. -/
structure Output where
  /-- The address that receives. -/
  Address : AccAddress
  /-- The coins received. -/
  Coins : Coins

/-- A message `sdk.Msg`: the two send messages of the bank module, and any other
message, of which only the signers matter to the ante handler. -/
inductive Msg where
  | MsgSend (FromAddress ToAddress : AccAddress) (Amount : Coins)
  | MsgMultiSend (Inputs : List Input) (Outputs : List Output)
  | other (signers : List AccAddress)

/-- The transaction `auth.StdTx`. -/
structure StdTx where
  /-- The messages. -/
  Msgs : List Msg
  /-- The fee. -/
  Fee : StdFee
  /-- The signatures. -/
  Signatures : List StdSignature
  /-- The memo. -/
  Memo : String

/-- A transaction `sdk.Tx`: a `StdTx` or a value of another type. -/
inductive Tx where
  | StdTx (stdTx : StdTx)
  | other

/-- The account behind `auth.Account`. -/
structure Account where
  /-- The address. -/
  Address : AccAddress
  /-- The coins. -/
  Coins : Coins
  /-- The public key, `nil` until it is set. -/
  PubKey : Option PubKey
  /-- The account number. -/
  AccountNumber : Nat
  /-- The sequence number, a `uint64`. -/
  Sequence : Nat

/-- The methods of the `auth.Account` interface whose result depends on the
implementation (base or vesting account); an error is `none`. -/
structure AccountImpl where
  /-- The coins that can be spent at a block time. -/
  SpendableCoins : Account → Nat → Coins
  /-- The setter of the coins. -/
  SetCoins : Account → Coins → Option Account
  /-- The setter of the public key. -/
  SetPubKey : Account → PubKey → Option Account
  /-- The setter of the sequence number. -/
  SetSequence : Account → Nat → Option Account

/-- The methods of `auth.BaseAccount`: all coins can be spent and no setter fails. -/
def BaseAccountImpl : AccountImpl where
  SpendableCoins := fun acc _ => acc.Coins
  SetCoins := fun acc coins => some { acc with Coins := coins }
  SetPubKey := fun acc pubKey => some { acc with PubKey := some pubKey }
  SetSequence := fun acc seq => some { acc with Sequence := seq }

/-- The parameters `auth.Params`, all of type `uint64`. -/
structure Params where
  /-- The maximal length of a memo. -/
  MaxMemoCharacters : Nat
  /-- The maximal number of signatures. -/
  TxSigLimit : Nat
  /-- The gas cost of one byte of a transaction. -/
  TxSizeCostPerByte : Nat
  /-- The gas cost of the verification of an ed25519 signature. -/
  SigVerifyCostED25519 : Nat
  /-- The gas cost of the verification of a secp256k1 signature. -/
  SigVerifyCostSecp256k1 : Nat

/-- The functions of the cryptography and codec libraries that the ante handler
calls. -/
structure Crypto where
  /-- The address `pubKey.Address()` of a public key. -/
  Address : PubKey → Bytes
  /-- The check `pubKey.VerifyBytes(msg, sig)`. -/
  VerifyBytes : PubKey → Bytes → Bytes → Bool
  /-- The bytes to sign `auth.StdSignBytes(chainID, accnum, sequence, fee, msgs, memo)`. -/
  StdSignBytes : String → Nat → Nat → StdFee → List Msg → String → Bytes
  /-- The decoding of a multisignature; `none` when `MustUnmarshalBinaryBare` panics. -/
  decodeMultisignature : Bytes → Option Multisignature
  /-- The length of the length-prefixed amino encoding of a signature. -/
  encodedLength : StdSignature → Nat

/-! ## `x/auth/ante.go`: tax of a transaction -/

/-- The loop of `filterMsgAndComputeTax` over the inputs of a `MsgMultiSend`. -/
def filterInputsLoop (tk : TreasuryKeeper) : Coins → List Input → Option Coins
  | taxes, [] => some taxes
  | taxes, input :: rest =>
    match computeTax tk input.Coins with
    | none => none
    | some tax => filterInputsLoop tk (taxes.Add tax) rest

/-- The loop of `filterMsgAndComputeTax` over the messages. -/
def filterMsgLoop (tk : TreasuryKeeper) : Coins → List Msg → Option Coins
  | taxes, [] => some taxes
  | taxes, msg :: rest =>
    match msg with
    | Msg.MsgSend _ _ amount =>
      match computeTax tk amount with
      | none => none
      | some tax => filterMsgLoop tk (taxes.Add tax) rest
    | Msg.MsgMultiSend inputs _ =>
      match filterInputsLoop tk taxes inputs with
      | none => none
      | some taxes2 => filterMsgLoop tk taxes2 rest
    | Msg.other _ => filterMsgLoop tk taxes rest

/-- The function `filterMsgAndComputeTax`: the stability tax on the `MsgSend`
and `MsgMultiSend` messages of a transaction. -/
def filterMsgAndComputeTax (tk : TreasuryKeeper) (msgs : List Msg) : Option Coins :=
  filterMsgLoop tk [] msgs

/-! ## Results, gas and context -/

/-- The codes `sdk.CodeType` of the results that the ante handler returns. -/
inductive CodeType where
  | OK
  | Internal
  | Unauthorized
  | InsufficientFunds
  | InvalidPubKey
  | UnknownAddress
  | OutOfGas
  | MemoTooLarge
  | InsufficientFee
  | TooManySignatures
  | GasOverflow
  | NoSignatures
deriving DecidableEq, Repr

/-- The result `sdk.Result`; the log text is not part of the model. -/
structure Result where
  /-- The code; `OK` for the zero value. -/
  Code : CodeType
  /-- The gas wanted. -/
  GasWanted : Nat
  /-- The gas used. -/
  GasUsed : Nat
deriving DecidableEq, Repr

/-- The zero value `sdk.Result{}`. -/
def Result.empty : Result := ⟨CodeType.OK, 0, 0⟩

/-- The result `err.Result()` of an error with a code. -/
def Result.error (code : CodeType) : Result := ⟨code, 0, 0⟩

/-- The test `res.IsOK()`. -/
def Result.IsOK (res : Result) : Bool := decide (res.Code = CodeType.OK)

/-- The number of values of `uint64`. -/
def uint64Size : Nat := 2 ^ 64

/-- The conversion `int64(x)` of a `uint64`. -/
def toInt64 (x : Nat) : Int := if x < 2 ^ 63 then (x : Int) else (x : Int) - 2 ^ 64

/-- A gas meter `sdk.GasMeter`: `limit` is `none` for the infinite gas meter. -/
structure GasMeter where
  /-- The limit of a basic gas meter. -/
  limit : Option Nat
  /-- The gas consumed. -/
  consumed : Nat
deriving DecidableEq, Repr

/-- The meter `sdk.NewGasMeter(limit)`. -/
def NewGasMeter (limit : Nat) : GasMeter := ⟨some limit, 0⟩

/-- The meter `sdk.NewInfiniteGasMeter()`. -/
def NewInfiniteGasMeter : GasMeter := ⟨none, 0⟩

/-- How a computation that consumes gas ends: normally, with the panic
`ErrorOutOfGas` (the meter keeps what was consumed), or with another panic. -/
inductive GasOutcome (α : Type) where
  | ok (meter : GasMeter) (value : α)
  | outOfGas (meter : GasMeter)
  | panic

/-- The method `ConsumeGas`: the amount is added with a check of `uint64`
overflow (panic `ErrorGasOverflow`), and a basic gas meter panics with
`ErrorOutOfGas` when the limit is passed. -/
def GasMeter.ConsumeGas (meter : GasMeter) (amount : Nat) : GasOutcome Unit :=
  if uint64Size - 1 - meter.consumed < amount then GasOutcome.panic
  else
    let meter2 : GasMeter := { meter with consumed := meter.consumed + amount }
    match meter.limit with
    | none => GasOutcome.ok meter2 ()
    | some limit =>
      if meter2.consumed > limit then GasOutcome.outOfGas meter2 else GasOutcome.ok meter2 ()

/-- A decimal coin `sdk.DecCoin`. -/
structure DecCoin where
  /-- The denomination. -/
  Denom : String
  /-- The amount. -/
  Amount : Dec

/-- The context `sdk.Context`, as far as the ante handler reads it. -/
structure Context where
  /-- The height of the block. -/
  BlockHeight : Int
  /-- The time of the block header. -/
  BlockTime : Nat
  /-- The identifier of the chain. -/
  ChainID : String
  /-- The number of bytes of the transaction, `len(ctx.TxBytes())`. -/
  TxBytesLen : Nat
  /-- Whether the transaction is checked for the mempool. -/
  IsCheckTx : Bool
  /-- The minimum gas prices of the node. -/
  MinGasPrices : List DecCoin
  /-- The gas meter. -/
  GasMeter : GasMeter

/-- The zero value of `sdk.Context`, returned for `newCtx` before it is set. -/
def Context.zero : Context := ⟨0, 0, "", 0, false, [], NewInfiniteGasMeter⟩

/-- The function `SetGasMeter`: no gas is metered in a simulation or in the
genesis block. -/
def SetGasMeter (simulate : Bool) (ctx : Context) (gasLimit : Nat) : Context :=
  if simulate ∨ ctx.BlockHeight = 0 then { ctx with GasMeter := NewInfiniteGasMeter }
  else { ctx with GasMeter := NewGasMeter gasLimit }

/-! ## `auth.StdTx` -/

/-- The signers `msg.GetSigners()` of a message. -/
def Msg.GetSigners : Msg → List AccAddress
  | Msg.MsgSend fromAddress _ _ => [fromAddress]
  | Msg.MsgMultiSend inputs _ => inputs.map Input.Address
  | Msg.other signers => signers

/-- The signers `tx.GetSigners()`: the signers of the messages in order, each
address once. -/
def StdTx.GetSigners (tx : StdTx) : List AccAddress :=
  (tx.Msgs.map Msg.GetSigners).flatten.foldl
    (fun signers addr => if addr ∈ signers then signers else signers ++ [addr]) []

/-- The bound `maxGasWanted` of the gas of a transaction. -/
def maxGasWanted : Nat := 2 ^ 63 - 1

/-- The method `tx.ValidateBasic()` of `auth.StdTx` in the SDK; the value is the
code of the error, `none` when there is none. -/
def StdTx.ValidateBasic (tx : StdTx) : Option CodeType :=
  if tx.Fee.Gas > maxGasWanted then some CodeType.GasOverflow
  else if tx.Fee.Amount.IsAnyNegative then some CodeType.InsufficientFee
  else if tx.Signatures.length = 0 then some CodeType.NoSignatures
  else if tx.Signatures.length ≠ tx.GetSigners.length then some CodeType.Unauthorized
  else none

/-! ## `x/auth/ante.go`: checks of the transaction -/

/-- The function `ValidateMemo`: it validates the size of the memo in bytes. -/
def ValidateMemo (stdTx : StdTx) (params : Params) : Result :=
  let memoLength := stdTx.Memo.utf8ByteSize
  if memoLength > params.MaxMemoCharacters then Result.error CodeType.MemoTooLarge
  else Result.empty

mutual
/-- The function `countSubKeys`: the total number of keys of a multi-signature
public key. -/
def countSubKeys : PubKey → Nat
  | PubKey.multisig _ pubKeys => countSubKeysList pubKeys
  | _ => 1
/-- The loop of `countSubKeys` over the sub-keys. -/
def countSubKeysList : List PubKey → Nat
  | [] => 0
  | subkey :: rest => countSubKeys subkey + countSubKeysList rest
end

/-- The loop of `ValidateSigCount` over the signatures. -/
def ValidateSigCountLoop (params : Params) : Nat → List StdSignature → Result
  | _, [] => Result.empty
  | sigCount, sig :: rest =>
    let sigCount2 := sigCount +
      (match sig.PubKey with
        | none => 1 -- the type assertion of `countSubKeys` fails on a nil key
        | some pubKey => countSubKeys pubKey)
    if sigCount2 > params.TxSigLimit then Result.error CodeType.TooManySignatures
    else ValidateSigCountLoop params sigCount2 rest

/-- The function `ValidateSigCount`: it validates the number of signatures. -/
def ValidateSigCount (stdTx : StdTx) (params : Params) : Result :=
  ValidateSigCountLoop params 0 stdTx.Signatures

/-! ## `x/auth/ante.go`: signatures -/

/-- The public key `simSecp256k1Pubkey` used in simulations, decoded from
`035AD6810A47F073553FF30D2FCC7E0D3B1C0B74B61A1AAA2582344037151E143A`. -/
def simSecp256k1Pubkey : PubKey :=
  PubKey.secp256k1 [0x03, 0x5A, 0xD6, 0x81, 0x0A, 0x47, 0xF0, 0x73, 0x55, 0x3F, 0xF3, 0x0D,
    0x2F, 0xCC, 0x7E, 0x0D, 0x3B, 0x1C, 0x0B, 0x74, 0xB6, 0x1A, 0x1A, 0xAA, 0x25, 0x82, 0x34,
    0x40, 0x37, 0x15, 0x1E, 0x14, 0x3A]

/-- The signature `simSecp256k1Sig` used in simulations: 64 zero bytes. -/
def simSecp256k1Sig : Bytes := List.replicate 64 0

/-- The function `ProcessPubKey`: in a simulation the key of the account or
else the simulation key; otherwise the key of the account or else the key of the
signature, whose address must then be that of the account. -/
def ProcessPubKey (crypto : Crypto) (acc : Account) (sig : StdSignature) (simulate : Bool) :
    Except Result PubKey :=
  if simulate then
    match acc.PubKey with
    | none => Except.ok simSecp256k1Pubkey
    | some pubKey => Except.ok pubKey
  else
    match acc.PubKey with
    | none =>
      match sig.PubKey with
      | none => Except.error (Result.error CodeType.InvalidPubKey)
      | some pubKey =>
        if crypto.Address pubKey ≠ acc.Address then
          Except.error (Result.error CodeType.InvalidPubKey)
        else Except.ok pubKey
    | some pubKey => Except.ok pubKey

/-- The name `%T` of the Go type of a public key, in lower case. -/
def pubkeyType : PubKey → List Char
  | PubKey.secp256k1 _ => "secp256k1.pubkeysecp256k1".toList
  | PubKey.ed25519 _ => "ed25519.pubkeyed25519".toList
  | PubKey.multisig _ _ => "multisig.pubkeymultisigthreshold".toList
  | PubKey.other typeName _ => typeName.map Char.toLower

/-- The test `strings.Contains(s, substr)`. -/
def stringsContains (s : List Char) (substr : String) : Bool :=
  s.tails.any (fun t => substr.toList.isPrefixOf t)

mutual
/-- The function `consumeSigVerificationGas`: gas for the verification of a
signature according to the type of the public key, matched by its name. -/
def consumeSigVerificationGas (crypto : Crypto) (params : Params) (meter : GasMeter)
    (sig : Bytes) (pubkey : PubKey) : GasOutcome Result :=
  if stringsContains (pubkeyType pubkey) "ed25519" then
    match meter.ConsumeGas params.SigVerifyCostED25519 with
    | GasOutcome.ok meter2 _ => GasOutcome.ok meter2 (Result.error CodeType.InvalidPubKey)
    | GasOutcome.outOfGas meter2 => GasOutcome.outOfGas meter2
    | GasOutcome.panic => GasOutcome.panic
  else if stringsContains (pubkeyType pubkey) "secp256k1" then
    match meter.ConsumeGas params.SigVerifyCostSecp256k1 with
    | GasOutcome.ok meter2 _ => GasOutcome.ok meter2 Result.empty
    | GasOutcome.outOfGas meter2 => GasOutcome.outOfGas meter2
    | GasOutcome.panic => GasOutcome.panic
  else if stringsContains (pubkeyType pubkey) "multisigthreshold" then
    match crypto.decodeMultisignature sig with
    | none => GasOutcome.panic
    | some multisignature =>
      match pubkey with
      | PubKey.multisig _ pubKeys =>
        match consumeMultisignatureVerificationGas crypto params meter multisignature.BitArray
            multisignature.Sigs pubKeys with
        | GasOutcome.ok meter2 _ => GasOutcome.ok meter2 Result.empty
        | GasOutcome.outOfGas meter2 => GasOutcome.outOfGas meter2
        | GasOutcome.panic => GasOutcome.panic
      | _ => GasOutcome.panic -- the type assertion to `PubKeyMultisigThreshold` fails
  else GasOutcome.ok meter (Result.error CodeType.InvalidPubKey)
/-- The function `consumeMultisignatureVerificationGas`: the loop over the bit
array; bit `i` set charges for sub-key `i` with the next signature, and a
missing sub-key or signature is an index panic. -/
def consumeMultisignatureVerificationGas (crypto : Crypto) (params : Params) (meter : GasMeter) :
    List Bool → List Bytes → List PubKey → GasOutcome Unit
  | bits, _, [] => if bits.any id then GasOutcome.panic else GasOutcome.ok meter ()
  | [], _, _ :: _ => GasOutcome.ok meter ()
  | false :: bits, sigs, _ :: pubKeys =>
    consumeMultisignatureVerificationGas crypto params meter bits sigs pubKeys
  | true :: _, [], _ :: _ => GasOutcome.panic
  | true :: bits, sig :: sigs, pubKey :: pubKeys =>
    match consumeSigVerificationGas crypto params meter sig pubKey with
    | GasOutcome.ok meter2 _ =>
      consumeMultisignatureVerificationGas crypto params meter2 bits sigs pubKeys
    | GasOutcome.outOfGas meter2 => GasOutcome.outOfGas meter2
    | GasOutcome.panic => GasOutcome.panic
end

/-- The function `consumeSimSigGas`: gas for the size of a simulated signature;
for a multi-signature key the cost is multiplied by the limit of signatures. -/
def consumeSimSigGas (crypto : Crypto) (meter : GasMeter) (pubkey : PubKey)
    (sig : StdSignature) (params : Params) : GasOutcome Unit :=
  let simSig : StdSignature :=
    if sig.Signature.length = 0 then ⟨some pubkey, simSecp256k1Sig⟩ else ⟨some pubkey, []⟩
  let cost := (crypto.encodedLength simSig + 6) % uint64Size
  let cost :=
    match pubkey with
    | PubKey.multisig _ _ => (cost * params.TxSigLimit) % uint64Size
    | _ => cost
  meter.ConsumeGas ((params.TxSizeCostPerByte * cost) % uint64Size)

/-- The function `processSig`: it verifies the signature and increments the
sequence; if the account has no public key, it sets it.  An error result stands
for the pair of no account and that result. -/
def processSig (crypto : Crypto) (impl : AccountImpl) (meter : GasMeter) (acc : Account)
    (sig : StdSignature) (signBytes : Bytes) (simulate : Bool) (params : Params) :
    GasOutcome (Except Result Account) :=
  match ProcessPubKey crypto acc sig simulate with
  | Except.error res => GasOutcome.ok meter (Except.error res)
  | Except.ok pubKey =>
    match impl.SetPubKey acc pubKey with
    | none => GasOutcome.ok meter (Except.error (Result.error CodeType.Internal))
    | some acc1 =>
      match (if simulate then consumeSimSigGas crypto meter pubKey sig params
          else GasOutcome.ok meter ()) with
      | GasOutcome.panic => GasOutcome.panic
      | GasOutcome.outOfGas meter1 => GasOutcome.outOfGas meter1
      | GasOutcome.ok meter1 _ =>
        match consumeSigVerificationGas crypto params meter1 sig.Signature pubKey with
        | GasOutcome.panic => GasOutcome.panic
        | GasOutcome.outOfGas meter2 => GasOutcome.outOfGas meter2
        | GasOutcome.ok meter2 res =>
          if !res.IsOK then GasOutcome.ok meter2 (Except.error res)
          else if !simulate && !crypto.VerifyBytes pubKey signBytes sig.Signature then
            GasOutcome.ok meter2 (Except.error (Result.error CodeType.Unauthorized))
          else
            match impl.SetSequence acc1 ((acc1.Sequence + 1) % uint64Size) with
            | none => GasOutcome.panic
            | some acc2 => GasOutcome.ok meter2 (Except.ok acc2)

/-! ## `x/auth/ante.go`: fees -/

/-- The function `DeductFees`: it deducts the fee from the coins of an account.
An error result stands for the pair of no account and that result. -/
def DeductFees (impl : AccountImpl) (blockTime : Nat) (acc : Account) (fee : StdFee) :
    Except Result Account :=
  let coins := acc.Coins
  let feeAmount := fee.Amount
  if ¬ feeAmount.IsValid then Except.error (Result.error CodeType.InsufficientFee)
  else
    let (newCoins, hasNeg) := coins.SafeSub feeAmount
    if hasNeg then Except.error (Result.error CodeType.InsufficientFunds)
    else
      let spendableCoins := impl.SpendableCoins acc blockTime
      if (spendableCoins.SafeSub feeAmount).2 then
        Except.error (Result.error CodeType.InsufficientFunds)
      else
        match impl.SetCoins acc newCoins with
        | none => Except.error (Result.error CodeType.Internal)
        | some acc2 => Except.ok acc2

/-- The test `minGasPrices.IsZero()` of `sdk.DecCoins`. -/
def DecCoinsIsZero (coins : List DecCoin) : Bool := coins.all (fun coin => coin.Amount.IsZero)

/-- The loop of `EnsureSufficientMempoolFees` over the minimum gas prices:
the required fee of a denomination is `ceil(minGasPrice * gasLimit)`. -/
def requiredFeesLoop (glDec : Dec) : List DecCoin → Option Coins
  | [] => some []
  | gp :: rest =>
    let fee := gp.Amount.Mul glDec
    match NewCoin gp.Denom fee.Ceil.RoundInt with
    | none => none
    | some coin =>
      match requiredFeesLoop glDec rest with
      | none => none
      | some coins => some (coin :: coins)

/-- The function `EnsureSufficientMempoolFees`: it verifies that the fee without
the taxes covers the minimum fee of the proposer in some denomination. -/
def EnsureSufficientMempoolFees (ctx : Context) (stdFee : StdFee) (taxes : Coins) :
    Option Result :=
  let minGasPrices := ctx.MinGasPrices
  match (if !DecCoinsIsZero minGasPrices then
      requiredFeesLoop (Dec.NewDec (toInt64 stdFee.Gas)) minGasPrices else some []) with
  | none => none
  | some requiredFees =>
    let (amount, hasNeg) := stdFee.Amount.SafeSub taxes
    if hasNeg then some (Result.error CodeType.InsufficientFee)
    else if !requiredFees.Empty && !amount.IsAnyGTE requiredFees then
      some (Result.error CodeType.InsufficientFee)
    else some Result.empty

/-- The function `GetSignBytes`: the bytes to sign for a transaction and an
account; the account number is zero in the genesis block. -/
def GetSignBytes (crypto : Crypto) (chainID : String) (stdTx : StdTx) (acc : Account)
    (genesis : Bool) : Bytes :=
  let accNum := if !genesis then acc.AccountNumber else 0
  crypto.StdSignBytes chainID accNum acc.Sequence stdTx.Fee stdTx.Msgs stdTx.Memo

/-! ## `x/auth/ante.go`: the ante handler -/

/-- The state that the ante handler reads and writes: the accounts of the
account keeper, the fees of the fee collection keeper, and the arguments of the
calls of `RecordTaxProceeds` of the treasury keeper, latest first. -/
structure AnteState where
  /-- The accounts by address. -/
  Accounts : AccAddress → Option Account
  /-- The collected fees. -/
  CollectedFees : Coins
  /-- The coins passed to `RecordTaxProceeds`, latest first. -/
  TaxProceeds : List Coins

/-- The method `ak.SetAccount(ctx, acc)`. -/
def AnteState.SetAccount (st : AnteState) (acc : Account) : AnteState :=
  { st with Accounts := fun addr => if addr = acc.Address then some acc else st.Accounts addr }

/-- The method `fck.AddCollectedFees(ctx, coins)`. -/
def AnteState.AddCollectedFees (st : AnteState) (coins : Coins) : AnteState :=
  { st with CollectedFees := st.CollectedFees.Add coins }

/-- The method `tk.RecordTaxProceeds(ctx, coins)`. -/
def AnteState.RecordTaxProceeds (st : AnteState) (coins : Coins) : AnteState :=
  { st with TaxProceeds := coins :: st.TaxProceeds }

/-- The function `GetSignerAcc`: the account of an address that is expected to
sign; an error result stands for the pair of no account and that result. -/
def GetSignerAcc (st : AnteState) (addr : AccAddress) : Except Result Account :=
  match st.Accounts addr with
  | some acc => Except.ok acc
  | none => Except.error (Result.error CodeType.UnknownAddress)

/-- What the ante handler returns, with the state it leaves. -/
structure AnteResult where
  /-- The state after the handler. -/
  State : AnteState
  /-- The context `newCtx`. -/
  newCtx : Context
  /-- The result `res`. -/
  res : Result
  /-- The flag `abort`. -/
  abort : Bool

/-- How the part of the handler under the deferred `recover` ends. -/
inductive BodyOutcome where
  | done (st : AnteState) (meter : GasMeter) (res : Result) (abort : Bool)
  | outOfGas (st : AnteState) (meter : GasMeter)
  | panic

/-- The loop of the ante handler over the signatures: signature `i` is checked
against signer `i`, whose account is then stored; signer 0 is the fee payer
`firstAcc`, fetched before the loop. -/
def sigLoop (crypto : Crypto) (impl : AccountImpl) (params : Params) (chainID : String)
    (stdTx : StdTx) (simulate isGenesis : Bool) (signerAddrs : List AccAddress)
    (firstAcc : Account) : Nat → List StdSignature → AnteState → GasMeter → BodyOutcome
  | _, [], st, meter => BodyOutcome.done st meter ⟨CodeType.OK, stdTx.Fee.Gas, 0⟩ false
  | i, sig :: rest, st, meter =>
    match (if i ≠ 0 then
        match signerAddrs.get? i with
        | none => none
        | some addr => some (GetSignerAcc st addr)
      else some (Except.ok firstAcc)) with
    | none => BodyOutcome.panic
    | some (Except.error res) => BodyOutcome.done st meter res true
    | some (Except.ok acc) =>
      let signBytes := GetSignBytes crypto chainID stdTx acc isGenesis
      match processSig crypto impl meter acc sig signBytes simulate params with
      | GasOutcome.panic => BodyOutcome.panic
      | GasOutcome.outOfGas meter2 => BodyOutcome.outOfGas st meter2
      | GasOutcome.ok meter2 (Except.error res) => BodyOutcome.done st meter2 res true
      | GasOutcome.ok meter2 (Except.ok acc2) =>
        sigLoop crypto impl params chainID stdTx simulate isGenesis signerAddrs firstAcc
          (i + 1) rest (st.SetAccount acc2) meter2

/-- The part of the ante handler after the gas meter is set, under the deferred
`recover`. -/
def anteBody (crypto : Crypto) (impl : AccountImpl) (params : Params) (ctx : Context)
    (stdTx : StdTx) (simulate : Bool) (st : AnteState) (meter : GasMeter) : BodyOutcome :=
  match stdTx.ValidateBasic with
  | some code => BodyOutcome.done st meter (Result.error code) true
  | none =>
    match meter.ConsumeGas ((params.TxSizeCostPerByte * ctx.TxBytesLen) % uint64Size) with
    | GasOutcome.panic => BodyOutcome.panic
    | GasOutcome.outOfGas meter1 => BodyOutcome.outOfGas st meter1
    | GasOutcome.ok meter1 _ =>
      if !(ValidateMemo stdTx params).IsOK then
        BodyOutcome.done st meter1 (ValidateMemo stdTx params) true
      else if !(ValidateSigCount stdTx params).IsOK then
        BodyOutcome.done st meter1 (ValidateSigCount stdTx params) true
      else
        let signerAddrs := stdTx.GetSigners
        let isGenesis := decide (ctx.BlockHeight = 0)
        match signerAddrs with
        | [] => BodyOutcome.panic
        | addr0 :: _ =>
          match GetSignerAcc st addr0 with
          | Except.error res => BodyOutcome.done st meter1 res true
          | Except.ok acc0 =>
            if !stdTx.Fee.Amount.IsZero then
              match DeductFees impl ctx.BlockTime acc0 stdTx.Fee with
              | Except.error res => BodyOutcome.done st meter1 res true
              | Except.ok acc1 =>
                sigLoop crypto impl params ctx.ChainID stdTx simulate isGenesis signerAddrs acc1
                  0 stdTx.Signatures
                  ((st.AddCollectedFees stdTx.Fee.Amount).RecordTaxProceeds stdTx.Fee.Amount)
                  meter1
            else
              sigLoop crypto impl params ctx.ChainID stdTx simulate isGenesis signerAddrs acc0
                0 stdTx.Signatures st meter1

/-- The handler `NewAnteHandler(ak, fck, tk)`: it checks and increments sequence
numbers, checks signatures and account numbers, and deducts fees from the first
signer.  `params` is `ak.GetParams(ctx)`; `none` is a panic that the handler
does not recover. -/
def NewAnteHandler (crypto : Crypto) (impl : AccountImpl) (params : Params)
    (tk : TreasuryKeeper) (st : AnteState) (ctx : Context) (tx : Tx) (simulate : Bool) :
    Option AnteResult :=
  match tx with
  | Tx.other => some ⟨st, SetGasMeter simulate ctx 0, Result.error CodeType.Internal, true⟩
  | Tx.StdTx stdTx =>
    match filterMsgAndComputeTax tk stdTx.Msgs with
    | none => none
    | some taxes =>
      if !simulate && (stdTx.Fee.Amount.SafeSub taxes).2 then
        some ⟨st, Context.zero, Result.error CodeType.InsufficientFee, true⟩
      else
        match (if ctx.IsCheckTx && !simulate then
            EnsureSufficientMempoolFees ctx stdTx.Fee taxes else some Result.empty) with
        | none => none
        | some res =>
          if !res.IsOK then some ⟨st, Context.zero, res, true⟩
          else
            let newCtx := SetGasMeter simulate ctx stdTx.Fee.Gas
            match anteBody crypto impl params newCtx stdTx simulate st newCtx.GasMeter with
            | BodyOutcome.done st2 meter res2 abort =>
              some ⟨st2, { newCtx with GasMeter := meter }, res2, abort⟩
            | BodyOutcome.outOfGas st2 meter =>
              some ⟨st2, { newCtx with GasMeter := meter },
                ⟨CodeType.OutOfGas, stdTx.Fee.Gas, meter.consumed⟩, true⟩
            | BodyOutcome.panic => none

/-! ## `baseapp.runTx` of the SDK around the ante handler -/

/-- The part of `baseapp.runTx` of the SDK from the call of the ante handler on,
in the mode of delivery: the state that the ante handler leaves is written
unless it aborts; the messages then run on a cache of that state, which is
written only when their result is OK.  `runMsgs` stands for the handlers of the
messages; `none` is a panic of the ante handler.  The gas fields of the result
are not modelled. -/
def runTx (crypto : Crypto) (impl : AccountImpl) (params : Params) (tk : TreasuryKeeper)
    (runMsgs : AnteState → List Msg → AnteState × Result) (st : AnteState) (ctx : Context)
    (stdTx : StdTx) : Option (AnteState × Result) :=
  match NewAnteHandler crypto impl params tk st ctx (Tx.StdTx stdTx) false with
  | none => none
  | some r =>
    if r.abort then some (st, r.res)
    else
      let out := runMsgs r.State stdTx.Msgs
      if out.2.IsOK then some out else some (r.State, out.2)

/-! ## The oracle: commit-reveal votes and the weighted median

The oracle keeper, its handler and its end blocker (`x/oracle`) are not among
the sources; the simulation tests call them.  They are modelled from the
specification (sections 3, 4.1 and 4.2). -/

/-- A validator address `sdk.ValAddress`. -/
abbrev ValAddress := Bytes

/-- Modelled from the spec: the state of a vote of the missing oracle keeper, for
one validator, denomination and voting period; "the tagged variant
Prevoted(hash), Revealed(rate)", the variant None being the absence of an entry. -/
inductive VoteState where
  | Prevoted (hash : Bytes)
  | Revealed (rate : Dec)
deriving DecidableEq, Repr

/-- Modelled from the spec: an entry of the vote registry of the missing oracle
keeper, "keyed by (validator, denom, period)". -/
structure VoteEntry where
  /-- The validator that votes. -/
  voter : ValAddress
  /-- The denomination voted on. -/
  denom : String
  /-- The voting period in which the vote is revealed and counted. -/
  period : Nat
  /-- The prevote or the revealed vote. -/
  state : VoteState
deriving DecidableEq, Repr

/-- Modelled from the spec: the state of the missing oracle keeper, the vote
registry, the latest aggregated price of each denomination ("persisted keyed by
denom, latest wins") and the denominations marked inactive. -/
structure OracleState where
  /-- The vote registry. -/
  votes : List VoteEntry
  /-- The aggregated price of a denomination, if any. -/
  prices : String → Option Dec
  /-- The denominations marked inactive. -/
  inactive : List String

/-- Modelled from the spec: the parameters of the missing oracle module, the
length of a voting period in blocks and the quorum fraction ("a configured
fraction of total bonded power ... expressed as a ratio parameter"). -/
structure OracleParams where
  /-- The number of blocks of a voting period. -/
  VotePeriod : Nat
  /-- The quorum fraction. -/
  VoteThreshold : Dec

/-- A bonded validator with its voting power, from the staking collaborator. -/
structure Validator where
  /-- The address of the validator. -/
  address : ValAddress
  /-- The voting power. -/
  power : Nat
deriving DecidableEq, Repr

/-- Modelled from the spec: the protocol violations of the oracle handlers
(section 7). -/
inductive OracleError where
  | DuplicatePrevote
  | NoMatchingPrevote
  | HashMismatch
  | NegativeRate
deriving DecidableEq, Repr

/-- Modelled from the spec: the lookup of the missing vote registry, the entry
of a validator, a denomination and a voting period, if any. -/
def findVote (st : OracleState) (voter : ValAddress) (denom : String) (period : Nat) :
    Option VoteEntry :=
  st.votes.find? (fun e => decide (e.voter = voter ∧ e.denom = denom ∧ e.period = period))

/-- Modelled from the spec: `SubmitPrevote(voter, denom, hash)` of the missing
oracle keeper, for the voting period `period`: it "fails with DuplicatePrevote
if one already exists for this period; overwrites are rejected, not merged". -/
def SubmitPrevote (st : OracleState) (period : Nat) (voter : ValAddress) (denom : String)
    (hash : Bytes) : Except OracleError OracleState :=
  match findVote st voter denom period with
  | some _ => Except.error OracleError.DuplicatePrevote
  | none =>
    Except.ok { st with votes := ⟨voter, denom, period, VoteState.Prevoted hash⟩ :: st.votes }

/-- Modelled from the spec: the transition of an entry of the missing vote
registry to a new state (`Prevoted` to `Revealed`). -/
def setVote (votes : List VoteEntry) (voter : ValAddress) (denom : String) (period : Nat)
    (state : VoteState) : List VoteEntry :=
  votes.map (fun e =>
    if e.voter = voter ∧ e.denom = denom ∧ e.period = period then { e with state := state }
    else e)

/-- Modelled from the spec: `SubmitVote(voter, denom, rate, salt)` of the missing
oracle keeper, for the voting period `period`: it "fails with NoMatchingPrevote
if absent; fails with HashMismatch if hash(salt,rate,denom,voter) != storedHash;
fails with NegativeRate if rate < 0.  On success, transitions to Revealed."
`VoteHash` is the hash function `oracle.VoteHash` of the missing module. -/
def SubmitVote (VoteHash : String → Dec → String → ValAddress → Bytes) (st : OracleState)
    (period : Nat) (voter : ValAddress) (denom : String) (rate : Dec) (salt : String) :
    Except OracleError OracleState :=
  match findVote st voter denom period with
  | some ⟨_, _, _, VoteState.Prevoted storedHash⟩ =>
    if VoteHash salt rate denom voter ≠ storedHash then Except.error OracleError.HashMismatch
    else if rate.raw < 0 then Except.error OracleError.NegativeRate
    else Except.ok { st with votes := setVote st.votes voter denom period (VoteState.Revealed rate) }
  | _ => Except.error OracleError.NoMatchingPrevote

/-- Modelled from the spec: "the stored prevote hash for that validator/period"
in the missing vote registry. -/
def storedPrevoteHash (st : OracleState) (voter : ValAddress) (denom : String) (period : Nat) :
    Option Bytes :=
  match findVote st voter denom period with
  | some ⟨_, _, _, VoteState.Prevoted storedHash⟩ => some storedHash
  | _ => none

/-- Modelled from the spec: an input of the missing price aggregator, a revealed
vote with the voting power of its validator. -/
structure Reveal where
  /-- The validator. -/
  voter : ValAddress
  /-- The voting power of the validator. -/
  power : Nat
  /-- The revealed rate. -/
  rate : Dec
deriving DecidableEq, Repr

/-- Modelled from the spec: the order of the sort of the missing price
aggregator, "by rate ascending (ties broken by validator address, ascending)". -/
def Reveal.le (a b : Reveal) : Prop :=
  a.rate.raw < b.rate.raw ∨ (a.rate.raw = b.rate.raw ∧ a.voter ≤ b.voter)

instance : DecidableRel Reveal.le := fun a b => by
  unfold Reveal.le
  exact inferInstance

/-- Modelled from the spec: the "total reveal power" of the missing price
aggregator. -/
def totalRevealPower (reveals : List Reveal) : Nat := (reveals.map Reveal.power).sum

/-- Modelled from the spec: the accumulation of the missing price aggregator
over the sorted reveals, "the rate at which cumulative power first reaches ≥
half of total reveal power". -/
def medianWalk (total : Nat) : Nat → List Reveal → Option Dec
  | _, [] => none
  | cumulative, v :: rest =>
    if 2 * (cumulative + v.power) ≥ total then some v.rate
    else medianWalk total (cumulative + v.power) rest

/-- Modelled from the spec: the stake-weighted median of the missing price
aggregator: "1. Sort reveals by rate ascending (ties broken by validator
address, ascending, for determinism).  2. Accumulate power; the median is the
rate at which cumulative power first reaches ≥ half of total reveal power". -/
def weightedMedian (reveals : List Reveal) : Option Dec :=
  medianWalk (totalRevealPower reveals) 0 (reveals.insertionSort Reveal.le)

/-- The voting power of an address in the validator set of the staking
collaborator, zero when absent. -/
def powerOf (validators : List Validator) (addr : ValAddress) : Nat :=
  match validators.find? (fun v => decide (v.address = addr)) with
  | some v => v.power
  | none => 0

/-- The total bonded power of the validator set. -/
def totalBondedPower (validators : List Validator) : Nat := (validators.map Validator.power).sum

/-- Modelled from the spec: the input of the missing price aggregator, "the set
of (validator, rate) reveals for one denom at period close, plus validator
voting power". -/
def revealsOf (validators : List Validator) (votes : List VoteEntry) (denom : String)
    (period : Nat) : List Reveal :=
  votes.filterMap (fun e =>
    match e.state with
    | VoteState.Revealed rate =>
      if e.denom = denom ∧ e.period = period then some ⟨e.voter, powerOf validators e.voter, rate⟩
      else none
    | VoteState.Prevoted _ => none)

/-- Modelled from the spec: the quorum rule of the missing price aggregator,
"reveal power ≥ a configured fraction of total bonded power". -/
def hasQuorum (params : OracleParams) (revealPower totalPower : Nat) : Bool :=
  decide ((revealPower : Int) * precisionReuse ≥ params.VoteThreshold.raw * (totalPower : Int))

/-- Modelled from the spec: the aggregation of one denomination by the missing
price aggregator at period close: "aggregation is skipped (denom marked
Inactive, price left stale) unless reveal power ≥ a configured fraction of
total bonded power"; otherwise the weighted median becomes the price. -/
def aggregateDenom (params : OracleParams) (validators : List Validator)
    (votes : List VoteEntry) (period : Nat) (st : OracleState) (denom : String) : OracleState :=
  let reveals := revealsOf validators votes denom period
  if hasQuorum params (totalRevealPower reveals) (totalBondedPower validators) then
    match weightedMedian reveals with
    | some rate =>
      { st with
        prices := fun d => if d = denom then some rate else st.prices d
        inactive := st.inactive.filter (fun d => decide (d ≠ denom)) }
    | none => { st with inactive := denom :: st.inactive.filter (fun d => decide (d ≠ denom)) }
  else { st with inactive := denom :: st.inactive.filter (fun d => decide (d ≠ denom)) }

/-- Modelled from the spec: the denominations that the missing end blocker
aggregates at the close of a voting period, those with an entry in the registry
for the period. -/
def denomsOf (votes : List VoteEntry) (period : Nat) : List String :=
  ((votes.filter (fun e => decide (e.period = period))).map VoteEntry.denom).dedup

/-- Modelled from the spec: the close of a voting period by the missing oracle
end blocker: every denomination voted on is aggregated, and "the registry
transitions everything for that period to Cleared (deleted), regardless of
aggregation outcome". -/
def closePeriod (params : OracleParams) (validators : List Validator) (period : Nat)
    (st : OracleState) : OracleState :=
  let st2 := (denomsOf st.votes period).foldl
    (aggregateDenom params validators st.votes period) st
  { st2 with votes := st.votes.filter (fun e => decide (e.period ≠ period)) }

/-- The prevotes of all validators of a list, each with the hash of the rate
and of its salt, for a voting period. -/
def prevoteAll (VoteHash : String → Dec → String → ValAddress → Bytes) (period : Nat)
    (denom : String) (rate : Dec) (salt : ValAddress → String) :
    List Validator → OracleState → Except OracleError OracleState
  | [], st => Except.ok st
  | v :: rest, st =>
    match SubmitPrevote st period v.address denom (VoteHash (salt v.address) rate denom v.address) with
    | Except.error e => Except.error e
    | Except.ok st2 => prevoteAll VoteHash period denom rate salt rest st2

/-- The reveals of all validators of a list, each of the rate with its salt,
for a voting period. -/
def revealAll (VoteHash : String → Dec → String → ValAddress → Bytes) (period : Nat)
    (denom : String) (rate : Dec) (salt : ValAddress → String) :
    List Validator → OracleState → Except OracleError OracleState
  | [], st => Except.ok st
  | v :: rest, st =>
    match SubmitVote VoteHash st period v.address denom rate (salt v.address) with
    | Except.error e => Except.error e
    | Except.ok st2 => revealAll VoteHash period denom rate salt rest st2

/-- The total power of the reveals whose rate is at most `r`. -/
def powerUpTo (r : Int) : List Reveal → Nat
  | [] => 0
  | v :: rest => (if v.rate.raw ≤ r then v.power else 0) + powerUpTo r rest

/-- The weighted median of a list of reveals, told without an order of the
list: a submitted rate up to which at least half of the total power lies, while
up to every smaller submitted rate less than half of it lies. -/
def IsMedian (reveals : List Reveal) (m : Dec) : Prop :=
  (∃ v ∈ reveals, v.rate = m) ∧
    totalRevealPower reveals ≤ 2 * powerUpTo m.raw reveals ∧
    ∀ u ∈ reveals, u.rate.raw < m.raw → 2 * powerUpTo u.rate.raw reveals < totalRevealPower reveals

/-- The prevote entry of a validator for a rate and its salt. -/
def prevoteEntry (VoteHash : String → Dec → String → ValAddress → Bytes) (period : Nat)
    (denom : String) (rate : Dec) (salt : ValAddress → String) (v : Validator) : VoteEntry :=
  ⟨v.address, denom, period, VoteState.Prevoted (VoteHash (salt v.address) rate denom v.address)⟩

/-- An entry of the registry after the validators `addrs` revealed `rate` for a
denomination and period. -/
def revealEntry (period : Nat) (denom : String) (rate : Dec) (addrs : List ValAddress)
    (e : VoteEntry) : VoteEntry :=
  if e.voter ∈ addrs ∧ e.denom = denom ∧ e.period = period then
    { e with state := VoteState.Revealed rate }
  else e

/-! ## The treasury: tax rate and reward weight

The treasury keeper and its end blocker (`x/treasury`) are not among the
sources; the simulation tests call them.  They are modelled from the
specification (sections 4.4 and 4.5). -/

/-- Modelled from the spec: the constraints of a policy of the missing treasury
module, the bounds `[minRate, maxRate]` of the rate and the "maximum per-epoch
change (`ChangeRateMax`)". -/
structure PolicyConstraints where
  /-- The minimum rate. -/
  RateMin : Dec
  /-- The maximum rate. -/
  RateMax : Dec
  /-- The maximum change of the rate in one epoch. -/
  ChangeRateMax : Dec

/-- Modelled from the spec: the parameters of the missing treasury module. -/
structure TreasuryParams where
  /-- The constraints of the tax rate. -/
  TaxPolicy : PolicyConstraints
  /-- The factor of the multiplicative increment (`increment_factor > 1`). -/
  MiningIncrement : Dec
  /-- The floor of the tax-to-volume quotient ("a configured floor"). -/
  TaxFloor : Dec
  /-- The target of the tax-to-volume quotient ("a target ratio"). -/
  TaxTarget : Dec
  /-- The target of the seigniorage burden. -/
  SeigniorageBurdenTarget : Dec

/-- Modelled from the spec: a sample of the rolling window of the missing
treasury keeper, the tax proceeds and the transaction volume of one epoch. -/
structure TaxSample where
  /-- The tax proceeds of the epoch. -/
  TaxProceeds : Dec
  /-- The transaction volume of the epoch. -/
  Volume : Dec

/-- Modelled from the spec: the clamp of the missing treasury module, a rate
"clamped to [minRate, maxRate] and to a maximum per-epoch change
(`ChangeRateMax`)" around the previous rate. -/
def PolicyConstraints.Clamp (pc : PolicyConstraints) (prevRate newRate : Dec) : Dec :=
  let newRate :=
    if newRate.LT pc.RateMin then pc.RateMin
    else if newRate.GT pc.RateMax then pc.RateMax
    else newRate
  let delta := newRate.Sub prevRate
  if newRate.GT prevRate then
    if delta.GT pc.ChangeRateMax then prevRate.Add pc.ChangeRateMax else newRate
  else
    if delta.Abs.GT pc.ChangeRateMax then prevRate.Sub pc.ChangeRateMax else newRate

/-- Modelled from the spec: "rollingAverage = mean(window)" of the missing
treasury keeper, here of the tax proceeds of the window; the mean of an empty
window is zero. -/
def rollingAverage (window : List TaxSample) : Dec :=
  if window.length = 0 then Dec.ZeroDec
  else
    (window.foldl (fun sum sample => sum.Add sample.TaxProceeds) Dec.ZeroDec).Quo
      (Dec.NewDec window.length)

/-- Modelled from the spec: "the window's effective tax-to-volume ratio for the
elapsed epoch", the quotient of the latest sample (the head of the window); the
division by a zero volume is guarded and gives zero. -/
def effectiveTaxQuotient (window : List TaxSample) : Dec :=
  match window with
  | [] => Dec.ZeroDec
  | sample :: _ =>
    if sample.Volume.IsZero then Dec.ZeroDec else sample.TaxProceeds.Quo sample.Volume

/-- Modelled from the spec: the update of the tax rate at an epoch boundary by
the missing treasury end blocker.  "If the window's effective tax-to-volume
ratio for the elapsed epoch is below a configured floor, apply a multiplicative
increment (newRate = oldRate × increment_factor); otherwise apply a bounded
additive step toward a target ratio, clamped to [minRate, maxRate] and to a
maximum per-epoch change".  The spec computes the rolling average at the
boundary and gives it no part in the rule, so the new rate does not depend on
it.  The clamp applies to both cases, as section 8 requires of "the new tax rate
after adjustment". -/
def updateTaxPolicy (params : TreasuryParams) (oldRate : Dec) (window : List TaxSample) : Dec :=
  let target :=
    if (effectiveTaxQuotient window).LT params.TaxFloor then
      oldRate.Mul params.MiningIncrement
    else oldRate.Add (params.TaxTarget.Sub (effectiveTaxQuotient window))
  params.TaxPolicy.Clamp oldRate target

/-- Modelled from the spec: the seigniorage burden of the missing treasury
keeper, "seigniorage / (seigniorage + taxProceeds)", the division being guarded:
without seigniorage and tax the burden is zero. -/
def seigniorageBurden (seigniorage taxProceeds : Dec) : Dec :=
  if (seigniorage.Add taxProceeds).IsZero then Dec.ZeroDec
  else seigniorage.Quo (seigniorage.Add taxProceeds)

/-- Modelled from the spec: a reward weight "clamped to [0,1]" by the missing
treasury end blocker. -/
def clampUnit (weight : Dec) : Dec :=
  if weight.LT Dec.ZeroDec then Dec.ZeroDec
  else if weight.GT Dec.OneDec then Dec.OneDec
  else weight

/-- Modelled from the spec: the update of the reward weight at an epoch boundary
by the missing treasury end blocker: "newWeight = oldWeight × (target /
actualBurden), clamped to [0,1].  Edge case: if actualBurden == 0 ..., the
weight is left unchanged rather than dividing by zero." -/
def updateRewardPolicy (params : TreasuryParams) (oldWeight seigniorage taxProceeds : Dec) :
    Dec :=
  let actualBurden := seigniorageBurden seigniorage taxProceeds
  if actualBurden.IsZero then oldWeight
  else clampUnit (oldWeight.Mul (params.SeigniorageBurdenTarget.Quo actualBurden))

/-! ## The budget: programs and the candidate queue

The budget keeper, its handler and its end blocker (`x/budget`) are not among
the sources; `test_common.go` and the simulation tests call them.  They are
modelled from the specification (sections 3 and 4.6).  The deposit moves through
the balance ledger, a collaborator outside the model. -/

/-- Modelled from the spec: a program of the missing budget keeper, "{ id,
title, description, submitter, executor, submit_epoch }", the block of the
submission being the field `SubmitBlock` of the tests. -/
structure Program where
  /-- The identifier. -/
  ProgramID : Nat
  /-- The title. -/
  Title : String
  /-- The description. -/
  Description : String
  /-- The address that submitted the program. -/
  Submitter : AccAddress
  /-- The address that executes the program. -/
  Executor : AccAddress
  /-- The height of the block of the submission. -/
  SubmitBlock : Nat
deriving DecidableEq, Repr

/-- Modelled from the spec: the parameters of the missing budget module, the
length of the vote window in blocks and the threshold of the approving share of
the total bonded power. -/
structure BudgetParams where
  /-- The number of blocks of the vote window. -/
  VotePeriod : Nat
  /-- The threshold, a fraction of the total bonded power. -/
  ActiveThreshold : Dec

/-- Modelled from the spec: the state of the missing budget keeper, the program
registry "keyed by monotonically increasing ID", the candidate queue, "a
multimap keyed by the block height at which the program's voting window closes",
and the latest stance of each validator on each program. -/
structure BudgetState where
  /-- The program of an identifier, if any. -/
  programs : Nat → Option Program
  /-- The next identifier. -/
  nextProgramID : Nat
  /-- The candidate queue: pairs of end height and program identifier. -/
  candQueue : List (Nat × Nat)
  /-- The stance of a validator on a program: approve or reject, if any. -/
  votes : Nat → ValAddress → Option Bool

/-- Modelled from the spec: the protocol violations of the budget handlers
(section 7). -/
inductive BudgetError where
  | ProgramNotFound
  | Unauthorized
deriving DecidableEq, Repr

/-- Modelled from the spec: the query `GetProgram` of the missing budget keeper,
used by the tests: the program of an identifier, or the error that there is
none. -/
def GetProgram (st : BudgetState) (programID : Nat) : Except BudgetError Program :=
  match st.programs programID with
  | some program => Except.ok program
  | none => Except.error BudgetError.ProgramNotFound

/-- Modelled from the spec: the query `CandQueueHas` of the missing budget
keeper, used by the tests: whether the queue has the entry. -/
def CandQueueHas (st : BudgetState) (endBlock programID : Nat) : Bool :=
  decide ((endBlock, programID) ∈ st.candQueue)

/-- Modelled from the spec: `SubmitProgram` of the missing budget keeper at a
block height: it "assigns the next monotonic ID; inserts a queue entry at
height + votePeriod". -/
def SubmitProgram (params : BudgetParams) (height : Nat) (st : BudgetState)
    (title description : String) (submitter executor : AccAddress) : BudgetState :=
  let program : Program :=
    ⟨st.nextProgramID, title, description, submitter, executor, height⟩
  { st with
    programs := fun id => if id = st.nextProgramID then some program else st.programs id
    nextProgramID := st.nextProgramID + 1
    candQueue := (height + params.VotePeriod, st.nextProgramID) :: st.candQueue }

/-- Modelled from the spec: `VoteProgram(id, voterValidator, approve)` of the
missing budget keeper: it "records/overwrites the validator's latest stance
(last-vote-wins, not additive); fails with ProgramNotFound if absent or already
finalized", a program being pending while it has its queue entry. -/
def VoteProgram (params : BudgetParams) (st : BudgetState) (programID : Nat)
    (voter : ValAddress) (approve : Bool) : Except BudgetError BudgetState :=
  match st.programs programID with
  | none => Except.error BudgetError.ProgramNotFound
  | some program =>
    if CandQueueHas st (program.SubmitBlock + params.VotePeriod) programID then
      Except.ok { st with
        votes := fun id v => if id = programID ∧ v = voter then some approve else st.votes id v }
    else Except.error BudgetError.ProgramNotFound

/-- Modelled from the spec: `WithdrawProgram(id, submitter)` of the missing
budget keeper: "only the original submitter may withdraw; ... removes program
and its queue entry; fails with Unauthorized otherwise". -/
def WithdrawProgram (params : BudgetParams) (st : BudgetState) (programID : Nat)
    (submitter : AccAddress) : Except BudgetError BudgetState :=
  match st.programs programID with
  | none => Except.error BudgetError.ProgramNotFound
  | some program =>
    if program.Submitter ≠ submitter then Except.error BudgetError.Unauthorized
    else
      Except.ok { st with
        programs := fun id => if id = programID then none else st.programs id
        candQueue := st.candQueue.filter
          (fun entry => decide (entry ≠ (program.SubmitBlock + params.VotePeriod, programID))) }

/-- Modelled from the spec: the approve-power of a program in the tally of the
missing budget end blocker, the total power of the validators whose latest
stance is to approve. -/
def approvePower (validators : List Validator) (st : BudgetState) (programID : Nat) : Nat :=
  ((validators.filter (fun v => decide (st.votes programID v.address = some true))).map
    Validator.power).sum

/-- Modelled from the spec: the threshold rule of the missing budget end
blocker, "approve-power ≥ threshold", the threshold being a fraction of the
total bonded power. -/
def clearsThreshold (params : BudgetParams) (approve total : Nat) : Bool :=
  decide ((approve : Int) * precisionReuse ≥ params.ActiveThreshold.raw * (total : Int))

/-- Modelled from the spec: the tally of one queue entry by the missing budget
end blocker: "If approve-power ≥ threshold, the program becomes Active and its
queue entry is cleared (no re-queue ...).  If approve-power < threshold, the
program is deleted ... and removed from the queue." -/
def sweepEntry (params : BudgetParams) (validators : List Validator) (st : BudgetState)
    (entry : Nat × Nat) : BudgetState :=
  if clearsThreshold params (approvePower validators st entry.2) (totalBondedPower validators)
  then { st with candQueue := st.candQueue.filter (fun e => decide (e ≠ entry)) }
  else
    { st with
      programs := fun id => if id = entry.2 then none else st.programs id
      candQueue := st.candQueue.filter (fun e => decide (e ≠ entry)) }

/-- Modelled from the spec: the queue sweep of the missing budget end blocker,
"for each queue entry whose end_height == currentHeight". -/
def BudgetEndBlocker (params : BudgetParams) (validators : List Validator) (height : Nat)
    (st : BudgetState) : BudgetState :=
  (st.candQueue.filter (fun entry => decide (entry.1 = height))).foldl
    (sweepEntry params validators) st

/-- Modelled from the spec: the messages of the missing budget module
(submit-program, vote-program, withdraw-program), with the fields of the
constructors that the tests call. -/
inductive BudgetMsg where
  | MsgSubmitProgram (title description : String) (submitter executor : AccAddress)
  | MsgVoteProgram (programID : Nat) (option : Bool) (voter : ValAddress)
  | MsgWithdrawProgram (programID : Nat) (submitter : AccAddress)

/-- Modelled from the spec: the handler of the missing budget module; a message
that fails leaves the state as it was ("transaction fails, no state
mutation"). -/
def handleBudgetMsg (params : BudgetParams) (height : Nat) (st : BudgetState) :
    BudgetMsg → BudgetState
  | BudgetMsg.MsgSubmitProgram title description submitter executor =>
    SubmitProgram params height st title description submitter executor
  | BudgetMsg.MsgVoteProgram programID option voter =>
    match VoteProgram params st programID voter option with
    | Except.ok st2 => st2
    | Except.error _ => st
  | BudgetMsg.MsgWithdrawProgram programID submitter =>
    match WithdrawProgram params st programID submitter with
    | Except.ok st2 => st2
    | Except.error _ => st

/-- A block: the validator set at the block and the messages delivered. -/
structure BudgetBlock where
  /-- The bonded validators with their power. -/
  validators : List Validator
  /-- The messages of the block, in order. -/
  msgs : List BudgetMsg

/-- A block of the budget module at a height: the messages in order, then the
end blocker. -/
def deliverBudgetBlock (params : BudgetParams) (height : Nat) (st : BudgetState)
    (block : BudgetBlock) : BudgetState :=
  BudgetEndBlocker params block.validators height
    (block.msgs.foldl (handleBudgetMsg params height) st)

/-- A run of consecutive blocks from a height on. -/
def runBudgetBlocks (params : BudgetParams) : Nat → BudgetState → List BudgetBlock → BudgetState
  | _, st, [] => st
  | height, st, block :: rest =>
    runBudgetBlocks params (height + 1) (deliverBudgetBlock params height st block) rest

/-- The predicate that a message withdraws a given program. -/
def BudgetMsg.withdraws (programID : Nat) : BudgetMsg → Bool
  | BudgetMsg.MsgWithdrawProgram id _ => decide (id = programID)
  | _ => false

/-! ## Sample values

Concrete inputs on which the definitions are evaluated. -/

/-- A treasury keeper with a tax rate of 0.1% and a tax cap of one million. -/
def sampleTreasuryKeeper : TreasuryKeeper := ⟨⟨10 ^ 15⟩, fun _ => 1000000⟩

/-- Library functions for sample runs: every key has the address `[1]`, every
signature verifies, and no signature decodes as a multisignature. -/
def sampleCrypto : Crypto :=
  ⟨fun _ => [1], fun _ _ _ => true, fun _ _ _ _ _ _ => [], fun _ => none, fun _ => 0⟩

/-- Sample parameters of the auth module. -/
def sampleParams : Params := ⟨256, 7, 10, 590, 1000⟩

/-- A state with the single account `[1]` holding twenty million foocoin. -/
def sampleAnteState : AnteState :=
  ⟨fun addr => if addr = [1] then some ⟨[1], [⟨"foocoin", 20000000⟩], none, 0, 0⟩ else none,
    [], []⟩

/-- A context of block 5 of a chain without minimum gas prices. -/
def sampleContext : Context := ⟨5, 0, "", 100, false, [], NewInfiniteGasMeter⟩

/-- A transaction that sends ten million foocoin and offers no fee. -/
def sampleUnderpaidTx : StdTx :=
  ⟨[Msg.MsgSend [1] [2] [⟨"foocoin", 10000000⟩]], ⟨[], 200000⟩,
    [⟨some (PubKey.secp256k1 [7]), [9]⟩], ""⟩

/-- A stand-in for the hash function of the oracle in sample runs: the address
followed by the size of the rate and the length of the salt. -/
def sampleVoteHash : String → Dec → String → ValAddress → Bytes :=
  fun salt rate _ voter => voter ++ [rate.raw.natAbs, salt.length]

/-- An oracle state in which validator `[1]` has prevoted the hash of the
rate -1 with salt "abcd" for foocoin in voting period 3. -/
def sampleNegativePrevoteState : OracleState :=
  ⟨[⟨[1], "foocoin", 3, VoteState.Prevoted (sampleVoteHash "abcd" ⟨-1⟩ "foocoin" [1])⟩],
    fun _ => none, []⟩

/-- The validators of the oracle tests: four validators, the third with double
power. -/
def sampleValidators : List Validator := [⟨[1], 1⟩, ⟨[2], 1⟩, ⟨[3], 2⟩, ⟨[4], 1⟩]

/-- Oracle parameters with a voting period of 12 blocks and a quorum of 67%. -/
def sampleOracleParams : OracleParams := ⟨12, ⟨67 * 10 ^ 16⟩⟩

/-- An oracle state in which the validators `[1]` and `[2]` have revealed the
rate 8712 for foocoin in voting period 3, and no price is stored. -/
def sampleMinorityState : OracleState :=
  ⟨[⟨[2], "foocoin", 3, VoteState.Revealed ⟨8712 * 10 ^ 18⟩⟩,
    ⟨[1], "foocoin", 3, VoteState.Revealed ⟨8712 * 10 ^ 18⟩⟩], fun _ => none, []⟩

/-- Treasury parameters: a tax rate between 0.05% and 1% that changes by at most
0.025% in an epoch, an increment of 7%, a floor and a target of 0.1%, and a
seigniorage burden target of 10%. -/
def sampleTreasuryParams : TreasuryParams :=
  ⟨⟨⟨5 * 10 ^ 14⟩, ⟨10 ^ 16⟩, ⟨25 * 10 ^ 13⟩⟩, ⟨107 * 10 ^ 16⟩, ⟨10 ^ 15⟩, ⟨10 ^ 15⟩, ⟨10 ^ 17⟩⟩

/-- A rolling window of three epochs without tax proceeds or volume. -/
def sampleEmptyWindow : List TaxSample := [⟨⟨0⟩, ⟨0⟩⟩, ⟨⟨0⟩, ⟨0⟩⟩, ⟨⟨0⟩, ⟨0⟩⟩]

/-- A rolling window of three epochs whose elapsed epoch has tax proceeds and a
volume of `10 ^ (-18)` each: the mean of the tax proceeds rounds to zero, and
the tax-to-volume quotient of the elapsed epoch is one. -/
def sampleDustWindow : List TaxSample := [⟨⟨1⟩, ⟨1⟩⟩, ⟨⟨0⟩, ⟨0⟩⟩, ⟨⟨0⟩, ⟨0⟩⟩]

/-- Budget parameters of the tests: a vote window of 10 blocks, with a
threshold of 10% of the total bonded power. -/
def sampleBudgetParams : BudgetParams := ⟨10, ⟨10 ^ 17⟩⟩

/-- The validators of the budget tests: four validators of equal power. -/
def sampleBudgetValidators : List Validator := [⟨[1], 1⟩, ⟨[2], 1⟩, ⟨[3], 1⟩, ⟨[4], 1⟩]

/-- The budget state at genesis: no program, the first identifier being 1. -/
def sampleBudgetGenesis : BudgetState := ⟨fun _ => none, 1, [], fun _ _ => none⟩

/-- A block in which the four validators cast the same vote on program 1. -/
def sampleVoteBlock (option : Bool) : BudgetBlock :=
  ⟨sampleBudgetValidators,
    [BudgetMsg.MsgVoteProgram 1 option [1], BudgetMsg.MsgVoteProgram 1 option [2],
      BudgetMsg.MsgVoteProgram 1 option [3], BudgetMsg.MsgVoteProgram 1 option [4]]⟩

/-- A block without messages. -/
def sampleEmptyBlock : BudgetBlock := ⟨sampleBudgetValidators, []⟩

/-- The state of `TestProgramRegister` at height 12, the closing height of the
program submitted in block 2, before the sweep: all validators approve. -/
def sampleClosingState : BudgetState :=
  (handleBudgetMsg sampleBudgetParams 2 sampleBudgetGenesis
    (BudgetMsg.MsgSubmitProgram "title" "description" [1] [1])) |>
    fun st => (sampleVoteBlock true).msgs.foldl (handleBudgetMsg sampleBudgetParams 3) st

/-- A budget state in which program 1 of submitter `[1]`, submitted in block 2,
is pending. -/
def samplePendingState : BudgetState :=
  SubmitProgram sampleBudgetParams 2 sampleBudgetGenesis "title" "description" [1] [1]

/-- Messages in the shape of the pay tests: a send of ten million foocoin, a
message of another module, and a multi-send with two inputs of foocoin. -/
def sampleMsgs : List Msg :=
  [Msg.MsgSend [1] [2] [⟨"foocoin", 10000000⟩], Msg.other [[1]],
    Msg.MsgMultiSend [⟨[1], [⟨"foocoin", 3000000⟩]⟩, ⟨[4], [⟨"foocoin", 5000000⟩, ⟨"uluna", 9⟩]⟩]
      [⟨[2], [⟨"foocoin", 8000000⟩, ⟨"uluna", 9⟩]⟩]]

/-- An account with the address `[1]` that holds twenty million foocoin. -/
def sampleAccount : Account := ⟨[1], [⟨"foocoin", 20000000⟩], none, 0, 0⟩

/-- A fee of a thousand foocoin for a gas limit of 200000. -/
def sampleFee : StdFee := ⟨[⟨"foocoin", 1000⟩], 200000⟩

/-- A state with the accounts `[1]` and `[2]`, each with twenty million foocoin,
and collected fees of five foocoin. -/
def sampleTwoSignerState : AnteState :=
  ⟨fun addr =>
      if addr = [1] then some ⟨[1], [⟨"foocoin", 20000000⟩], none, 0, 0⟩
      else if addr = [2] then some ⟨[2], [⟨"foocoin", 20000000⟩], none, 1, 0⟩
      else none,
    [⟨"foocoin", 5⟩], []⟩

/-- Library functions for sample runs with two signers: the address of a key is
its bytes, every signature verifies. -/
def sampleKeyCrypto : Crypto :=
  ⟨fun pubKey => match pubKey with
      | PubKey.secp256k1 key => key
      | PubKey.ed25519 key => key
      | PubKey.multisig _ _ => []
      | PubKey.other _ key => key,
    fun _ _ _ => true, fun _ _ _ _ _ _ => [], fun _ => none, fun _ => 0⟩

/-- A transaction with two messages of another module, signed by `[1]` and
`[2]`, that offers a fee of a thousand foocoin. -/
def sampleTwoSignerTx : StdTx :=
  ⟨[Msg.other [[1]], Msg.other [[2]]], ⟨[⟨"foocoin", 1000⟩], 200000⟩,
    [⟨some (PubKey.secp256k1 [1]), [9]⟩, ⟨some (PubKey.secp256k1 [2]), [9]⟩], ""⟩

/-- A transaction of `[1]` that sends a hundred million foocoin, more than the
balance of `sampleAnteState`, and offers a fee of 200000 foocoin, which covers
the stability tax of 100000 foocoin. -/
def sampleOverspendTx : StdTx :=
  ⟨[Msg.MsgSend [1] [2] [⟨"foocoin", 100000000⟩]], ⟨[⟨"foocoin", 200000⟩], 200000⟩,
    [⟨some (PubKey.secp256k1 [1]), [9]⟩], ""⟩

/-- A stand-in for the handler of the bank module on a send that exceeds the
balance: the messages fail with insufficient funds. -/
def sampleFailingMsgs : AnteState → List Msg → AnteState × Result :=
  fun st _ => (st, Result.error CodeType.InsufficientFunds)

/-- An account with the address `[1]` whose public key `secp256k1 [1]` is set. -/
def sampleKeyedAccount : Account :=
  ⟨[1], [⟨"foocoin", 20000000⟩], some (PubKey.secp256k1 [1]), 0, 3⟩

/-- A key of three keys, one of which is a multi-signature key of two keys. -/
def sampleNestedKey : PubKey :=
  PubKey.multisig 2 [PubKey.secp256k1 [1],
    PubKey.multisig 1 [PubKey.secp256k1 [2], PubKey.other "sr25519".toList [3]],
    PubKey.multisig 1 []]

/-- Parameters of the auth module with a memo limit of 4. -/
def sampleShortMemoParams : Params := ⟨4, 7, 10, 590, 1000⟩

/-- A transaction whose memo is "café": 4 characters, which are 5 bytes in
UTF-8. -/
def sampleAccentMemoTx : StdTx :=
  ⟨[Msg.other [[1]]], ⟨[], 200000⟩, [⟨some (PubKey.secp256k1 [1]), [9]⟩], "café"⟩

/-- A transaction whose memo is "cafe": 4 characters, which are 4 bytes. -/
def samplePlainMemoTx : StdTx :=
  ⟨[Msg.other [[1]]], ⟨[], 200000⟩, [⟨some (PubKey.secp256k1 [1]), [9]⟩], "cafe"⟩

/-- A context of a check for the mempool on a node whose minimum gas price is
0.1 foocoin. -/
def sampleCheckContext : Context :=
  ⟨5, 0, "", 100, true, [⟨"foocoin", ⟨10 ^ 17⟩⟩], NewInfiniteGasMeter⟩

/-- A fee of one foocoin for a gas limit of zero. -/
def sampleZeroGasFee : StdFee := ⟨[⟨"foocoin", 1⟩], 0⟩

/-- A fee of 30000 foocoin for a gas limit of 200000. -/
def sampleCoveringFee : StdFee := ⟨[⟨"foocoin", 30000⟩], 200000⟩

/-- A fee of a million foocoin for a gas limit of `2 ^ 63`. -/
def sampleHugeGasFee : StdFee := ⟨[⟨"foocoin", 1000000⟩], 2 ^ 63⟩

/-! ## Definitions for the proofs -/

/-- The tax that `computeTax` charges for one coin of a taxed denomination:
the truncated product of amount and rate, replaced by the cap when greater. -/
def taxDueOf (taxRate : Dec) (tk : TreasuryKeeper) (coin : Coin) : Int :=
  let taxDue := ((Dec.NewDecFromInt coin.Amount).Mul taxRate).TruncateInt
  let taxCap := tk.GetTaxCap coin.Denom
  if taxDue > taxCap then taxCap else taxDue

/-- The total of `taxDueOf` over the coins of a denomination in a principal,
the native denomination being exempt. -/
def taxSum (taxRate : Dec) (tk : TreasuryKeeper) (denom : String) : Coins → Int
  | [] => 0
  | coin :: rest =>
    (if coin.Denom = denom ∧ coin.Denom ≠ MicroLunaDenom then taxDueOf taxRate tk coin else 0)
      + taxSum taxRate tk denom rest

/-- What `safeAdd` computes on sorted sets: a sorted set without zero coins
whose denominations come from the arguments and whose amounts are the sums. -/
def AddSpec (a b r : Coins) : Prop :=
  Coins.Sorted r ∧
  (∀ x ∈ r, x.Amount ≠ 0 ∧ (x.Denom ∈ a.map Coin.Denom ∨ x.Denom ∈ b.map Coin.Denom)) ∧
  ∀ d, Coins.AmountOf r d = Coins.AmountOf a d + Coins.AmountOf b d

/-- The coins of a principal other than those of the native denomination, in
their order. -/
def nonNative (principal : Coins) : Coins :=
  principal.filter (fun coin => decide (coin.Denom ≠ MicroLunaDenom))

/-- The principals that the stability tax is charged on, in the order of the
messages: the amount of each `MsgSend` and the coins of each input of each
`MsgMultiSend`; a message of any other type has none. -/
def taxedPrincipals : List Msg → List Coins
  | [] => []
  | Msg.MsgSend _ _ amount :: rest => amount :: taxedPrincipals rest
  | Msg.MsgMultiSend inputs _ :: rest => inputs.map Input.Coins ++ taxedPrincipals rest
  | Msg.other _ :: rest => taxedPrincipals rest

/-- The sum of `computeTax` over a list of principals, added from the left to
the taxes so far with `Coins.Add`; a panic of `computeTax` is a panic of the sum. -/
def sumOfTaxes (tk : TreasuryKeeper) : Coins → List Coins → Option Coins
  | taxes, [] => some taxes
  | taxes, principal :: rest =>
    match computeTax tk principal with
    | none => none
    | some tax => sumOfTaxes tk (taxes.Add tax) rest

/-- The three conditions under which `DeductFees` reaches `SetCoins`: the fee
amount is valid, the coins less the fee have no negative amount, and the
spendable coins less the fee have none. -/
def feePayable (impl : AccountImpl) (blockTime : Nat) (acc : Account) (fee : StdFee) : Prop :=
  Coins.IsValid fee.Amount ∧ (acc.Coins.SafeSub fee.Amount).2 = false ∧
    ((impl.SpendableCoins acc blockTime).SafeSub fee.Amount).2 = false

instance (impl : AccountImpl) (blockTime : Nat) (acc : Account) (fee : StdFee) :
    Decidable (feePayable impl blockTime acc fee) := by
  unfold feePayable
  exact inferInstance

/-- The setters of an account implementation are those of `auth.BaseAccount`,
which the vesting accounts of the SDK embed; the spendable coins are free. -/
def baseSetters (impl : AccountImpl) : Prop :=
  impl.SetCoins = BaseAccountImpl.SetCoins ∧ impl.SetPubKey = BaseAccountImpl.SetPubKey ∧
    impl.SetSequence = BaseAccountImpl.SetSequence

/-- The account keeper stores every account under its own address. -/
def storeKeyed (st : AnteState) : Prop :=
  ∀ addr acc, st.Accounts addr = some acc → acc.Address = addr

/-- The number of keys that `ValidateSigCount` counts for one signature: the
sub-keys of its public key (a `nil` key counts as one key). -/
def sigSubKeys (sig : StdSignature) : Nat :=
  match sig.PubKey with
  | none => 1
  | some pubKey => countSubKeys pubKey

/-- The total of `countSubKeys` over the public keys of all signatures. -/
def totalSubKeys (sigs : List StdSignature) : Nat := (sigs.map sigSubKeys).sum

mutual
/-- The leaves of the tree of a public key that are not multi-signature keys,
from left to right. -/
def leafKeys : PubKey → List PubKey
  | PubKey.multisig _ pubKeys => leafKeysList pubKeys
  | PubKey.secp256k1 key => [PubKey.secp256k1 key]
  | PubKey.ed25519 key => [PubKey.ed25519 key]
  | PubKey.other typeName key => [PubKey.other typeName key]
/-- The leaves of the trees of a list of public keys. -/
def leafKeysList : List PubKey → List PubKey
  | [] => []
  | subkey :: rest => leafKeys subkey ++ leafKeysList rest
end

/-- A public key is a threshold multi-signature key. -/
def PubKey.isMultisig : PubKey → Bool
  | PubKey.multisig _ _ => true
  | _ => false

/-- The meter can take an amount of gas: the sum neither overflows `uint64` nor
passes the limit of a basic gas meter. -/
def GasMeter.canConsume (meter : GasMeter) (amount : Nat) : Prop :=
  meter.consumed + amount < uint64Size ∧
    ∀ limit, meter.limit = some limit → meter.consumed + amount ≤ limit

/-- The name of the type of a public key contains none of the three names that
`consumeSigVerificationGas` looks for. -/
def PubKey.unrecognised (pubkey : PubKey) : Prop :=
  stringsContains (pubkeyType pubkey) "ed25519" = false ∧
    stringsContains (pubkeyType pubkey) "secp256k1" = false ∧
    stringsContains (pubkeyType pubkey) "multisigthreshold" = false

/-- The integer `r` is the ceiling of the product of a gas price and a gas
limit: the least integer that is not below it. -/
def IsCeilOf (price : Dec) (gas : Nat) (r : Int) : Prop :=
  (r - 1) * 10 ^ 18 < price.raw * (gas : Int) ∧ price.raw * (gas : Int) ≤ r * 10 ^ 18

/-! # Theorems -/

/-! ## Strings and coins -/

theorem stringsCompare_lt_iff (a b : String) :
    stringsCompare a b = Ordering.lt ↔ a.toList < b.toList := by
  unfold stringsCompare
  by_cases h : a.toList < b.toList
  · simp [h]
  · simp only [h, if_false, iff_false]
    by_cases h2 : a = b <;> simp [h2]

theorem stringsCompare_eq_iff (a b : String) :
    stringsCompare a b = Ordering.eq ↔ a = b := by
  unfold stringsCompare
  by_cases h : a.toList < b.toList
  · have : a ≠ b := by
      rintro rfl
      exact lt_irrefl _ h
    simp [h, this]
  · by_cases h2 : a = b <;> simp [h, h2]

theorem stringsCompare_gt_iff (a b : String) :
    stringsCompare a b = Ordering.gt ↔ b.toList < a.toList := by
  unfold stringsCompare
  by_cases h : a.toList < b.toList
  · simp only [h, if_true]
    constructor
    · intro h2
      cases h2
    · intro h2
      exact absurd (lt_trans h h2) (lt_irrefl _)
  · by_cases h2 : a = b
    · subst h2
      simp
    · simp only [h, h2, if_false, true_iff]
      rcases lt_trichotomy a.toList b.toList with h3 | h3 | h3
      · exact absurd h3 h
      · exact absurd (String.toList_inj.mp h3) h2
      · exact h3

theorem AmountOf_nil (d : String) : Coins.AmountOf [] d = 0 := rfl

theorem AmountOf_cons (c : Coin) (cs : Coins) (d : String) :
    Coins.AmountOf (c :: cs) d = if c.Denom = d then c.Amount else Coins.AmountOf cs d := by
  unfold Coins.AmountOf
  by_cases h : c.Denom = d <;> simp [List.find?, h]

theorem AmountOf_eq_zero_of_not_mem (cs : Coins) (d : String)
    (h : d ∉ cs.map Coin.Denom) : Coins.AmountOf cs d = 0 := by
  induction cs with
  | nil => rfl
  | cons c cs ih =>
    simp only [List.map_cons, List.mem_cons, not_or] at h
    rw [AmountOf_cons, if_neg (fun e => h.1 e.symm)]
    exact ih h.2

theorem Sorted_cons_iff (c : Coin) (cs : Coins) :
    Coins.Sorted (c :: cs) ↔
      (∀ x ∈ cs, c.Denom.toList < x.Denom.toList) ∧ Coins.Sorted cs := by
  unfold Coins.Sorted
  exact List.pairwise_cons

theorem Sorted_head_not_mem (c : Coin) (cs : Coins) (h : Coins.Sorted (c :: cs)) :
    c.Denom ∉ cs.map Coin.Denom := by
  intro hmem
  obtain ⟨x, hx, hxd⟩ := List.mem_map.mp hmem
  have := ((Sorted_cons_iff c cs).mp h).1 x hx
  rw [hxd] at this
  exact lt_irrefl _ this

theorem removeZeroCoins_sublist (cs : Coins) : (removeZeroCoins cs).Sublist cs := by
  unfold removeZeroCoins
  exact List.filter_sublist cs

theorem removeZeroCoins_Sorted (cs : Coins) (h : Coins.Sorted cs) :
    Coins.Sorted (removeZeroCoins cs) :=
  List.Pairwise.sublist (removeZeroCoins_sublist cs) h

theorem mem_removeZeroCoins (cs : Coins) (x : Coin) :
    x ∈ removeZeroCoins cs ↔ x ∈ cs ∧ x.Amount ≠ 0 := by
  unfold removeZeroCoins
  simp [List.mem_filter, Coin.IsZero]

theorem removeZeroCoins_cons (c : Coin) (cs : Coins) :
    removeZeroCoins (c :: cs) =
      if c.Amount = 0 then removeZeroCoins cs else c :: removeZeroCoins cs := by
  unfold removeZeroCoins
  by_cases h : c.Amount = 0 <;> simp [List.filter_cons, Coin.IsZero, h]

theorem AmountOf_removeZeroCoins (cs : Coins) (h : Coins.Sorted cs) (d : String) :
    Coins.AmountOf (removeZeroCoins cs) d = Coins.AmountOf cs d := by
  induction cs with
  | nil => rfl
  | cons c cs ih =>
    have hs := (Sorted_cons_iff c cs).mp h
    rw [removeZeroCoins_cons, AmountOf_cons]
    by_cases hz : c.Amount = 0
    · rw [if_pos hz, ih hs.2]
      by_cases hd : c.Denom = d
      · rw [if_pos hd, hz]
        apply AmountOf_eq_zero_of_not_mem
        rw [← hd]
        exact Sorted_head_not_mem c cs h
      · rw [if_neg hd]
    · rw [if_neg hz, AmountOf_cons, ih hs.2]

theorem lt_of_mem_denoms (c : Coin) (cs : Coins) (hs : Coins.Sorted (c :: cs)) (d e : String)
    (hd : d ∈ (c :: cs).map Coin.Denom) (he : e.toList < c.Denom.toList) :
    e.toList < d.toList := by
  simp only [List.map_cons, List.mem_cons] at hd
  rcases hd with hd | hd
  · rw [hd]
    exact he
  · obtain ⟨x, hx, hxd⟩ := List.mem_map.mp hd
    rw [← hxd]
    exact lt_trans he (((Sorted_cons_iff c cs).mp hs).1 x hx)

theorem AmountOf_eq_zero_of_lt (c : Coin) (cs : Coins) (hs : Coins.Sorted (c :: cs))
    (e : String) (he : e.toList < c.Denom.toList) : Coins.AmountOf (c :: cs) e = 0 := by
  apply AmountOf_eq_zero_of_not_mem
  intro hmem
  exact lt_irrefl _ (lt_of_mem_denoms c cs hs e e hmem he)

theorem AmountOf_head (c : Coin) (cs : Coins) : Coins.AmountOf (c :: cs) c.Denom = c.Amount := by
  rw [AmountOf_cons, if_pos rfl]

theorem AmountOf_tail_head (c : Coin) (cs : Coins) (hs : Coins.Sorted (c :: cs)) :
    Coins.AmountOf cs c.Denom = 0 :=
  AmountOf_eq_zero_of_not_mem cs c.Denom (Sorted_head_not_mem c cs hs)

theorem safeAddAux_spec (coinA : Coin) (restA : Coins) (hA : Coins.Sorted (coinA :: restA))
    (ih : ∀ b, Coins.Sorted b → AddSpec restA b (safeAdd restA b)) :
    ∀ b, Coins.Sorted b →
      AddSpec (coinA :: restA) b (safeAddAux coinA (safeAdd restA) restA b) := by
  have hA2 := (Sorted_cons_iff coinA restA).mp hA
  intro b
  induction b with
  | nil =>
    intro _
    refine ⟨removeZeroCoins_Sorted _ hA, ?_, ?_⟩
    · intro x hx
      have := (mem_removeZeroCoins _ x).mp hx
      exact ⟨this.2, Or.inl (List.mem_map_of_mem _ this.1)⟩
    · intro d
      show Coins.AmountOf (removeZeroCoins (coinA :: restA)) d = _
      rw [AmountOf_removeZeroCoins _ hA, AmountOf_nil, add_zero]
  | cons coinB restB ihB =>
    intro hB
    have hB2 := (Sorted_cons_iff coinB restB).mp hB
    unfold safeAddAux
    cases hcmp : stringsCompare coinA.Denom coinB.Denom with
    | lt =>
      have hlt := (stringsCompare_lt_iff _ _).mp hcmp
      obtain ⟨hs, hm, ha⟩ := ih (coinB :: restB) hB
      have hne : coinA.Denom ≠ coinB.Denom := by
        intro e
        rw [e] at hlt
        exact lt_irrefl _ hlt
      have hb0 : Coins.AmountOf (coinB :: restB) coinA.Denom = 0 :=
        AmountOf_eq_zero_of_lt coinB restB hB _ hlt
      have hmem : ∀ x ∈ safeAdd restA (coinB :: restB),
          x.Amount ≠ 0 ∧ (x.Denom ∈ (coinA :: restA).map Coin.Denom ∨
            x.Denom ∈ (coinB :: restB).map Coin.Denom) := by
        intro x hx
        refine ⟨(hm x hx).1, ?_⟩
        rcases (hm x hx).2 with h | h
        · exact Or.inl (List.mem_cons_of_mem _ h)
        · exact Or.inr h
      by_cases hz : coinA.Amount = 0
      · simp only [Coin.IsZero, hz, decide_True, if_true]
        refine ⟨hs, hmem, ?_⟩
        intro d
        rw [ha d, AmountOf_cons coinA restA d]
        by_cases hd : coinA.Denom = d
        · rw [if_pos hd, hz, ← hd, AmountOf_tail_head coinA restA hA]
        · rw [if_neg hd]
      · simp only [Coin.IsZero, hz, decide_False, Bool.false_eq_true, if_false]
        refine ⟨?_, ?_, ?_⟩
        · refine (Sorted_cons_iff _ _).mpr ⟨?_, hs⟩
          intro x hx
          rcases (hm x hx).2 with h | h
          · obtain ⟨y, hy, hyd⟩ := List.mem_map.mp h
            rw [← hyd]
            exact hA2.1 y hy
          · exact lt_of_mem_denoms coinB restB hB _ _ h hlt
        · intro x hx
          rcases List.mem_cons.mp hx with hx | hx
          · rw [hx]
            exact ⟨hz, Or.inl (List.mem_map_of_mem _ (List.mem_cons_self _ _))⟩
          · exact hmem x hx
        · intro d
          rw [AmountOf_cons, AmountOf_cons coinA restA d]
          by_cases hd : coinA.Denom = d
          · rw [if_pos hd, if_pos hd, ← hd, hb0, add_zero]
          · rw [if_neg hd, if_neg hd, ha d]
    | eq =>
      have heq := (stringsCompare_eq_iff _ _).mp hcmp
      obtain ⟨hs, hm, ha⟩ := ih restB hB2.2
      have hmem : ∀ x ∈ safeAdd restA restB,
          x.Amount ≠ 0 ∧ (x.Denom ∈ (coinA :: restA).map Coin.Denom ∨
            x.Denom ∈ (coinB :: restB).map Coin.Denom) := by
        intro x hx
        refine ⟨(hm x hx).1, ?_⟩
        rcases (hm x hx).2 with h | h
        · exact Or.inl (List.mem_cons_of_mem _ h)
        · exact Or.inr (List.mem_cons_of_mem _ h)
      have hsum : ∀ d, Coins.AmountOf (coinA :: restA) d + Coins.AmountOf (coinB :: restB) d
          = (if coinA.Denom = d then coinA.Amount + coinB.Amount
              else Coins.AmountOf (safeAdd restA restB) d) := by
        intro d
        rw [AmountOf_cons, AmountOf_cons, ← heq]
        by_cases hd : coinA.Denom = d
        · rw [if_pos hd, if_pos hd, if_pos hd]
        · rw [if_neg hd, if_neg hd, if_neg hd, ha d]
      by_cases hz : coinA.Amount + coinB.Amount = 0
      · simp only [Coin.IsZero, hz, decide_True, if_true]
        refine ⟨hs, hmem, ?_⟩
        intro d
        rw [hsum d]
        by_cases hd : coinA.Denom = d
        · rw [if_pos hd, hz, ha d, ← hd, AmountOf_tail_head coinA restA hA]
          have := AmountOf_tail_head coinB restB hB
          rw [← heq] at this
          rw [this, add_zero]
        · rw [if_neg hd]
      · simp only [Coin.IsZero, hz, decide_False, Bool.false_eq_true, if_false]
        refine ⟨?_, ?_, ?_⟩
        · refine (Sorted_cons_iff _ _).mpr ⟨?_, hs⟩
          intro x hx
          show coinA.Denom.toList < x.Denom.toList
          rcases (hm x hx).2 with h | h
          · obtain ⟨y, hy, hyd⟩ := List.mem_map.mp h
            rw [← hyd]
            exact hA2.1 y hy
          · obtain ⟨y, hy, hyd⟩ := List.mem_map.mp h
            rw [← hyd, heq]
            exact hB2.1 y hy
        · intro x hx
          rcases List.mem_cons.mp hx with hx | hx
          · rw [hx]
            refine ⟨hz, Or.inl ?_⟩
            show coinA.Denom ∈ _
            exact List.mem_map_of_mem Coin.Denom (List.mem_cons_self coinA restA)
          · exact hmem x hx
        · intro d
          rw [hsum d, AmountOf_cons]
    | gt =>
      have hgt := (stringsCompare_gt_iff _ _).mp hcmp
      obtain ⟨hs, hm, ha⟩ := ihB hB2.2
      have hne : coinB.Denom ≠ coinA.Denom := by
        intro e
        rw [e] at hgt
        exact lt_irrefl _ hgt
      have ha0 : Coins.AmountOf (coinA :: restA) coinB.Denom = 0 :=
        AmountOf_eq_zero_of_lt coinA restA hA _ hgt
      have hmem : ∀ x ∈ safeAddAux coinA (safeAdd restA) restA restB,
          x.Amount ≠ 0 ∧ (x.Denom ∈ (coinA :: restA).map Coin.Denom ∨
            x.Denom ∈ (coinB :: restB).map Coin.Denom) := by
        intro x hx
        refine ⟨(hm x hx).1, ?_⟩
        rcases (hm x hx).2 with h | h
        · exact Or.inl h
        · exact Or.inr (List.mem_cons_of_mem _ h)
      by_cases hz : coinB.Amount = 0
      · simp only [Coin.IsZero, hz, decide_True, if_true]
        refine ⟨hs, hmem, ?_⟩
        intro d
        rw [ha d, AmountOf_cons coinB restB d]
        by_cases hd : coinB.Denom = d
        · rw [if_pos hd, hz, ← hd, AmountOf_tail_head coinB restB hB]
        · rw [if_neg hd]
      · simp only [Coin.IsZero, hz, decide_False, Bool.false_eq_true, if_false]
        refine ⟨?_, ?_, ?_⟩
        · refine (Sorted_cons_iff _ _).mpr ⟨?_, hs⟩
          intro x hx
          rcases (hm x hx).2 with h | h
          · exact lt_of_mem_denoms coinA restA hA _ _ h hgt
          · obtain ⟨y, hy, hyd⟩ := List.mem_map.mp h
            rw [← hyd]
            exact hB2.1 y hy
        · intro x hx
          rcases List.mem_cons.mp hx with hx | hx
          · rw [hx]
            exact ⟨hz, Or.inr (List.mem_map_of_mem _ (List.mem_cons_self _ _))⟩
          · exact hmem x hx
        · intro d
          rw [AmountOf_cons, AmountOf_cons coinB restB d]
          by_cases hd : coinB.Denom = d
          · rw [if_pos hd, if_pos hd, ← hd, ha0, zero_add]
          · rw [if_neg hd, if_neg hd, ha d]

theorem safeAdd_spec (a : Coins) : ∀ b, Coins.Sorted a → Coins.Sorted b →
    AddSpec a b (safeAdd a b) := by
  induction a with
  | nil =>
    intro b _ hb
    refine ⟨removeZeroCoins_Sorted _ hb, ?_, ?_⟩
    · intro x hx
      have := (mem_removeZeroCoins _ x).mp hx
      exact ⟨this.2, Or.inr (List.mem_map_of_mem _ this.1)⟩
    · intro d
      show Coins.AmountOf (removeZeroCoins b) d = _
      rw [AmountOf_removeZeroCoins _ hb, AmountOf_nil, zero_add]
  | cons coinA restA ih =>
    intro b ha hb
    exact safeAddAux_spec coinA restA ha
      (fun b2 hb2 => ih b2 ((Sorted_cons_iff coinA restA).mp ha).2 hb2) b hb

/-! ## Decimals -/

theorem precisionReuse_pos : 0 < precisionReuse := by
  unfold precisionReuse Precision
  norm_num

theorem chopPrecisionAndRoundNonneg_mul (k : Int) :
    chopPrecisionAndRoundNonneg (k * precisionReuse) = k := by
  unfold chopPrecisionAndRoundNonneg
  have h1 : Int.tdiv (k * precisionReuse) precisionReuse = k :=
    Int.mul_tdiv_cancel k (ne_of_gt precisionReuse_pos)
  have h2 : Int.tmod (k * precisionReuse) precisionReuse = 0 := Int.mul_tmod_left k precisionReuse
  simp only [h1, h2, if_true]

theorem chopPrecisionAndRound_mul (k : Int) :
    chopPrecisionAndRound (k * precisionReuse) = k := by
  unfold chopPrecisionAndRound
  by_cases h : k * precisionReuse < 0
  · rw [if_pos h, ← neg_mul, chopPrecisionAndRoundNonneg_mul, neg_neg]
  · rw [if_neg h, chopPrecisionAndRoundNonneg_mul]

theorem NewDecFromInt_Mul (a : Int) (r : Dec) :
    (Dec.NewDecFromInt a).Mul r = r.MulInt a := by
  unfold Dec.NewDecFromInt Dec.Mul Dec.MulInt
  have : a * precisionReuse * r.raw = (r.raw * a) * precisionReuse := by ring
  simp only [this, chopPrecisionAndRound_mul]

theorem taxDueOf_eq_reference (taxRate : Dec) (tk : TreasuryKeeper) (coin : Coin) :
    taxDueOf taxRate tk coin = referenceTaxDue taxRate (tk.GetTaxCap coin.Denom) coin.Amount := by
  unfold taxDueOf referenceTaxDue
  rw [NewDecFromInt_Mul]

theorem referenceTaxDue_eq_min (taxRate : Dec) (taxCap amount : Int) :
    referenceTaxDue taxRate taxCap amount
      = min (Int.tdiv (taxRate.raw * amount) (10 ^ 18)) taxCap := by
  unfold referenceTaxDue Dec.MulInt Dec.TruncateInt
  show (if Int.tdiv (taxRate.raw * amount) precisionReuse > taxCap then taxCap
      else Int.tdiv (taxRate.raw * amount) precisionReuse) = _
  have hp : precisionReuse = 10 ^ 18 := rfl
  rw [hp]
  by_cases h : Int.tdiv (taxRate.raw * amount) (10 ^ 18) > taxCap
  · rw [if_pos h, min_eq_right (le_of_lt h)]
  · rw [if_neg h, min_eq_left (not_lt.mp h)]

theorem taxDueOf_nonneg (taxRate : Dec) (tk : TreasuryKeeper) (coin : Coin)
    (hr : 0 ≤ taxRate.raw) (ha : 0 ≤ coin.Amount) (hc : 0 ≤ tk.GetTaxCap coin.Denom) :
    0 ≤ taxDueOf taxRate tk coin := by
  rw [taxDueOf_eq_reference, referenceTaxDue_eq_min]
  exact le_min (Int.tdiv_nonneg (mul_nonneg hr ha) (by norm_num)) hc

/-! ## The stability tax -/

theorem AmountOf_self_of_mem (cs : Coins) (hs : Coins.Sorted cs) (x : Coin) (hx : x ∈ cs) :
    Coins.AmountOf cs x.Denom = x.Amount := by
  induction cs with
  | nil => cases hx
  | cons c cs ih =>
    have hs2 := (Sorted_cons_iff c cs).mp hs
    rcases List.mem_cons.mp hx with h | h
    · rw [h, AmountOf_head]
    · have hne : c.Denom ≠ x.Denom := by
        intro e
        have := hs2.1 x h
        rw [e] at this
        exact lt_irrefl _ this
      rw [AmountOf_cons, if_neg hne]
      exact ih hs2.2 h

theorem AmountOf_nonneg (cs : Coins) (h : ∀ x ∈ cs, 0 ≤ x.Amount) (d : String) :
    0 ≤ Coins.AmountOf cs d := by
  induction cs with
  | nil => exact le_refl _
  | cons c cs ih =>
    rw [AmountOf_cons]
    by_cases hd : c.Denom = d
    · rw [if_pos hd]
      exact h c (List.mem_cons_self _ _)
    · rw [if_neg hd]
      exact ih (fun x hx => h x (List.mem_cons_of_mem _ hx))

theorem Add_IsValid (a b : Coins) (ha : Coins.IsValid a) (hb : Coins.IsValid b) :
    Coins.IsValid (a.Add b) ∧
      ∀ d, Coins.AmountOf (a.Add b) d = Coins.AmountOf a d + Coins.AmountOf b d := by
  obtain ⟨hs, hm, hsum⟩ := safeAdd_spec a b ha.1 hb.1
  refine ⟨⟨hs, ?_⟩, hsum⟩
  intro x hx
  have h1 : Coins.AmountOf (safeAdd a b) x.Denom = x.Amount := AmountOf_self_of_mem _ hs x hx
  have h2 := hsum x.Denom
  have h3 := AmountOf_nonneg a (fun y hy => le_of_lt (ha.2 y hy)) x.Denom
  have h4 := AmountOf_nonneg b (fun y hy => le_of_lt (hb.2 y hy)) x.Denom
  have h5 := (hm x hx).1
  omega

theorem computeTaxLoop_cons (taxRate : Dec) (tk : TreasuryKeeper) (taxes : Coins) (coin : Coin)
    (rest : Coins) :
    computeTaxLoop taxRate tk taxes (coin :: rest) =
      if coin.Denom = MicroLunaDenom then computeTaxLoop taxRate tk taxes rest
      else if taxDueOf taxRate tk coin = 0 then computeTaxLoop taxRate tk taxes rest
      else
        match NewCoin coin.Denom (taxDueOf taxRate tk coin) with
        | none => none
        | some taxCoin =>
          match NewCoins taxCoin with
          | none => none
          | some taxCoins => computeTaxLoop taxRate tk (taxes.Add taxCoins) rest := rfl

theorem taxSum_cons (taxRate : Dec) (tk : TreasuryKeeper) (d : String) (coin : Coin)
    (rest : Coins) :
    taxSum taxRate tk d (coin :: rest) =
      (if coin.Denom = d ∧ coin.Denom ≠ MicroLunaDenom then taxDueOf taxRate tk coin else 0)
        + taxSum taxRate tk d rest := rfl

theorem computeTaxLoop_spec (taxRate : Dec) (tk : TreasuryKeeper) (hr : 0 ≤ taxRate.raw) :
    ∀ (principal taxes : Coins), Coins.IsValid taxes →
      (∀ c ∈ principal, 0 ≤ c.Amount) → (∀ c ∈ principal, 0 ≤ tk.GetTaxCap c.Denom) →
      ∃ out, computeTaxLoop taxRate tk taxes principal = some out ∧ Coins.IsValid out ∧
        ∀ d, Coins.AmountOf out d = Coins.AmountOf taxes d + taxSum taxRate tk d principal := by
  intro principal
  induction principal with
  | nil =>
    intro taxes hv _ _
    exact ⟨taxes, rfl, hv, fun d => by simp [taxSum]⟩
  | cons coin rest ih =>
    intro taxes hv hamt hcap
    have hamt2 : ∀ c ∈ rest, 0 ≤ c.Amount := fun c hc => hamt c (List.mem_cons_of_mem _ hc)
    have hcap2 : ∀ c ∈ rest, 0 ≤ tk.GetTaxCap c.Denom :=
      fun c hc => hcap c (List.mem_cons_of_mem _ hc)
    rw [computeTaxLoop_cons]
    by_cases hl : coin.Denom = MicroLunaDenom
    · rw [if_pos hl]
      obtain ⟨out, ho, hvo, hso⟩ := ih taxes hv hamt2 hcap2
      refine ⟨out, ho, hvo, fun d => ?_⟩
      rw [hso d, taxSum_cons, if_neg (fun e => e.2 hl), zero_add]
    · rw [if_neg hl]
      by_cases hz : taxDueOf taxRate tk coin = 0
      · rw [if_pos hz]
        obtain ⟨out, ho, hvo, hso⟩ := ih taxes hv hamt2 hcap2
        refine ⟨out, ho, hvo, fun d => ?_⟩
        rw [hso d, taxSum_cons, hz, ite_self, zero_add]
      · rw [if_neg hz]
        have hnn := taxDueOf_nonneg taxRate tk coin hr (hamt coin (List.mem_cons_self _ _))
          (hcap coin (List.mem_cons_self _ _))
        have hpos : 0 < taxDueOf taxRate tk coin := lt_of_le_of_ne hnn (Ne.symm hz)
        have h1 : NewCoin coin.Denom (taxDueOf taxRate tk coin)
            = some ⟨coin.Denom, taxDueOf taxRate tk coin⟩ := by
          unfold NewCoin
          rw [if_neg (not_lt.mpr hnn)]
        have h2 : NewCoins ⟨coin.Denom, taxDueOf taxRate tk coin⟩
            = some [⟨coin.Denom, taxDueOf taxRate tk coin⟩] := by
          unfold NewCoins
          simp [Coin.IsZero, Coin.IsPositive, hz, hpos]
        rw [h1]
        simp only [h2]
        have hv1 : Coins.IsValid [(⟨coin.Denom, taxDueOf taxRate tk coin⟩ : Coin)] := by
          refine ⟨List.pairwise_singleton _ _, ?_⟩
          intro x hx
          rw [List.mem_singleton.mp hx]
          exact hpos
        obtain ⟨hva, hsa⟩ := Add_IsValid taxes _ hv hv1
        obtain ⟨out, ho, hvo, hso⟩ := ih _ hva hamt2 hcap2
        refine ⟨out, ho, hvo, fun d => ?_⟩
        rw [hso d, hsa d, AmountOf_cons, AmountOf_nil]
        rw [taxSum_cons]
        by_cases hd : coin.Denom = d
        · rw [if_pos hd, if_pos ⟨hd, hl⟩, add_assoc]
        · rw [if_neg hd, if_neg (fun e => hd e.1), add_assoc]

theorem taxSum_eq_zero_of_not_mem (taxRate : Dec) (tk : TreasuryKeeper) (d : String)
    (principal : Coins) (h : d ∉ principal.map Coin.Denom) :
    taxSum taxRate tk d principal = 0 := by
  induction principal with
  | nil => rfl
  | cons c cs ih =>
    simp only [List.map_cons, List.mem_cons, not_or] at h
    have hne : ¬ (c.Denom = d ∧ c.Denom ≠ MicroLunaDenom) := fun e => h.1 e.1.symm
    rw [taxSum_cons, if_neg hne, zero_add]
    exact ih h.2

theorem taxSum_of_mem (taxRate : Dec) (tk : TreasuryKeeper) (principal : Coins) (coin : Coin)
    (hnodup : (principal.map Coin.Denom).Nodup) (hmem : coin ∈ principal)
    (hd : coin.Denom ≠ MicroLunaDenom) :
    taxSum taxRate tk coin.Denom principal = taxDueOf taxRate tk coin := by
  induction principal with
  | nil => cases hmem
  | cons c cs ih =>
    simp only [List.map_cons, List.nodup_cons] at hnodup
    rcases List.mem_cons.mp hmem with h | h
    · subst h
      have hc : coin.Denom = coin.Denom ∧ coin.Denom ≠ MicroLunaDenom := ⟨rfl, hd⟩
      rw [taxSum_cons, if_pos hc, taxSum_eq_zero_of_not_mem _ _ _ _ hnodup.1, add_zero]
    · have hne : ¬ (c.Denom = coin.Denom ∧ c.Denom ≠ MicroLunaDenom) := by
        intro e
        apply hnodup.1
        rw [e.1]
        exact List.mem_map_of_mem _ h
      rw [taxSum_cons, if_neg hne, zero_add]
      exact ih hnodup.2 h

/-- C1: for a non-negative tax rate and non-negative tax caps, `computeTax` on a
principal of non-negative coins with pairwise different denominations returns a
set of coins whose amount in the denomination of every coin of the principal
other than uluna is the minimum of the truncated product of rate and amount and
the tax cap of the denomination, which is the reference value of the pay tests. -/
theorem computeTax_charges_min (tk : TreasuryKeeper) (principal : Coins) (coin : Coin)
    (hrate : 0 ≤ tk.GetTaxRate.raw)
    (hcap : ∀ c ∈ principal, 0 ≤ tk.GetTaxCap c.Denom)
    (hamt : ∀ c ∈ principal, 0 ≤ c.Amount)
    (hnodup : (principal.map Coin.Denom).Nodup)
    (hmem : coin ∈ principal) (hd : coin.Denom ≠ MicroLunaDenom) :
    ∃ taxes, computeTax tk principal = some taxes ∧
      Coins.AmountOf taxes coin.Denom
        = min (Int.tdiv (tk.GetTaxRate.raw * coin.Amount) (10 ^ 18)) (tk.GetTaxCap coin.Denom) ∧
      Coins.AmountOf taxes coin.Denom
        = referenceTaxDue tk.GetTaxRate (tk.GetTaxCap coin.Denom) coin.Amount := by
  unfold computeTax
  by_cases hz : tk.GetTaxRate.Equal Dec.ZeroDec = true
  · have hr0 : tk.GetTaxRate.raw = 0 := by
      simpa [Dec.Equal, Dec.ZeroDec] using hz
    refine ⟨[], by simp [hz], ?_, ?_⟩
    · rw [AmountOf_nil, hr0, zero_mul]
      have := hcap coin hmem
      simp [this]
    · rw [AmountOf_nil, referenceTaxDue_eq_min, hr0, zero_mul]
      have := hcap coin hmem
      simp [this]
  · obtain ⟨out, ho, _, hso⟩ := computeTaxLoop_spec tk.GetTaxRate tk hrate principal []
      ⟨List.Pairwise.nil, fun _ h => by cases h⟩ hamt hcap
    refine ⟨out, by simp [hz, ho], ?_, ?_⟩
    · rw [hso coin.Denom, AmountOf_nil, zero_add, taxSum_of_mem _ _ _ _ hnodup hmem hd,
        taxDueOf_eq_reference, referenceTaxDue_eq_min]
    · rw [hso coin.Denom, AmountOf_nil, zero_add, taxSum_of_mem _ _ _ _ hnodup hmem hd,
        taxDueOf_eq_reference]

theorem computeTax_charges_min_witness :
    ∃ taxes, computeTax sampleTreasuryKeeper [⟨"foocoin", 10000000⟩, ⟨"uluna", 5⟩] = some taxes ∧
      Coins.AmountOf taxes "foocoin"
        = min (Int.tdiv ((10 : Int) ^ 15 * 10000000) (10 ^ 18)) 1000000 ∧
      Coins.AmountOf taxes "foocoin" = referenceTaxDue ⟨10 ^ 15⟩ 1000000 10000000 :=
  computeTax_charges_min sampleTreasuryKeeper [⟨"foocoin", 10000000⟩, ⟨"uluna", 5⟩]
    ⟨"foocoin", 10000000⟩ (by decide) (by decide) (by decide) (by decide) (by decide) (by decide)

/-! ## The ante handler -/

theorem IsAnyNegative_iff (coins : Coins) :
    Coins.IsAnyNegative coins = true ↔ ∃ coin ∈ coins, coin.Amount < 0 := by
  unfold Coins.IsAnyNegative
  simp [List.any_eq_true, Coin.IsNegative]

/-- C2: outside of a simulation, when the taxes of the messages are computed and
the fee minus these taxes has a negative amount in some denomination, the ante
handler returns `abort = true` with the code of an insufficient fee, and the
state (accounts, collected fees, recorded tax proceeds) is the one it was given. -/
theorem anteHandler_insufficient_fee_for_taxes (crypto : Crypto) (impl : AccountImpl)
    (params : Params) (tk : TreasuryKeeper) (st : AnteState) (ctx : Context) (stdTx : StdTx)
    (taxes : Coins)
    (htax : filterMsgAndComputeTax tk stdTx.Msgs = some taxes)
    (hneg : ∃ coin ∈ (stdTx.Fee.Amount.SafeSub taxes).1, coin.Amount < 0) :
    ∃ r, NewAnteHandler crypto impl params tk st ctx (Tx.StdTx stdTx) false = some r ∧
      r.abort = true ∧ r.res.Code = CodeType.InsufficientFee ∧ r.State = st := by
  have h2 : (stdTx.Fee.Amount.SafeSub taxes).2 = true := by
    have := (IsAnyNegative_iff (stdTx.Fee.Amount.SafeSub taxes).1).mpr hneg
    simpa [Coins.SafeSub] using this
  refine ⟨⟨st, Context.zero, Result.error CodeType.InsufficientFee, true⟩, ?_, rfl, rfl, rfl⟩
  unfold NewAnteHandler
  simp [htax, h2]

theorem anteHandler_insufficient_fee_for_taxes_witness :
    ∃ r, NewAnteHandler sampleCrypto BaseAccountImpl sampleParams sampleTreasuryKeeper
        sampleAnteState sampleContext (Tx.StdTx sampleUnderpaidTx) false = some r ∧
      r.abort = true ∧ r.res.Code = CodeType.InsufficientFee ∧ r.State = sampleAnteState :=
  anteHandler_insufficient_fee_for_taxes sampleCrypto BaseAccountImpl sampleParams
    sampleTreasuryKeeper sampleAnteState sampleContext sampleUnderpaidTx [⟨"foocoin", 10000⟩]
    (by decide) ⟨⟨"foocoin", -10000⟩, by decide, by decide⟩

/-! ## The oracle: commit and reveal -/

/-- C3 (counterexample): a reveal of the rate -1 whose hash equals the stored
prevote hash is rejected with `NegativeRate`. -/
theorem SubmitVote_negative_rate_rejected :
    storedPrevoteHash sampleNegativePrevoteState [1] "foocoin" 3
        = some (sampleVoteHash "abcd" ⟨-1⟩ "foocoin" [1]) ∧
      SubmitVote sampleVoteHash sampleNegativePrevoteState 3 [1] "foocoin" ⟨-1⟩ "abcd"
        = Except.error OracleError.NegativeRate := by
  constructor
  · decide
  · rfl

/-- C3 (amended): `SubmitVote` succeeds if and only if the hash of salt, rate,
denomination and voter equals the prevote hash stored for the validator, the
denomination and the voting period, and the rate is not negative; every other
reveal is rejected. -/
theorem SubmitVote_succeeds_iff (VoteHash : String → Dec → String → ValAddress → Bytes)
    (st : OracleState) (period : Nat) (voter : ValAddress) (denom : String) (rate : Dec)
    (salt : String) :
    (∃ st2, SubmitVote VoteHash st period voter denom rate salt = Except.ok st2) ↔
      (storedPrevoteHash st voter denom period = some (VoteHash salt rate denom voter) ∧
        0 ≤ rate.raw) := by
  unfold SubmitVote storedPrevoteHash
  cases hf : findVote st voter denom period with
  | none => simp
  | some e =>
    obtain ⟨v, d, p, state⟩ := e
    cases state with
    | Revealed r => simp
    | Prevoted storedHash =>
      by_cases hh : VoteHash salt rate denom voter = storedHash
      · by_cases hr : rate.raw < 0
        · simp [hh, hr]
        · simp [hh, hr, not_lt.mp hr]
      · have hh2 : ¬ storedHash = VoteHash salt rate denom voter := fun e => hh e.symm
        simp [hh, hh2]

/-! ## The oracle: quorum -/

theorem aggregateDenom_prices_other (params : OracleParams) (validators : List Validator)
    (votes : List VoteEntry) (period : Nat) (st : OracleState) (d denom : String)
    (h : d ≠ denom) :
    (aggregateDenom params validators votes period st d).prices denom = st.prices denom := by
  unfold aggregateDenom
  have h2 : ¬ denom = d := fun e => h e.symm
  by_cases hq : hasQuorum params (totalRevealPower (revealsOf validators votes d period))
      (totalBondedPower validators) = true
  · cases hm : weightedMedian (revealsOf validators votes d period) <;> simp [hq, hm, h2]
  · simp [hq]

theorem aggregateDenom_prices_no_quorum (params : OracleParams) (validators : List Validator)
    (votes : List VoteEntry) (period : Nat) (st : OracleState) (denom : String)
    (h : hasQuorum params (totalRevealPower (revealsOf validators votes denom period))
      (totalBondedPower validators) = false) :
    (aggregateDenom params validators votes period st denom).prices = st.prices := by
  unfold aggregateDenom
  simp [h]

theorem foldl_aggregateDenom_prices (params : OracleParams) (validators : List Validator)
    (votes : List VoteEntry) (period : Nat) (denom : String)
    (h : hasQuorum params (totalRevealPower (revealsOf validators votes denom period))
      (totalBondedPower validators) = false) :
    ∀ (ds : List String) (st : OracleState),
      (ds.foldl (aggregateDenom params validators votes period) st).prices denom
        = st.prices denom := by
  intro ds
  induction ds with
  | nil => intro st; rfl
  | cons d ds ih =>
    intro st
    rw [List.foldl_cons, ih]
    by_cases hd : d = denom
    · rw [hd, aggregateDenom_prices_no_quorum params validators votes period st denom h]
    · exact aggregateDenom_prices_other params validators votes period st d denom hd

/-- C5: when the total power of the validators that revealed a vote for a
denomination is below the quorum fraction of the total bonded power, the close
of the voting period leaves the stored price of the denomination as it was. -/
theorem closePeriod_below_quorum_keeps_price (params : OracleParams)
    (validators : List Validator) (period : Nat) (st : OracleState) (denom : String)
    (h : (totalRevealPower (revealsOf validators st.votes denom period) : Int) * 10 ^ 18
      < params.VoteThreshold.raw * (totalBondedPower validators : Int)) :
    (closePeriod params validators period st).prices denom = st.prices denom := by
  have hq : hasQuorum params (totalRevealPower (revealsOf validators st.votes denom period))
      (totalBondedPower validators) = false := by
    unfold hasQuorum
    have hp : precisionReuse = 10 ^ 18 := rfl
    rw [hp]
    exact decide_eq_false (not_le.mpr h)
  unfold closePeriod
  exact foldl_aggregateDenom_prices params validators st.votes period denom hq _ st

theorem closePeriod_below_quorum_keeps_price_witness :
    (closePeriod sampleOracleParams sampleValidators 3 sampleMinorityState).prices "foocoin"
      = none :=
  closePeriod_below_quorum_keeps_price sampleOracleParams sampleValidators 3
    sampleMinorityState "foocoin" (by decide)

/-! ## The oracle: the weighted median -/

instance : IsTotal Reveal Reveal.le where
  total a b := by
    unfold Reveal.le
    rcases lt_trichotomy a.rate.raw b.rate.raw with h | h | h
    · exact Or.inl (Or.inl h)
    · rcases le_total a.voter b.voter with hv | hv
      · exact Or.inl (Or.inr ⟨h, hv⟩)
      · exact Or.inr (Or.inr ⟨h.symm, hv⟩)
    · exact Or.inr (Or.inl h)

instance : IsTrans Reveal Reveal.le where
  trans a b c := by
    unfold Reveal.le
    rintro (h1 | ⟨h1, v1⟩) (h2 | ⟨h2, v2⟩)
    · exact Or.inl (lt_trans h1 h2)
    · exact Or.inl (h2 ▸ h1)
    · exact Or.inl (h1 ▸ h2)
    · exact Or.inr ⟨h1.trans h2, le_trans v1 v2⟩

theorem Reveal.le_rate (a b : Reveal) (h : Reveal.le a b) : a.rate.raw ≤ b.rate.raw := by
  rcases h with h | ⟨h, _⟩
  · exact le_of_lt h
  · exact le_of_eq h

theorem insertionSort_rates_sorted (reveals : List Reveal) :
    (reveals.insertionSort Reveal.le).Pairwise (fun a b => a.rate.raw ≤ b.rate.raw) :=
  List.Pairwise.imp (fun {a b} h => Reveal.le_rate a b h)
    (List.sorted_insertionSort Reveal.le reveals)

theorem totalRevealPower_cons (v : Reveal) (rest : List Reveal) :
    totalRevealPower (v :: rest) = v.power + totalRevealPower rest := by
  unfold totalRevealPower
  simp

theorem totalRevealPower_perm (l1 l2 : List Reveal) (h : l1.Perm l2) :
    totalRevealPower l1 = totalRevealPower l2 := by
  unfold totalRevealPower
  exact (h.map Reveal.power).sum_eq

theorem powerUpTo_perm (r : Int) (l1 l2 : List Reveal) (h : l1.Perm l2) :
    powerUpTo r l1 = powerUpTo r l2 := by
  induction h with
  | nil => rfl
  | cons x _ ih => simp only [powerUpTo, ih]
  | swap x y l =>
    simp only [powerUpTo]
    omega
  | trans _ _ ih1 ih2 => exact ih1.trans ih2

theorem powerUpTo_eq_zero (r : Int) (s : List Reveal) (h : ∀ v ∈ s, r < v.rate.raw) :
    powerUpTo r s = 0 := by
  induction s with
  | nil => rfl
  | cons v rest ih =>
    have hv : ¬ v.rate.raw ≤ r := not_le.mpr (h v (List.mem_cons_self _ _))
    simp only [powerUpTo, if_neg hv, zero_add]
    exact ih (fun u hu => h u (List.mem_cons_of_mem _ hu))

theorem medianWalk_spec (total : Nat) :
    ∀ (s : List Reveal) (cum : Nat), s ≠ [] →
      s.Pairwise (fun a b => a.rate.raw ≤ b.rate.raw) →
      total ≤ 2 * (cum + totalRevealPower s) →
      ∃ v ∈ s, medianWalk total cum s = some v.rate ∧
        total ≤ 2 * (cum + powerUpTo v.rate.raw s) ∧
        ∀ u ∈ s, u.rate.raw < v.rate.raw → 2 * (cum + powerUpTo u.rate.raw s) < total := by
  intro s
  induction s with
  | nil => intro _ h; exact absurd rfl h
  | cons v rest ih =>
    intro cum _ hsorted htotal
    have hs := List.pairwise_cons.mp hsorted
    by_cases hstop : 2 * (cum + v.power) ≥ total
    · refine ⟨v, List.mem_cons_self _ _, ?_, ?_, ?_⟩
      · simp only [medianWalk, if_pos hstop]
      · simp only [powerUpTo, if_pos (le_refl v.rate.raw)]
        omega
      · intro u hu hlt
        rcases List.mem_cons.mp hu with h | h
        · rw [h] at hlt
          exact absurd hlt (lt_irrefl _)
        · exact absurd hlt (not_lt.mpr (hs.1 u h))
    · have hrest : rest ≠ [] := by
        intro e
        rw [e, totalRevealPower_cons] at htotal
        simp only [totalRevealPower, List.map_nil, List.sum_nil] at htotal
        omega
      have htotal2 : total ≤ 2 * (cum + v.power + totalRevealPower rest) := by
        rw [totalRevealPower_cons] at htotal
        omega
      obtain ⟨w, hw, hwalk, hge, hlt⟩ := ih (cum + v.power) hrest hs.2 htotal2
      have hvw : v.rate.raw ≤ w.rate.raw := hs.1 w hw
      refine ⟨w, List.mem_cons_of_mem _ hw, ?_, ?_, ?_⟩
      · simp only [medianWalk, if_neg hstop]
        exact hwalk
      · simp only [powerUpTo, if_pos hvw]
        omega
      · intro u hu hult
        rcases List.mem_cons.mp hu with h | h
        · rw [h] at hult ⊢
          simp only [powerUpTo, if_pos (le_refl v.rate.raw)]
          by_cases hin : ∃ x ∈ rest, x.rate.raw = v.rate.raw
          · obtain ⟨x, hx, hxv⟩ := hin
            have := hlt x hx (by rw [hxv]; exact hult)
            rw [hxv] at this
            omega
          · have hz : powerUpTo v.rate.raw rest = 0 := by
              apply powerUpTo_eq_zero
              intro x hx
              rcases lt_or_eq_of_le (hs.1 x hx) with h1 | h1
              · exact h1
              · exact absurd ⟨x, hx, h1.symm⟩ hin
            rw [hz]
            omega
        · have hvu : v.rate.raw ≤ u.rate.raw := hs.1 u h
          have := hlt u h hult
          simp only [powerUpTo, if_pos hvu]
          omega

theorem IsMedian_perm (l1 l2 : List Reveal) (m : Dec) (h : l1.Perm l2) (hm : IsMedian l1 m) :
    IsMedian l2 m := by
  obtain ⟨⟨v, hv, hvm⟩, hge, hlt⟩ := hm
  refine ⟨⟨v, h.mem_iff.mp hv, hvm⟩, ?_, ?_⟩
  · rw [← totalRevealPower_perm l1 l2 h, ← powerUpTo_perm m.raw l1 l2 h]
    exact hge
  · intro u hu hum
    rw [← totalRevealPower_perm l1 l2 h, ← powerUpTo_perm u.rate.raw l1 l2 h]
    exact hlt u (h.mem_iff.mpr hu) hum

theorem IsMedian_unique (l : List Reveal) (m1 m2 : Dec) (h1 : IsMedian l m1)
    (h2 : IsMedian l m2) : m1 = m2 := by
  obtain ⟨⟨v1, hv1, hvm1⟩, hge1, hlt1⟩ := h1
  obtain ⟨⟨v2, hv2, hvm2⟩, hge2, hlt2⟩ := h2
  have heq : m1.raw = m2.raw := by
    rcases lt_trichotomy m1.raw m2.raw with h | h | h
    · have := hlt2 v1 hv1 (by rw [hvm1]; exact h)
      rw [hvm1] at this
      omega
    · exact h
    · have := hlt1 v2 hv2 (by rw [hvm2]; exact h)
      rw [hvm2] at this
      omega
  cases m1
  cases m2
  simp only at heq
  rw [heq]

theorem weightedMedian_IsMedian (reveals : List Reveal) (h : reveals ≠ []) :
    ∃ m, weightedMedian reveals = some m ∧ IsMedian reveals m := by
  have hperm := List.perm_insertionSort Reveal.le reveals
  have hne : reveals.insertionSort Reveal.le ≠ [] := by
    intro e
    rw [e] at hperm
    exact h (List.Perm.eq_nil hperm.symm)
  have htot : totalRevealPower reveals
      ≤ 2 * (0 + totalRevealPower (reveals.insertionSort Reveal.le)) := by
    rw [totalRevealPower_perm _ _ hperm]
    omega
  obtain ⟨v, hv, hwalk, hge, hlt⟩ :=
    medianWalk_spec (totalRevealPower reveals) _ 0 hne (insertionSort_rates_sorted reveals) htot
  refine ⟨v.rate, hwalk, ?_⟩
  apply IsMedian_perm _ _ _ hperm
  refine ⟨⟨v, hv, rfl⟩, ?_, ?_⟩
  · rw [totalRevealPower_perm _ _ hperm]
    omega
  · intro u hu hum
    have := hlt u hu hum
    rw [totalRevealPower_perm _ _ hperm]
    omega

theorem exists_min_rate (reveals : List Reveal) (h : reveals ≠ []) :
    ∃ lo ∈ reveals, ∀ v ∈ reveals, lo.rate.raw ≤ v.rate.raw := by
  induction reveals with
  | nil => exact absurd rfl h
  | cons a rest ih =>
    by_cases hr : rest = []
    · subst hr
      exact ⟨a, List.mem_cons_self _ _, fun v hv => by
        rw [List.mem_singleton.mp hv]⟩
    · obtain ⟨lo, hlo, hmin⟩ := ih hr
      by_cases hcmp : a.rate.raw ≤ lo.rate.raw
      · refine ⟨a, List.mem_cons_self _ _, fun v hv => ?_⟩
        rcases List.mem_cons.mp hv with e | e
        · rw [e]
        · exact le_trans hcmp (hmin v e)
      · refine ⟨lo, List.mem_cons_of_mem _ hlo, fun v hv => ?_⟩
        rcases List.mem_cons.mp hv with e | e
        · rw [e]
          exact le_of_lt (not_le.mp hcmp)
        · exact hmin v e

theorem exists_max_rate (reveals : List Reveal) (h : reveals ≠ []) :
    ∃ hi ∈ reveals, ∀ v ∈ reveals, v.rate.raw ≤ hi.rate.raw := by
  induction reveals with
  | nil => exact absurd rfl h
  | cons a rest ih =>
    by_cases hr : rest = []
    · subst hr
      exact ⟨a, List.mem_cons_self _ _, fun v hv => by
        rw [List.mem_singleton.mp hv]⟩
    · obtain ⟨hi, hhi, hmax⟩ := ih hr
      by_cases hcmp : hi.rate.raw ≤ a.rate.raw
      · refine ⟨a, List.mem_cons_self _ _, fun v hv => ?_⟩
        rcases List.mem_cons.mp hv with e | e
        · rw [e]
        · exact le_trans (hmax v e) hcmp
      · refine ⟨hi, List.mem_cons_of_mem _ hhi, fun v hv => ?_⟩
        rcases List.mem_cons.mp hv with e | e
        · rw [e]
          exact le_of_lt (not_le.mp hcmp)
        · exact hmax v e

/-- C4: for every non-empty list of reveals the stake-weighted median exists,
lies between the minimum and the maximum submitted rate, and is the result for
every reordering of the list. -/
theorem weightedMedian_bounds_and_order (reveals : List Reveal) (h : reveals ≠ []) :
    ∃ m, weightedMedian reveals = some m ∧
      (∃ lo ∈ reveals, (∀ v ∈ reveals, lo.rate.raw ≤ v.rate.raw) ∧ lo.rate.raw ≤ m.raw) ∧
      (∃ hi ∈ reveals, (∀ v ∈ reveals, v.rate.raw ≤ hi.rate.raw) ∧ m.raw ≤ hi.rate.raw) ∧
      ∀ reordered : List Reveal, reveals.Perm reordered → weightedMedian reordered = some m := by
  obtain ⟨m, hm, hmed⟩ := weightedMedian_IsMedian reveals h
  obtain ⟨lo, hlo, hmin⟩ := exists_min_rate reveals h
  obtain ⟨hi, hhi, hmax⟩ := exists_max_rate reveals h
  obtain ⟨v, hv, hvm⟩ := hmed.1
  refine ⟨m, hm, ⟨lo, hlo, hmin, ?_⟩, ⟨hi, hhi, hmax, ?_⟩, ?_⟩
  · rw [← hvm]
    exact hmin v hv
  · rw [← hvm]
    exact hmax v hv
  · intro reordered hperm
    have hne : reordered ≠ [] := by
      intro e
      rw [e] at hperm
      exact h (List.Perm.eq_nil hperm)
    obtain ⟨m2, hm2, hmed2⟩ := weightedMedian_IsMedian reordered hne
    rw [hm2, IsMedian_unique reordered m2 m hmed2 (IsMedian_perm _ _ _ hperm hmed)]

theorem weightedMedian_bounds_and_order_witness :
    ∃ m, weightedMedian [⟨[1], 1, ⟨5⟩⟩, ⟨[2], 1, ⟨3⟩⟩, ⟨[3], 2, ⟨4⟩⟩] = some m ∧
      (∃ lo ∈ [(⟨[1], 1, ⟨5⟩⟩ : Reveal), ⟨[2], 1, ⟨3⟩⟩, ⟨[3], 2, ⟨4⟩⟩],
        (∀ v ∈ [(⟨[1], 1, ⟨5⟩⟩ : Reveal), ⟨[2], 1, ⟨3⟩⟩, ⟨[3], 2, ⟨4⟩⟩],
          lo.rate.raw ≤ v.rate.raw) ∧ lo.rate.raw ≤ m.raw) ∧
      (∃ hi ∈ [(⟨[1], 1, ⟨5⟩⟩ : Reveal), ⟨[2], 1, ⟨3⟩⟩, ⟨[3], 2, ⟨4⟩⟩],
        (∀ v ∈ [(⟨[1], 1, ⟨5⟩⟩ : Reveal), ⟨[2], 1, ⟨3⟩⟩, ⟨[3], 2, ⟨4⟩⟩],
          v.rate.raw ≤ hi.rate.raw) ∧ m.raw ≤ hi.rate.raw) ∧
      ∀ reordered : List Reveal,
        List.Perm [(⟨[1], 1, ⟨5⟩⟩ : Reveal), ⟨[2], 1, ⟨3⟩⟩, ⟨[3], 2, ⟨4⟩⟩] reordered →
        weightedMedian reordered = some m :=
  weightedMedian_bounds_and_order [⟨[1], 1, ⟨5⟩⟩, ⟨[2], 1, ⟨3⟩⟩, ⟨[3], 2, ⟨4⟩⟩] (by decide)

/-! ## The oracle: a unanimous round -/

theorem findVote_cons (votes : List VoteEntry) (prices : String → Option Dec)
    (inactive : List String) (e : VoteEntry) (voter : ValAddress) (denom : String)
    (period : Nat) :
    findVote ⟨e :: votes, prices, inactive⟩ voter denom period =
      if e.voter = voter ∧ e.denom = denom ∧ e.period = period then some e
      else findVote ⟨votes, prices, inactive⟩ voter denom period := by
  unfold findVote
  by_cases h : e.voter = voter ∧ e.denom = denom ∧ e.period = period
  · simp [List.find?_cons, h]
  · simp only [List.find?_cons, h, decide_False, if_false]

theorem prevoteAll_spec (VoteHash : String → Dec → String → ValAddress → Bytes) (period : Nat)
    (denom : String) (rate : Dec) (salt : ValAddress → String) :
    ∀ (vs : List Validator) (st : OracleState), (vs.map Validator.address).Nodup →
      (∀ v ∈ vs, findVote st v.address denom period = none) →
      ∃ st1, prevoteAll VoteHash period denom rate salt vs st = Except.ok st1 ∧
        st1.prices = st.prices ∧ st1.inactive = st.inactive ∧
        st1.votes = (vs.reverse.map (prevoteEntry VoteHash period denom rate salt)) ++ st.votes := by
  intro vs
  induction vs with
  | nil => intro st _ _; exact ⟨st, rfl, rfl, rfl, by simp⟩
  | cons v rest ih =>
    intro st hnodup hfresh
    simp only [List.map_cons, List.nodup_cons] at hnodup
    have hv := hfresh v (List.mem_cons_self _ _)
    have hstep : SubmitPrevote st period v.address denom
        (VoteHash (salt v.address) rate denom v.address)
        = Except.ok { st with votes := prevoteEntry VoteHash period denom rate salt v :: st.votes } := by
      unfold SubmitPrevote
      rw [hv]
      rfl
    have hfresh2 : ∀ w ∈ rest,
        findVote { st with votes := prevoteEntry VoteHash period denom rate salt v :: st.votes }
          w.address denom period = none := by
      intro w hw
      have hne : ¬ ((prevoteEntry VoteHash period denom rate salt v).voter = w.address ∧
          (prevoteEntry VoteHash period denom rate salt v).denom = denom ∧
          (prevoteEntry VoteHash period denom rate salt v).period = period) := by
        intro e
        apply hnodup.1
        have : v.address = w.address := e.1
        rw [this]
        exact List.mem_map_of_mem _ hw
      have := findVote_cons st.votes st.prices st.inactive
        (prevoteEntry VoteHash period denom rate salt v) w.address denom period
      rw [if_neg hne] at this
      rw [this]
      exact hfresh w (List.mem_cons_of_mem _ hw)
    obtain ⟨st1, h1, hp, hi, hvotes⟩ := ih _ hnodup.2 hfresh2
    refine ⟨st1, ?_, hp, hi, ?_⟩
    · simp only [prevoteAll, hstep]
      exact h1
    · rw [hvotes]
      simp

theorem find_prevoteEntry (VoteHash : String → Dec → String → ValAddress → Bytes) (period : Nat)
    (denom : String) (rate : Dec) (salt : ValAddress → String) (tail : List VoteEntry)
    (v : Validator) :
    ∀ (l : List Validator), v ∈ l →
      List.find? (fun e => decide (e.voter = v.address ∧ e.denom = denom ∧ e.period = period))
        (l.map (prevoteEntry VoteHash period denom rate salt) ++ tail)
        = some (prevoteEntry VoteHash period denom rate salt v) := by
  intro l
  induction l with
  | nil => intro h; cases h
  | cons x rest ih =>
    intro hmem
    by_cases hx : x.address = v.address
    · have : prevoteEntry VoteHash period denom rate salt x
          = prevoteEntry VoteHash period denom rate salt v := by
        unfold prevoteEntry
        rw [hx]
      have hkey : ((prevoteEntry VoteHash period denom rate salt v).voter = v.address ∧
          (prevoteEntry VoteHash period denom rate salt v).denom = denom ∧
          (prevoteEntry VoteHash period denom rate salt v).period = period) := ⟨rfl, rfl, rfl⟩
      simp only [List.map_cons, List.cons_append, List.find?_cons, this, hkey, and_self,
        decide_True]
    · have hv : v ∈ rest := by
        rcases List.mem_cons.mp hmem with e | e
        · exact absurd (by rw [e]) hx
        · exact e
      have hne : ¬ ((prevoteEntry VoteHash period denom rate salt x).voter = v.address ∧
          (prevoteEntry VoteHash period denom rate salt x).denom = denom ∧
          (prevoteEntry VoteHash period denom rate salt x).period = period) :=
        fun e => hx e.1
      simp only [List.map_cons, List.cons_append, List.find?_cons, hne, decide_False]
      exact ih hv

theorem setVote_eq_map_revealEntry (votes : List VoteEntry) (voter : ValAddress)
    (denom : String) (period : Nat) (rate : Dec) :
    setVote votes voter denom period (VoteState.Revealed rate)
      = votes.map (revealEntry period denom rate [voter]) := by
  unfold setVote
  apply List.map_congr_left
  intro e _
  unfold revealEntry
  simp only [List.mem_singleton]

theorem revealEntry_key (period : Nat) (denom : String) (rate : Dec) (addrs : List ValAddress)
    (e : VoteEntry) :
    (revealEntry period denom rate addrs e).voter = e.voter ∧
      (revealEntry period denom rate addrs e).denom = e.denom ∧
      (revealEntry period denom rate addrs e).period = e.period := by
  unfold revealEntry
  split <;> exact ⟨rfl, rfl, rfl⟩

theorem revealEntry_comp (period : Nat) (denom : String) (rate : Dec) (a : ValAddress)
    (addrs : List ValAddress) (e : VoteEntry) :
    revealEntry period denom rate addrs (revealEntry period denom rate [a] e)
      = revealEntry period denom rate (a :: addrs) e := by
  unfold revealEntry
  by_cases hB : e.denom = denom ∧ e.period = period
  · by_cases hA : e.voter = a
    · simp [hA, hB]
    · by_cases hC : e.voter ∈ addrs
      · simp [hA, hB, hC]
      · simp [hA, hB, hC]
  · have hB2 : ¬ (e.voter ∈ [a] ∧ e.denom = denom ∧ e.period = period) := fun h => hB h.2
    have hB3 : ¬ (e.voter ∈ addrs ∧ e.denom = denom ∧ e.period = period) := fun h => hB h.2
    have hB4 : ¬ (e.voter ∈ a :: addrs ∧ e.denom = denom ∧ e.period = period) := fun h => hB h.2
    rw [if_neg hB2, if_neg hB3, if_neg hB4]

theorem findVote_map_revealEntry (st : OracleState) (period : Nat) (denom : String)
    (rate : Dec) (addrs : List ValAddress) (voter : ValAddress) (d : String) (p : Nat) :
    findVote { st with votes := st.votes.map (revealEntry period denom rate addrs) } voter d p
      = (findVote st voter d p).map (revealEntry period denom rate addrs) := by
  unfold findVote
  simp only
  rw [List.find?_map]
  congr 2
  funext e
  have := revealEntry_key period denom rate addrs e
  simp only [Function.comp, this.1, this.2.1, this.2.2]

theorem revealAll_spec (VoteHash : String → Dec → String → ValAddress → Bytes) (period : Nat)
    (denom : String) (rate : Dec) (salt : ValAddress → String) (hr : 0 ≤ rate.raw) :
    ∀ (vs : List Validator) (st : OracleState), (vs.map Validator.address).Nodup →
      (∀ v ∈ vs, findVote st v.address denom period
        = some (prevoteEntry VoteHash period denom rate salt v)) →
      ∃ st2, revealAll VoteHash period denom rate salt vs st = Except.ok st2 ∧
        st2.prices = st.prices ∧ st2.inactive = st.inactive ∧
        st2.votes = st.votes.map (revealEntry period denom rate (vs.map Validator.address)) := by
  intro vs
  induction vs with
  | nil =>
    intro st _ _
    refine ⟨st, rfl, rfl, rfl, ?_⟩
    have : revealEntry period denom rate [] = id := by
      funext e
      unfold revealEntry
      simp
    simp only [List.map_nil, this, List.map_id]
  | cons v rest ih =>
    intro st hnodup hfind
    simp only [List.map_cons, List.nodup_cons] at hnodup
    have hv := hfind v (List.mem_cons_self _ _)
    have hstep : SubmitVote VoteHash st period v.address denom rate (salt v.address)
        = Except.ok { st with votes := st.votes.map (revealEntry period denom rate [v.address]) } := by
      unfold SubmitVote
      rw [hv]
      simp only [prevoteEntry, ne_eq, not_true_eq_false, if_false, not_lt.mpr hr]
      rw [setVote_eq_map_revealEntry]
    have hfind2 : ∀ w ∈ rest,
        findVote { st with votes := st.votes.map (revealEntry period denom rate [v.address]) }
          w.address denom period = some (prevoteEntry VoteHash period denom rate salt w) := by
      intro w hw
      rw [findVote_map_revealEntry, hfind w (List.mem_cons_of_mem _ hw)]
      have hne : ¬ ((prevoteEntry VoteHash period denom rate salt w).voter ∈ [v.address] ∧
          (prevoteEntry VoteHash period denom rate salt w).denom = denom ∧
          (prevoteEntry VoteHash period denom rate salt w).period = period) := by
        intro e
        apply hnodup.1
        have : w.address = v.address := List.mem_singleton.mp e.1
        rw [← this]
        exact List.mem_map_of_mem _ hw
      simp only [Option.map_some', revealEntry, if_neg hne]
    obtain ⟨st2, h2, hp, hi, hvotes⟩ := ih _ hnodup.2 hfind2
    refine ⟨st2, ?_, hp, hi, ?_⟩
    · simp only [revealAll, hstep]
      exact h2
    · rw [hvotes]
      simp only [List.map_map]
      apply List.map_congr_left
      intro e _
      exact revealEntry_comp period denom rate v.address (rest.map Validator.address) e

theorem powerOf_of_mem (vs : List Validator) (hnodup : (vs.map Validator.address).Nodup)
    (v : Validator) (hv : v ∈ vs) : powerOf vs v.address = v.power := by
  induction vs with
  | nil => cases hv
  | cons x rest ih =>
    simp only [List.map_cons, List.nodup_cons] at hnodup
    unfold powerOf
    rcases List.mem_cons.mp hv with e | e
    · subst e
      simp [List.find?_cons]
    · have hne : ¬ x.address = v.address := by
        intro h
        apply hnodup.1
        rw [h]
        exact List.mem_map_of_mem _ e
      simp only [List.find?_cons, hne, decide_False]
      exact ih hnodup.2 e

theorem revealsOf_cons (validators : List Validator) (e : VoteEntry) (votes : List VoteEntry)
    (denom : String) (period : Nat) :
    revealsOf validators (e :: votes) denom period =
      (match e.state with
        | VoteState.Revealed rate =>
          if e.denom = denom ∧ e.period = period then
            [(⟨e.voter, powerOf validators e.voter, rate⟩ : Reveal)]
          else []
        | VoteState.Prevoted _ => []) ++ revealsOf validators votes denom period := by
  unfold revealsOf
  rw [List.filterMap_cons]
  cases hs : e.state with
  | Prevoted h => simp
  | Revealed rate =>
    by_cases hk : e.denom = denom ∧ e.period = period
    · simp [hk]
    · simp only [hk, if_false, List.nil_append]

theorem revealsOf_append (validators : List Validator) (l1 l2 : List VoteEntry)
    (denom : String) (period : Nat) :
    revealsOf validators (l1 ++ l2) denom period
      = revealsOf validators l1 denom period ++ revealsOf validators l2 denom period := by
  unfold revealsOf
  exact List.filterMap_append l1 l2 _

theorem revealsOf_fresh (validators : List Validator) (period : Nat) (denom : String)
    (rate : Dec) (addrs : List ValAddress) (tail : List VoteEntry)
    (hfresh : ∀ e ∈ tail, ¬ (e.denom = denom ∧ e.period = period)) :
    revealsOf validators (tail.map (revealEntry period denom rate addrs)) denom period = [] := by
  induction tail with
  | nil => rfl
  | cons e rest ih =>
    have he := hfresh e (List.mem_cons_self _ _)
    have hkeep : revealEntry period denom rate addrs e = e := by
      unfold revealEntry
      rw [if_neg (fun h => he h.2)]
    rw [List.map_cons, revealsOf_cons, hkeep, ih (fun x hx => hfresh x (List.mem_cons_of_mem _ hx))]
    cases e.state with
    | Prevoted h => rfl
    | Revealed r => simp only [he, if_false, List.append_nil]

theorem revealsOf_round (VoteHash : String → Dec → String → ValAddress → Bytes)
    (validators : List Validator) (period : Nat) (denom : String) (rate : Dec)
    (salt : ValAddress → String) (addrs : List ValAddress) :
    ∀ (l : List Validator), (∀ v ∈ l, v.address ∈ addrs) →
      revealsOf validators
        ((l.map (prevoteEntry VoteHash period denom rate salt)).map
          (revealEntry period denom rate addrs)) denom period
        = l.map (fun v => (⟨v.address, powerOf validators v.address, rate⟩ : Reveal)) := by
  intro l
  induction l with
  | nil => intro _; rfl
  | cons v rest ih =>
    intro hmem
    have hv := hmem v (List.mem_cons_self _ _)
    have hre : revealEntry period denom rate addrs (prevoteEntry VoteHash period denom rate salt v)
        = ⟨v.address, denom, period, VoteState.Revealed rate⟩ := by
      unfold revealEntry prevoteEntry
      simp [hv]
    rw [List.map_cons, List.map_cons, revealsOf_cons, hre,
      ih (fun x hx => hmem x (List.mem_cons_of_mem _ hx))]
    simp

theorem totalRevealPower_round (vs : List Validator) (rate : Dec)
    (hnodup : (vs.map Validator.address).Nodup) :
    totalRevealPower
      (vs.reverse.map (fun v => (⟨v.address, powerOf vs v.address, rate⟩ : Reveal)))
      = totalBondedPower vs := by
  unfold totalRevealPower totalBondedPower
  rw [List.map_map, ← List.sum_reverse (vs.map Validator.power), ← List.map_reverse]
  congr 1
  apply List.map_congr_left
  intro v hv
  exact powerOf_of_mem vs hnodup v (List.mem_reverse.mp hv)

theorem hasQuorum_all (params : OracleParams) (total : Nat)
    (hthr : params.VoteThreshold.raw ≤ 10 ^ 18) : hasQuorum params total total = true := by
  unfold hasQuorum
  have hp : precisionReuse = 10 ^ 18 := rfl
  rw [hp, decide_eq_true_eq, ge_iff_le, mul_comm (total : Int)]
  exact mul_le_mul_of_nonneg_right hthr (Int.ofNat_nonneg total)

theorem weightedMedian_unanimous (reveals : List Reveal) (rate : Dec) (h : reveals ≠ [])
    (hall : ∀ v ∈ reveals, v.rate = rate) : weightedMedian reveals = some rate := by
  obtain ⟨m, hm, ⟨v, hv, hvm⟩, _⟩ := weightedMedian_IsMedian reveals h
  rw [hm, ← hvm, hall v hv]

theorem aggregateDenom_sets_price (params : OracleParams) (validators : List Validator)
    (votes : List VoteEntry) (period : Nat) (st : OracleState) (denom : String) (rate : Dec)
    (hq : hasQuorum params (totalRevealPower (revealsOf validators votes denom period))
      (totalBondedPower validators) = true)
    (hm : weightedMedian (revealsOf validators votes denom period) = some rate) :
    (aggregateDenom params validators votes period st denom).prices denom = some rate := by
  unfold aggregateDenom
  simp [hq, hm]

theorem foldl_aggregateDenom_sets_price (params : OracleParams) (validators : List Validator)
    (votes : List VoteEntry) (period : Nat) (denom : String) (rate : Dec)
    (hq : hasQuorum params (totalRevealPower (revealsOf validators votes denom period))
      (totalBondedPower validators) = true)
    (hm : weightedMedian (revealsOf validators votes denom period) = some rate) :
    ∀ (ds : List String) (st : OracleState), (denom ∈ ds ∨ st.prices denom = some rate) →
      (ds.foldl (aggregateDenom params validators votes period) st).prices denom = some rate := by
  intro ds
  induction ds with
  | nil =>
    intro st h
    rcases h with h | h
    · cases h
    · exact h
  | cons d ds ih =>
    intro st _
    rw [List.foldl_cons]
    by_cases hd : d = denom
    · apply ih
      right
      rw [hd]
      exact aggregateDenom_sets_price params validators votes period st denom rate hq hm
    · apply ih
      rename_i h
      rcases h with h | h
      · left
        rcases List.mem_cons.mp h with e | e
        · exact absurd e.symm hd
        · exact e
      · right
        rw [aggregateDenom_prices_other params validators votes period st d denom hd]
        exact h

theorem denom_mem_denomsOf (validators : List Validator) (votes : List VoteEntry)
    (denom : String) (period : Nat) (h : revealsOf validators votes denom period ≠ []) :
    denom ∈ denomsOf votes period := by
  obtain ⟨r, hr⟩ := List.exists_mem_of_ne_nil _ h
  unfold revealsOf at hr
  obtain ⟨e, he, hfe⟩ := List.mem_filterMap.mp hr
  unfold denomsOf
  rw [List.mem_dedup, List.mem_map]
  refine ⟨e, ?_, ?_⟩
  · rw [List.mem_filter]
    refine ⟨he, ?_⟩
    cases hs : e.state with
    | Prevoted x => simp [hs] at hfe
    | Revealed x =>
      by_cases hk : e.denom = denom ∧ e.period = period
      · simp [hk.2]
      · simp [hs, hk] at hfe
  · cases hs : e.state with
    | Prevoted x => simp [hs] at hfe
    | Revealed x =>
      by_cases hk : e.denom = denom ∧ e.period = period
      · exact hk.1
      · simp [hs, hk] at hfe

/-- C6: when every validator of a non-empty bonded set with pairwise different
addresses prevotes the hash of a non-negative rate with its salt for a voting
period that has no entries yet for the denomination, and then reveals rate and
salt, both rounds of messages succeed and the close of the voting period stores
exactly that rate for the denomination, whatever the powers of the validators
(the quorum fraction being at most one). -/
theorem unanimous_round_sets_rate (VoteHash : String → Dec → String → ValAddress → Bytes)
    (params : OracleParams) (validators : List Validator) (period : Nat) (denom : String)
    (rate : Dec) (salt : ValAddress → String) (st : OracleState)
    (hne : validators ≠ [])
    (hnodup : (validators.map Validator.address).Nodup)
    (hfresh : ∀ e ∈ st.votes, ¬ (e.denom = denom ∧ e.period = period))
    (hr : 0 ≤ rate.raw)
    (hthr : params.VoteThreshold.raw ≤ 10 ^ 18) :
    ∃ st1 st2, prevoteAll VoteHash period denom rate salt validators st = Except.ok st1 ∧
      revealAll VoteHash period denom rate salt validators st1 = Except.ok st2 ∧
      (closePeriod params validators period st2).prices denom = some rate := by
  have hnone : ∀ v ∈ validators, findVote st v.address denom period = none := by
    intro v _
    unfold findVote
    rw [List.find?_eq_none]
    intro e he
    have := hfresh e he
    simp only [decide_eq_true_eq]
    exact fun h => this h.2
  obtain ⟨st1, h1, _, _, hvotes1⟩ :=
    prevoteAll_spec VoteHash period denom rate salt validators st hnodup hnone
  have hfind1 : ∀ v ∈ validators, findVote st1 v.address denom period
      = some (prevoteEntry VoteHash period denom rate salt v) := by
    intro v hv
    unfold findVote
    rw [hvotes1]
    exact find_prevoteEntry VoteHash period denom rate salt st.votes v validators.reverse
      (List.mem_reverse.mpr hv)
  obtain ⟨st2, h2, _, _, hvotes2⟩ :=
    revealAll_spec VoteHash period denom rate salt hr validators st1 hnodup hfind1
  have hreveals : revealsOf validators st2.votes denom period
      = validators.reverse.map
        (fun v => (⟨v.address, powerOf validators v.address, rate⟩ : Reveal)) := by
    rw [hvotes2, hvotes1, List.map_append, revealsOf_append,
      revealsOf_round VoteHash validators period denom rate salt _ validators.reverse
        (fun v hv => List.mem_map_of_mem _ (List.mem_reverse.mp hv)),
      revealsOf_fresh validators period denom rate _ st.votes hfresh, List.append_nil]
  have hnonempty : revealsOf validators st2.votes denom period ≠ [] := by
    rw [hreveals]
    intro e
    apply hne
    have := List.map_eq_nil_iff.mp e
    exact List.reverse_eq_nil_iff.mp this
  have hq : hasQuorum params (totalRevealPower (revealsOf validators st2.votes denom period))
      (totalBondedPower validators) = true := by
    rw [hreveals, totalRevealPower_round validators rate hnodup]
    exact hasQuorum_all params _ hthr
  have hm : weightedMedian (revealsOf validators st2.votes denom period) = some rate := by
    apply weightedMedian_unanimous _ _ hnonempty
    intro v hv
    rw [hreveals] at hv
    obtain ⟨x, _, hx⟩ := List.mem_map.mp hv
    rw [← hx]
  refine ⟨st1, st2, h1, h2, ?_⟩
  unfold closePeriod
  exact foldl_aggregateDenom_sets_price params validators st2.votes period denom rate hq hm _ st2
    (Or.inl (denom_mem_denomsOf validators st2.votes denom period hnonempty))

theorem unanimous_round_sets_rate_witness :
    ∃ st1 st2, prevoteAll sampleVoteHash 3 "foocoin" ⟨8712 * 10 ^ 18⟩ (fun _ => "abcd")
        sampleValidators ⟨[], fun _ => none, []⟩ = Except.ok st1 ∧
      revealAll sampleVoteHash 3 "foocoin" ⟨8712 * 10 ^ 18⟩ (fun _ => "abcd")
        sampleValidators st1 = Except.ok st2 ∧
      (closePeriod sampleOracleParams sampleValidators 3 st2).prices "foocoin"
        = some ⟨8712 * 10 ^ 18⟩ :=
  unanimous_round_sets_rate sampleVoteHash sampleOracleParams sampleValidators 3 "foocoin"
    ⟨8712 * 10 ^ 18⟩ (fun _ => "abcd") ⟨[], fun _ => none, []⟩ (by decide) (by decide)
    (by simp) (by decide) (by decide)

/-! ## The treasury -/

theorem Clamp_bounds (pc : PolicyConstraints) (prevRate newRate : Dec)
    (hmin : pc.RateMin.raw ≤ prevRate.raw) (hmax : prevRate.raw ≤ pc.RateMax.raw)
    (hchange : 0 ≤ pc.ChangeRateMax.raw) :
    pc.RateMin.raw ≤ (pc.Clamp prevRate newRate).raw ∧
      (pc.Clamp prevRate newRate).raw ≤ pc.RateMax.raw ∧
      |(pc.Clamp prevRate newRate).raw - prevRate.raw| ≤ pc.ChangeRateMax.raw := by
  unfold PolicyConstraints.Clamp
  simp only [Dec.LT, Dec.GT, Dec.Sub, Dec.Add, Dec.Abs, decide_eq_true_eq, gt_iff_lt]
  split_ifs <;> simp only [abs_le] <;> (try rw [lt_abs] at *) <;> omega

theorem Clamp_rise (pc : PolicyConstraints) (prevRate newRate : Dec)
    (hchange : 0 ≤ pc.ChangeRateMax.raw)
    (hnew : prevRate.raw + pc.ChangeRateMax.raw ≤ newRate.raw)
    (hroom : prevRate.raw + pc.ChangeRateMax.raw ≤ pc.RateMax.raw) :
    (pc.Clamp prevRate newRate).raw = prevRate.raw + pc.ChangeRateMax.raw := by
  unfold PolicyConstraints.Clamp
  simp only [Dec.LT, Dec.GT, Dec.Sub, Dec.Add, Dec.Abs, decide_eq_true_eq, gt_iff_lt]
  split_ifs <;> (try rw [lt_abs] at *) <;> (try dsimp only) <;> omega

/-- C7 (counterexample): with a rolling average of zero the rate does not always
rise by exactly `ChangeRateMax`, and from a previous rate outside the range the
new rate is outside it.  With the window of three empty epochs: at the previous
rate `RateMax` of 1% the new rate is 1%, not 1.025%; at the previous rate 0.1%
the increment of 7% gives 0.107%, not 0.125%; at the previous rate zero, below
`RateMin`, the new rate is 0.025%, below `RateMin` of 0.05%.  With a window
whose mean rounds to zero while the quotient of the elapsed epoch is above the
floor, the rate falls from 0.5% to 0.475%. -/
theorem updateTaxPolicy_saturated :
    ((rollingAverage sampleEmptyWindow).IsZero = true ∧
        updateTaxPolicy sampleTreasuryParams ⟨10 ^ 16⟩ sampleEmptyWindow = ⟨10 ^ 16⟩ ∧
        (⟨10 ^ 16⟩ : Dec).Add sampleTreasuryParams.TaxPolicy.ChangeRateMax
          = ⟨1025 * 10 ^ 13⟩) ∧
      (updateTaxPolicy sampleTreasuryParams ⟨10 ^ 15⟩ sampleEmptyWindow = ⟨107 * 10 ^ 13⟩ ∧
        (⟨10 ^ 15⟩ : Dec).Add sampleTreasuryParams.TaxPolicy.ChangeRateMax
          = ⟨125 * 10 ^ 13⟩) ∧
      ((rollingAverage sampleDustWindow).IsZero = true ∧
        updateTaxPolicy sampleTreasuryParams ⟨5 * 10 ^ 15⟩ sampleDustWindow
          = ⟨475 * 10 ^ 13⟩) ∧
      (updateTaxPolicy sampleTreasuryParams ⟨0⟩ sampleEmptyWindow = ⟨25 * 10 ^ 13⟩ ∧
        (25 * 10 ^ 13 : Int) < sampleTreasuryParams.TaxPolicy.RateMin.raw) := by
  decide

/-- C7 (amended): for a previous rate within `[RateMin, RateMax]` and a
non-negative `ChangeRateMax`, the tax rate of the epoch-boundary update lies
within `[RateMin, RateMax]` and differs from the previous rate by at most
`ChangeRateMax`, for every rolling window; when the rolling average is zero the
new rate is the previous rate plus `ChangeRateMax` provided that the quotient of
the elapsed epoch is below the floor, that the previous rate times the increment
factor is at least the previous rate plus `ChangeRateMax`, and that the previous
rate plus `ChangeRateMax` is at most `RateMax`. -/
theorem updateTaxPolicy_clamped (params : TreasuryParams) (oldRate : Dec)
    (window : List TaxSample)
    (hmin : params.TaxPolicy.RateMin.raw ≤ oldRate.raw)
    (hmax : oldRate.raw ≤ params.TaxPolicy.RateMax.raw)
    (hchange : 0 ≤ params.TaxPolicy.ChangeRateMax.raw) :
    params.TaxPolicy.RateMin.raw ≤ (updateTaxPolicy params oldRate window).raw ∧
      (updateTaxPolicy params oldRate window).raw ≤ params.TaxPolicy.RateMax.raw ∧
      |(updateTaxPolicy params oldRate window).raw - oldRate.raw|
        ≤ params.TaxPolicy.ChangeRateMax.raw ∧
      ((rollingAverage window).IsZero = true →
        (effectiveTaxQuotient window).LT params.TaxFloor = true →
        oldRate.raw + params.TaxPolicy.ChangeRateMax.raw
          ≤ (oldRate.Mul params.MiningIncrement).raw →
        oldRate.raw + params.TaxPolicy.ChangeRateMax.raw ≤ params.TaxPolicy.RateMax.raw →
        (updateTaxPolicy params oldRate window).raw
          = oldRate.raw + params.TaxPolicy.ChangeRateMax.raw) := by
  obtain ⟨h1, h2, h3⟩ := Clamp_bounds params.TaxPolicy oldRate
    (if (effectiveTaxQuotient window).LT params.TaxFloor then
        oldRate.Mul params.MiningIncrement
      else oldRate.Add (params.TaxTarget.Sub (effectiveTaxQuotient window))) hmin hmax hchange
  refine ⟨h1, h2, h3, ?_⟩
  intro _ hfloor hinc hroom
  unfold updateTaxPolicy
  simp only [hfloor, if_true]
  exact Clamp_rise params.TaxPolicy oldRate _ hchange hinc hroom

theorem updateTaxPolicy_clamped_witness :
    (5 * 10 ^ 14 : Int)
        ≤ (updateTaxPolicy sampleTreasuryParams ⟨5 * 10 ^ 15⟩ sampleEmptyWindow).raw ∧
      (updateTaxPolicy sampleTreasuryParams ⟨5 * 10 ^ 15⟩ sampleEmptyWindow).raw ≤ 10 ^ 16 ∧
      |(updateTaxPolicy sampleTreasuryParams ⟨5 * 10 ^ 15⟩ sampleEmptyWindow).raw - 5 * 10 ^ 15|
        ≤ 25 * 10 ^ 13 ∧
      (updateTaxPolicy sampleTreasuryParams ⟨5 * 10 ^ 15⟩ sampleEmptyWindow).raw
        = 5 * 10 ^ 15 + 25 * 10 ^ 13 :=
  have h := updateTaxPolicy_clamped sampleTreasuryParams ⟨5 * 10 ^ 15⟩ sampleEmptyWindow
    (by decide) (by decide) (by decide)
  ⟨h.1, h.2.1, h.2.2.1, h.2.2.2 (by decide) (by decide) (by decide) (by decide)⟩

theorem clampUnit_bounds (weight : Dec) :
    0 ≤ (clampUnit weight).raw ∧ (clampUnit weight).raw ≤ 10 ^ 18 := by
  unfold clampUnit
  have hp : precisionReuse = 10 ^ 18 := rfl
  simp only [Dec.LT, Dec.GT, Dec.ZeroDec, Dec.OneDec, decide_eq_true_eq, gt_iff_lt, hp]
  split_ifs <;> constructor <;> first | omega | norm_num

/-- C8: at an epoch boundary with a non-zero measured seigniorage burden, the
burden is the seigniorage divided by the total of seigniorage and tax proceeds,
and the new reward weight is the old weight times the quotient of the burden
target by the burden, clamped to `[0, 1]`. -/
theorem updateRewardPolicy_formula (params : TreasuryParams)
    (oldWeight seigniorage taxProceeds : Dec)
    (hb : (seigniorageBurden seigniorage taxProceeds).raw ≠ 0) :
    seigniorageBurden seigniorage taxProceeds = seigniorage.Quo (seigniorage.Add taxProceeds) ∧
      updateRewardPolicy params oldWeight seigniorage taxProceeds
        = clampUnit (oldWeight.Mul (params.SeigniorageBurdenTarget.Quo
            (seigniorageBurden seigniorage taxProceeds))) ∧
      0 ≤ (updateRewardPolicy params oldWeight seigniorage taxProceeds).raw ∧
      (updateRewardPolicy params oldWeight seigniorage taxProceeds).raw ≤ 10 ^ 18 := by
  have hz : (seigniorageBurden seigniorage taxProceeds).IsZero = false := by
    simp [Dec.IsZero, hb]
  have hformula : updateRewardPolicy params oldWeight seigniorage taxProceeds
      = clampUnit (oldWeight.Mul (params.SeigniorageBurdenTarget.Quo
          (seigniorageBurden seigniorage taxProceeds))) := by
    unfold updateRewardPolicy
    simp [hz]
  refine ⟨?_, hformula, ?_, ?_⟩
  · unfold seigniorageBurden at hb ⊢
    by_cases ht : (seigniorage.Add taxProceeds).IsZero = true
    · simp [ht, Dec.ZeroDec] at hb
    · simp [ht]
  · rw [hformula]
    exact (clampUnit_bounds _).1
  · rw [hformula]
    exact (clampUnit_bounds _).2

theorem updateRewardPolicy_formula_witness :
    seigniorageBurden ⟨3 * 10 ^ 18⟩ ⟨10 ^ 18⟩
        = (⟨3 * 10 ^ 18⟩ : Dec).Quo ((⟨3 * 10 ^ 18⟩ : Dec).Add ⟨10 ^ 18⟩) ∧
      updateRewardPolicy sampleTreasuryParams ⟨5 * 10 ^ 17⟩ ⟨3 * 10 ^ 18⟩ ⟨10 ^ 18⟩
        = clampUnit ((⟨5 * 10 ^ 17⟩ : Dec).Mul (sampleTreasuryParams.SeigniorageBurdenTarget.Quo
            (seigniorageBurden ⟨3 * 10 ^ 18⟩ ⟨10 ^ 18⟩))) ∧
      0 ≤ (updateRewardPolicy sampleTreasuryParams ⟨5 * 10 ^ 17⟩ ⟨3 * 10 ^ 18⟩ ⟨10 ^ 18⟩).raw ∧
      (updateRewardPolicy sampleTreasuryParams ⟨5 * 10 ^ 17⟩ ⟨3 * 10 ^ 18⟩ ⟨10 ^ 18⟩).raw
        ≤ 10 ^ 18 :=
  updateRewardPolicy_formula sampleTreasuryParams ⟨5 * 10 ^ 17⟩ ⟨3 * 10 ^ 18⟩ ⟨10 ^ 18⟩
    (by decide)

/-! ## The budget -/

theorem foldl_sweepEntry_spec (params : BudgetParams) (validators : List Validator)
    (programID : Nat) (program : Program) :
    ∀ (entries : List (Nat × Nat)) (st : BudgetState),
      st.programs programID = some program →
      (∀ entry ∈ entries, entry.2 = programID →
        clearsThreshold params (approvePower validators st programID)
          (totalBondedPower validators) = true) →
      (entries.foldl (sweepEntry params validators) st).programs programID = some program ∧
      (entries.foldl (sweepEntry params validators) st).nextProgramID = st.nextProgramID ∧
      (entries.foldl (sweepEntry params validators) st).candQueue
        = st.candQueue.filter (fun e => decide (e ∉ entries)) := by
  intro entries
  induction entries with
  | nil =>
    intro st hp _
    refine ⟨hp, rfl, ?_⟩
    simp
  | cons entry rest ih =>
    intro st hp hclear
    rw [List.foldl_cons]
    have hvotes : (sweepEntry params validators st entry).votes = st.votes := by
      unfold sweepEntry
      split <;> rfl
    have hnext : (sweepEntry params validators st entry).nextProgramID = st.nextProgramID := by
      unfold sweepEntry
      split <;> rfl
    have hqueue : (sweepEntry params validators st entry).candQueue
        = st.candQueue.filter (fun e => decide (e ≠ entry)) := by
      unfold sweepEntry
      split <;> rfl
    have hprog : (sweepEntry params validators st entry).programs programID = some program := by
      unfold sweepEntry
      by_cases hid : entry.2 = programID
      · have := hclear entry (List.mem_cons_self _ _) hid
        rw [hid, this]
        exact hp
      · split
        · exact hp
        · have : ¬ programID = entry.2 := fun e => hid e.symm
          simp only [this, if_false]
          exact hp
    have happ : approvePower validators (sweepEntry params validators st entry) programID
        = approvePower validators st programID := by
      unfold approvePower
      rw [hvotes]
    obtain ⟨h1, h2, h3⟩ := ih (sweepEntry params validators st entry) hprog
      (fun e he hid => by
        rw [happ]
        exact hclear e (List.mem_cons_of_mem _ he) hid)
    refine ⟨h1, h2.trans hnext, ?_⟩
    rw [h3, hqueue, List.filter_filter]
    apply List.filter_congr
    intro e _
    simp only [List.mem_cons, not_or, ne_eq, decide_not, Bool.decide_and]
    exact Bool.and_comm _ _

/-- The invariant of an active program: it is stored below the next identifier
and has no queue entry. -/
theorem BudgetEndBlocker_keeps_active (params : BudgetParams) (validators : List Validator)
    (height programID : Nat) (program : Program) (st : BudgetState)
    (hp : st.programs programID = some program) (hn : programID < st.nextProgramID)
    (hq : ∀ h, (h, programID) ∉ st.candQueue) :
    (BudgetEndBlocker params validators height st).programs programID = some program ∧
      programID < (BudgetEndBlocker params validators height st).nextProgramID ∧
      ∀ h, (h, programID) ∉ (BudgetEndBlocker params validators height st).candQueue := by
  unfold BudgetEndBlocker
  obtain ⟨h1, h2, h3⟩ := foldl_sweepEntry_spec params validators programID program
    (st.candQueue.filter (fun entry => decide (entry.1 = height))) st hp
    (fun entry he hid => by
      exfalso
      have hmem := (List.mem_filter.mp he).1
      apply hq entry.1
      rw [← hid]
      exact hmem)
  refine ⟨h1, by rw [h2]; exact hn, ?_⟩
  intro h hmem
  rw [h3] at hmem
  exact hq h (List.mem_filter.mp hmem).1

theorem handleBudgetMsg_keeps_active (params : BudgetParams) (height programID : Nat)
    (program : Program) (st : BudgetState) (msg : BudgetMsg)
    (hmsg : msg.withdraws programID = false)
    (hp : st.programs programID = some program) (hn : programID < st.nextProgramID)
    (hq : ∀ h, (h, programID) ∉ st.candQueue) :
    (handleBudgetMsg params height st msg).programs programID = some program ∧
      programID < (handleBudgetMsg params height st msg).nextProgramID ∧
      ∀ h, (h, programID) ∉ (handleBudgetMsg params height st msg).candQueue := by
  cases msg with
  | MsgSubmitProgram title description submitter executor =>
    simp only [handleBudgetMsg, SubmitProgram]
    have hne : ¬ programID = st.nextProgramID := Nat.ne_of_lt hn
    refine ⟨by simp only [hne, if_false]; exact hp, Nat.lt_succ_of_lt hn, ?_⟩
    intro h hmem
    rcases List.mem_cons.mp hmem with e | e
    · exact hne (Prod.mk.inj e).2
    · exact hq h e
  | MsgVoteProgram id option voter =>
    simp only [handleBudgetMsg, VoteProgram]
    cases hprog : st.programs id with
    | none => exact ⟨hp, hn, hq⟩
    | some pr =>
      simp only
      split
      · rename_i st2 heq
        split at heq
        · cases heq
          exact ⟨hp, hn, hq⟩
        · cases heq
      · exact ⟨hp, hn, hq⟩
  | MsgWithdrawProgram id submitter =>
    have hid : ¬ id = programID := by
      simpa [BudgetMsg.withdraws] using hmsg
    simp only [handleBudgetMsg, WithdrawProgram]
    cases hprog : st.programs id with
    | none => exact ⟨hp, hn, hq⟩
    | some pr =>
      simp only
      split
      · rename_i st2 heq
        split at heq
        · cases heq
        · cases heq
          have : ¬ programID = id := fun e => hid e.symm
          refine ⟨by simp only [this, if_false]; exact hp, hn, ?_⟩
          intro h hmem
          exact hq h (List.mem_filter.mp hmem).1
      · exact ⟨hp, hn, hq⟩

theorem foldl_handleBudgetMsg_keeps_active (params : BudgetParams) (height programID : Nat)
    (program : Program) :
    ∀ (msgs : List BudgetMsg) (st : BudgetState),
      (∀ m ∈ msgs, m.withdraws programID = false) →
      st.programs programID = some program → programID < st.nextProgramID →
      (∀ h, (h, programID) ∉ st.candQueue) →
      (msgs.foldl (handleBudgetMsg params height) st).programs programID = some program ∧
        programID < (msgs.foldl (handleBudgetMsg params height) st).nextProgramID ∧
        ∀ h, (h, programID) ∉ (msgs.foldl (handleBudgetMsg params height) st).candQueue := by
  intro msgs
  induction msgs with
  | nil => intro st _ hp hn hq; exact ⟨hp, hn, hq⟩
  | cons m rest ih =>
    intro st hno hp hn hq
    rw [List.foldl_cons]
    obtain ⟨h1, h2, h3⟩ := handleBudgetMsg_keeps_active params height programID program st m
      (hno m (List.mem_cons_self _ _)) hp hn hq
    exact ih _ (fun x hx => hno x (List.mem_cons_of_mem _ hx)) h1 h2 h3

theorem runBudgetBlocks_keeps_active (params : BudgetParams) (programID : Nat)
    (program : Program) :
    ∀ (blocks : List BudgetBlock) (height : Nat) (st : BudgetState),
      (∀ b ∈ blocks, ∀ m ∈ b.msgs, m.withdraws programID = false) →
      st.programs programID = some program → programID < st.nextProgramID →
      (∀ h, (h, programID) ∉ st.candQueue) →
      (runBudgetBlocks params height st blocks).programs programID = some program ∧
        ∀ h, (h, programID) ∉ (runBudgetBlocks params height st blocks).candQueue := by
  intro blocks
  induction blocks with
  | nil => intro height st _ hp _ hq; exact ⟨hp, hq⟩
  | cons b rest ih =>
    intro height st hno hp hn hq
    obtain ⟨h1, h2, h3⟩ := foldl_handleBudgetMsg_keeps_active params height programID program
      b.msgs st (hno b (List.mem_cons_self _ _)) hp hn hq
    obtain ⟨k1, k2, k3⟩ := BudgetEndBlocker_keeps_active params b.validators height programID
      program _ h1 h2 h3
    exact ih (height + 1) _ (fun x hx => hno x (List.mem_cons_of_mem _ hx)) k1 k2 k3

/-- C9: for a stored program whose only queue entry is at its closing height
`SubmitBlock + VotePeriod` and whose approve-power at that height is at least the
threshold, after the sweep at that height the program is still retrievable by
its identifier and its queue entry at that height is gone, and both remain so
after every run of later blocks in which no message withdraws the program. -/
theorem active_program_stays (params : BudgetParams) (validators : List Validator)
    (st : BudgetState) (programID : Nat) (program : Program) (blocks : List BudgetBlock)
    (hp : st.programs programID = some program)
    (hn : programID < st.nextProgramID)
    (hq : ∀ h, (h, programID) ∈ st.candQueue → h = program.SubmitBlock + params.VotePeriod)
    (happrove : (approvePower validators st programID : Int) * 10 ^ 18
      ≥ params.ActiveThreshold.raw * (totalBondedPower validators : Int))
    (hno : ∀ b ∈ blocks, ∀ m ∈ b.msgs, m.withdraws programID = false) :
    GetProgram (BudgetEndBlocker params validators (program.SubmitBlock + params.VotePeriod) st)
        programID = Except.ok program ∧
      CandQueueHas
        (BudgetEndBlocker params validators (program.SubmitBlock + params.VotePeriod) st)
        (program.SubmitBlock + params.VotePeriod) programID = false ∧
      GetProgram (runBudgetBlocks params (program.SubmitBlock + params.VotePeriod + 1)
        (BudgetEndBlocker params validators (program.SubmitBlock + params.VotePeriod) st)
        blocks) programID = Except.ok program ∧
      CandQueueHas (runBudgetBlocks params (program.SubmitBlock + params.VotePeriod + 1)
        (BudgetEndBlocker params validators (program.SubmitBlock + params.VotePeriod) st)
        blocks) (program.SubmitBlock + params.VotePeriod) programID = false := by
  have hclear : clearsThreshold params (approvePower validators st programID)
      (totalBondedPower validators) = true := by
    unfold clearsThreshold
    have hpr : precisionReuse = 10 ^ 18 := rfl
    rw [hpr]
    exact decide_eq_true happrove
  obtain ⟨h1, h2, h3⟩ := foldl_sweepEntry_spec params validators programID program
    (st.candQueue.filter
      (fun entry => decide (entry.1 = program.SubmitBlock + params.VotePeriod))) st hp
    (fun _ _ _ => hclear)
  have hgone : ∀ h, (h, programID) ∉
      (BudgetEndBlocker params validators (program.SubmitBlock + params.VotePeriod) st).candQueue := by
    intro h hmem
    unfold BudgetEndBlocker at hmem
    rw [h3] at hmem
    have hm := List.mem_filter.mp hmem
    have hh := hq h hm.1
    have hnot := hm.2
    simp only [decide_eq_true_eq] at hnot
    apply hnot
    exact List.mem_filter.mpr ⟨hm.1, by simp [hh]⟩
  have hnext : programID
      < (BudgetEndBlocker params validators (program.SubmitBlock + params.VotePeriod) st).nextProgramID := by
    unfold BudgetEndBlocker
    rw [h2]
    exact hn
  have hprog : (BudgetEndBlocker params validators (program.SubmitBlock + params.VotePeriod)
      st).programs programID = some program := h1
  obtain ⟨r1, r2⟩ := runBudgetBlocks_keeps_active params programID program blocks
    (program.SubmitBlock + params.VotePeriod + 1) _ hno hprog hnext hgone
  refine ⟨?_, ?_, ?_, ?_⟩
  · unfold GetProgram
    rw [hprog]
  · unfold CandQueueHas
    exact decide_eq_false (hgone _)
  · unfold GetProgram
    rw [r1]
  · unfold CandQueueHas
    exact decide_eq_false (r2 _)

theorem active_program_stays_witness :
    GetProgram (BudgetEndBlocker sampleBudgetParams sampleBudgetValidators 12 sampleClosingState)
        1 = Except.ok ⟨1, "title", "description", [1], [1], 2⟩ ∧
      CandQueueHas
        (BudgetEndBlocker sampleBudgetParams sampleBudgetValidators 12 sampleClosingState)
        12 1 = false ∧
      GetProgram (runBudgetBlocks sampleBudgetParams 13
        (BudgetEndBlocker sampleBudgetParams sampleBudgetValidators 12 sampleClosingState)
        (List.replicate 50 sampleEmptyBlock)) 1
        = Except.ok ⟨1, "title", "description", [1], [1], 2⟩ ∧
      CandQueueHas (runBudgetBlocks sampleBudgetParams 13
        (BudgetEndBlocker sampleBudgetParams sampleBudgetValidators 12 sampleClosingState)
        (List.replicate 50 sampleEmptyBlock)) 12 1 = false :=
  active_program_stays sampleBudgetParams sampleBudgetValidators sampleClosingState 1
    ⟨1, "title", "description", [1], [1], 2⟩ (List.replicate 50 sampleEmptyBlock)
    (by decide) (by decide)
    (by
      intro h hm
      have hqueue : sampleClosingState.candQueue = [(12, 1)] := rfl
      rw [hqueue] at hm
      simpa using hm)
    (by decide) (by decide)

/-! ## The budget: withdrawal of a program -/

/-- C11: for every program of the registry, pending or not, `WithdrawProgram`
issued by the submitter of the program succeeds; afterwards `GetProgram` fails
for the program and the queue has no entry of it at `SubmitBlock + VotePeriod`,
while the other programs, the other queue entries, the votes and the next
identifier are as before.  Issued by any other address it fails with
`Unauthorized`, returns no state, and the handler leaves the state as it was. -/
theorem WithdrawProgram_submitter_only (params : BudgetParams) (height : Nat)
    (st : BudgetState) (programID : Nat) (program : Program) (sender : AccAddress)
    (hprogram : GetProgram st programID = Except.ok program) :
    (sender = program.Submitter →
      ∃ st2, WithdrawProgram params st programID sender = Except.ok st2 ∧
        GetProgram st2 programID = Except.error BudgetError.ProgramNotFound ∧
        CandQueueHas st2 (program.SubmitBlock + params.VotePeriod) programID = false ∧
        (∀ id, id ≠ programID → GetProgram st2 id = GetProgram st id) ∧
        (∀ endBlock id, (endBlock, id) ≠ (program.SubmitBlock + params.VotePeriod, programID) →
          CandQueueHas st2 endBlock id = CandQueueHas st endBlock id) ∧
        st2.votes = st.votes ∧ st2.nextProgramID = st.nextProgramID) ∧
    (sender ≠ program.Submitter →
      WithdrawProgram params st programID sender = Except.error BudgetError.Unauthorized ∧
        handleBudgetMsg params height st (BudgetMsg.MsgWithdrawProgram programID sender) = st) := by
  have hp : st.programs programID = some program := by
    unfold GetProgram at hprogram
    cases h : st.programs programID with
    | none => rw [h] at hprogram; cases hprogram
    | some p => rw [h] at hprogram; cases hprogram; rfl
  constructor
  · intro hs
    refine ⟨{ st with
      programs := fun id => if id = programID then none else st.programs id
      candQueue := st.candQueue.filter
        (fun entry => decide (entry ≠ (program.SubmitBlock + params.VotePeriod, programID))) },
      ?_, ?_, ?_, ?_, ?_, rfl, rfl⟩
    · unfold WithdrawProgram
      rw [hp]
      simp only [hs, ne_eq, not_true_eq_false, if_false]
    · simp [GetProgram]
    · simp [CandQueueHas, List.mem_filter]
    · intro id hid
      simp [GetProgram, hid]
    · intro endBlock id hne
      simp [CandQueueHas, List.mem_filter, hne]
  · intro hs
    have hne : program.Submitter ≠ sender := fun h => hs h.symm
    have hw : WithdrawProgram params st programID sender
        = Except.error BudgetError.Unauthorized := by
      unfold WithdrawProgram
      rw [hp]
      simp only [hne, ne_eq, not_false_eq_true, if_true]
    refine ⟨hw, ?_⟩
    simp only [handleBudgetMsg, hw]

theorem WithdrawProgram_submitter_only_witness :
    (([1] : AccAddress) = [1] →
      ∃ st2, WithdrawProgram sampleBudgetParams samplePendingState 1 [1] = Except.ok st2 ∧
        GetProgram st2 1 = Except.error BudgetError.ProgramNotFound ∧
        CandQueueHas st2 (2 + sampleBudgetParams.VotePeriod) 1 = false ∧
        (∀ id, id ≠ 1 → GetProgram st2 id = GetProgram samplePendingState id) ∧
        (∀ endBlock id, (endBlock, id) ≠ (2 + sampleBudgetParams.VotePeriod, 1) →
          CandQueueHas st2 endBlock id = CandQueueHas samplePendingState endBlock id) ∧
        st2.votes = samplePendingState.votes ∧
        st2.nextProgramID = samplePendingState.nextProgramID) ∧
    (([1] : AccAddress) ≠ [1] →
      WithdrawProgram sampleBudgetParams samplePendingState 1 [1]
          = Except.error BudgetError.Unauthorized ∧
        handleBudgetMsg sampleBudgetParams 3 samplePendingState
          (BudgetMsg.MsgWithdrawProgram 1 [1]) = samplePendingState) :=
  WithdrawProgram_submitter_only sampleBudgetParams 3 samplePendingState 1
    ⟨1, "title", "description", [1], [1], 2⟩ [1] rfl

/-! ## The stability tax: the native denomination -/

theorem safeAddAux_denoms (coinA : Coin) (recA : Coins → Coins) (restA : Coins)
    (hrec : ∀ b, ∀ x ∈ recA b, x.Denom ∈ restA.map Coin.Denom ∨ x.Denom ∈ b.map Coin.Denom) :
    ∀ b, ∀ x ∈ safeAddAux coinA recA restA b,
      x.Denom ∈ (coinA :: restA).map Coin.Denom ∨ x.Denom ∈ b.map Coin.Denom := by
  intro b
  induction b with
  | nil =>
    intro x hx
    have := (mem_removeZeroCoins _ x).mp hx
    exact Or.inl (List.mem_map_of_mem _ this.1)
  | cons coinB restB ih =>
    intro x hx
    have hrecB : ∀ y ∈ recA (coinB :: restB),
        y.Denom ∈ (coinA :: restA).map Coin.Denom ∨ y.Denom ∈ (coinB :: restB).map Coin.Denom := by
      intro y hy
      rcases hrec _ y hy with h | h
      · exact Or.inl (List.mem_cons_of_mem _ h)
      · exact Or.inr h
    have hrecR : ∀ y ∈ recA restB,
        y.Denom ∈ (coinA :: restA).map Coin.Denom ∨ y.Denom ∈ (coinB :: restB).map Coin.Denom := by
      intro y hy
      rcases hrec _ y hy with h | h
      · exact Or.inl (List.mem_cons_of_mem _ h)
      · exact Or.inr (List.mem_cons_of_mem _ h)
    have hih : ∀ y ∈ safeAddAux coinA recA restA restB,
        y.Denom ∈ (coinA :: restA).map Coin.Denom ∨ y.Denom ∈ (coinB :: restB).map Coin.Denom := by
      intro y hy
      rcases ih y hy with h | h
      · exact Or.inl h
      · exact Or.inr (List.mem_cons_of_mem _ h)
    have hA : coinA.Denom ∈ (coinA :: restA).map Coin.Denom := by simp
    have hB : coinB.Denom ∈ (coinB :: restB).map Coin.Denom := by simp
    unfold safeAddAux at hx
    cases hc : stringsCompare coinA.Denom coinB.Denom with
    | lt =>
      rw [hc] at hx
      simp only at hx
      split_ifs at hx
      · exact hrecB x hx
      · rcases List.mem_cons.mp hx with h | h
        · rw [h]; exact Or.inl hA
        · exact hrecB x h
    | eq =>
      rw [hc] at hx
      simp only at hx
      split_ifs at hx
      · exact hrecR x hx
      · rcases List.mem_cons.mp hx with h | h
        · rw [h]; exact Or.inl hA
        · exact hrecR x h
    | gt =>
      rw [hc] at hx
      simp only at hx
      split_ifs at hx
      · exact hih x hx
      · rcases List.mem_cons.mp hx with h | h
        · rw [h]; exact Or.inr hB
        · exact hih x h

theorem safeAdd_denoms (a : Coins) : ∀ b, ∀ x ∈ safeAdd a b,
    x.Denom ∈ a.map Coin.Denom ∨ x.Denom ∈ b.map Coin.Denom := by
  induction a with
  | nil =>
    intro b x hx
    have : x ∈ removeZeroCoins b := hx
    exact Or.inr (List.mem_map_of_mem _ ((mem_removeZeroCoins _ x).mp this).1)
  | cons coinA restA ih =>
    intro b x hx
    exact safeAddAux_denoms coinA (safeAdd restA) restA ih b x hx

theorem computeTaxLoop_no_native (taxRate : Dec) (tk : TreasuryKeeper) :
    ∀ (principal taxes out : Coins), (∀ x ∈ taxes, x.Denom ≠ MicroLunaDenom) →
      computeTaxLoop taxRate tk taxes principal = some out →
      ∀ x ∈ out, x.Denom ≠ MicroLunaDenom := by
  intro principal
  induction principal with
  | nil =>
    intro taxes out ht ho
    have : taxes = out := by simpa [computeTaxLoop] using ho
    rw [← this]
    exact ht
  | cons coin rest ih =>
    intro taxes out ht ho
    rw [computeTaxLoop_cons] at ho
    by_cases hl : coin.Denom = MicroLunaDenom
    · rw [if_pos hl] at ho
      exact ih taxes out ht ho
    · rw [if_neg hl] at ho
      split_ifs at ho with hz
      · exact ih taxes out ht ho
      · cases hn : NewCoin coin.Denom (taxDueOf taxRate tk coin) with
        | none => rw [hn] at ho; cases ho
        | some taxCoin =>
          rw [hn] at ho
          simp only at ho
          have htd : taxCoin.Denom = coin.Denom := by
            unfold NewCoin at hn
            split_ifs at hn
            cases hn
            rfl
          cases hc : NewCoins taxCoin with
          | none => rw [hc] at ho; cases ho
          | some taxCoins =>
            rw [hc] at ho
            simp only at ho
            have hsub : ∀ y ∈ taxCoins, y.Denom = coin.Denom := by
              intro y hy
              unfold NewCoins at hc
              split_ifs at hc
              · cases hc; cases hy
              · cases hc
                rw [List.mem_singleton.mp hy, htd]
            refine ih (taxes.Add taxCoins) out ?_ ho
            intro y hy
            rcases safeAdd_denoms taxes taxCoins y hy with h | h
            · obtain ⟨z, hz1, hz2⟩ := List.mem_map.mp h
              rw [← hz2]
              exact ht z hz1
            · obtain ⟨z, hz1, hz2⟩ := List.mem_map.mp h
              rw [← hz2, hsub z hz1]
              exact hl

theorem computeTaxLoop_nonNative (taxRate : Dec) (tk : TreasuryKeeper) :
    ∀ (principal taxes : Coins),
      computeTaxLoop taxRate tk taxes principal
        = computeTaxLoop taxRate tk taxes (nonNative principal) := by
  intro principal
  induction principal with
  | nil => intro taxes; rfl
  | cons coin rest ih =>
    intro taxes
    by_cases hl : coin.Denom = MicroLunaDenom
    · have hf : nonNative (coin :: rest) = nonNative rest := by
        simp [nonNative, List.filter_cons, hl]
      rw [hf, computeTaxLoop_cons, if_pos hl]
      exact ih taxes
    · have hf : nonNative (coin :: rest) = coin :: nonNative rest := by
        simp [nonNative, List.filter_cons, hl]
      rw [hf, computeTaxLoop_cons, computeTaxLoop_cons, if_neg hl, if_neg hl]
      split_ifs
      · exact ih taxes
      · cases NewCoin coin.Denom _ with
        | none => rfl
        | some taxCoin =>
          simp only
          cases NewCoins taxCoin with
          | none => rfl
          | some taxCoins => exact ih _

theorem computeTax_nonNative (tk : TreasuryKeeper) (principal : Coins) :
    computeTax tk principal = computeTax tk (nonNative principal) := by
  unfold computeTax
  simp only
  split_ifs
  · rfl
  · exact computeTaxLoop_nonNative _ tk principal []

/-- C13: for every tax rate, tax caps and principal, a result of `computeTax`
has no coin of the denomination uluna, and two principals whose coins other
than uluna are the same, in the same order, have the same result (the same
taxes or the same panic), so that adding uluna coins to a principal or removing
them from it changes nothing; when the tax rate, the amounts and the tax caps
are not negative, `computeTax` does return a result. -/
theorem computeTax_never_taxes_native (tk : TreasuryKeeper) (principal other : Coins) :
    (∀ taxes, computeTax tk principal = some taxes →
      ∀ coin ∈ taxes, coin.Denom ≠ MicroLunaDenom) ∧
    (nonNative principal = nonNative other → computeTax tk principal = computeTax tk other) ∧
    computeTax tk principal = computeTax tk (nonNative principal) ∧
    (0 ≤ tk.GetTaxRate.raw → (∀ c ∈ principal, 0 ≤ c.Amount) →
      (∀ c ∈ principal, 0 ≤ tk.GetTaxCap c.Denom) →
      ∃ taxes, computeTax tk principal = some taxes) := by
  refine ⟨?_, ?_, computeTax_nonNative tk principal, ?_⟩
  · intro taxes ht
    unfold computeTax at ht
    simp only at ht
    split_ifs at ht
    · cases ht
      intro coin hc
      cases hc
    · exact computeTaxLoop_no_native _ tk principal [] taxes (fun _ h => by cases h) ht
  · intro h
    rw [computeTax_nonNative tk principal, computeTax_nonNative tk other, h]
  · intro hr ha hc
    unfold computeTax
    simp only
    split_ifs
    · exact ⟨[], rfl⟩
    · obtain ⟨out, ho, _, _⟩ := computeTaxLoop_spec tk.GetTaxRate tk hr principal []
        ⟨List.Pairwise.nil, fun _ h => by cases h⟩ ha hc
      exact ⟨out, ho⟩

theorem computeTax_never_taxes_native_witness :
    nonNative [⟨"foocoin", 10000000⟩, ⟨"uluna", 5⟩] = nonNative [⟨"foocoin", 10000000⟩] ∧
      computeTax sampleTreasuryKeeper [⟨"foocoin", 10000000⟩, ⟨"uluna", 5⟩]
        = computeTax sampleTreasuryKeeper [⟨"foocoin", 10000000⟩] ∧
      computeTax sampleTreasuryKeeper [⟨"foocoin", 10000000⟩, ⟨"uluna", 5⟩]
        = some [⟨"foocoin", 10000⟩] :=
  ⟨by decide,
    (computeTax_never_taxes_native sampleTreasuryKeeper [⟨"foocoin", 10000000⟩, ⟨"uluna", 5⟩]
      [⟨"foocoin", 10000000⟩]).2.1 (by decide),
    by decide⟩

/-! ## The stability tax of a transaction -/

theorem computeTaxLoop_IsValid (taxRate : Dec) (tk : TreasuryKeeper) :
    ∀ (principal taxes out : Coins), Coins.IsValid taxes →
      computeTaxLoop taxRate tk taxes principal = some out → Coins.IsValid out := by
  intro principal
  induction principal with
  | nil =>
    intro taxes out ht ho
    have : taxes = out := by simpa [computeTaxLoop] using ho
    rw [← this]
    exact ht
  | cons coin rest ih =>
    intro taxes out ht ho
    rw [computeTaxLoop_cons] at ho
    split_ifs at ho with hl hz
    · exact ih taxes out ht ho
    · exact ih taxes out ht ho
    · cases hn : NewCoin coin.Denom (taxDueOf taxRate tk coin) with
      | none => rw [hn] at ho; cases ho
      | some taxCoin =>
        rw [hn] at ho
        simp only at ho
        cases hc : NewCoins taxCoin with
        | none => rw [hc] at ho; cases ho
        | some taxCoins =>
          rw [hc] at ho
          simp only at ho
          have hv : Coins.IsValid taxCoins := by
            unfold NewCoins at hc
            split_ifs at hc with h1 h2
            · cases hc
              exact ⟨List.Pairwise.nil, fun _ h => by cases h⟩
            · cases hc
              refine ⟨List.pairwise_singleton _ _, ?_⟩
              intro y hy
              rw [List.mem_singleton.mp hy]
              simpa [Coin.IsPositive] using h2
          exact ih (taxes.Add taxCoins) out (Add_IsValid taxes taxCoins ht hv).1 ho

theorem computeTax_IsValid (tk : TreasuryKeeper) (principal tax : Coins)
    (h : computeTax tk principal = some tax) : Coins.IsValid tax := by
  have hnil : Coins.IsValid [] := ⟨List.Pairwise.nil, fun _ h => by cases h⟩
  unfold computeTax at h
  simp only at h
  split_ifs at h
  · cases h
    exact hnil
  · exact computeTaxLoop_IsValid _ tk principal [] tax hnil h

theorem sumOfTaxes_cons (tk : TreasuryKeeper) (taxes principal : Coins) (rest : List Coins) :
    sumOfTaxes tk taxes (principal :: rest) =
      match computeTax tk principal with
      | none => none
      | some tax => sumOfTaxes tk (taxes.Add tax) rest := rfl

theorem sumOfTaxes_append (tk : TreasuryKeeper) : ∀ (ps qs : List Coins) (taxes : Coins),
    sumOfTaxes tk taxes (ps ++ qs) =
      match sumOfTaxes tk taxes ps with
      | none => none
      | some taxes2 => sumOfTaxes tk taxes2 qs := by
  intro ps
  induction ps with
  | nil => intro qs taxes; rfl
  | cons p rest ih =>
    intro qs taxes
    rw [List.cons_append, sumOfTaxes_cons, sumOfTaxes_cons]
    cases computeTax tk p with
    | none => rfl
    | some tax => exact ih qs _

theorem filterInputsLoop_eq (tk : TreasuryKeeper) : ∀ (inputs : List Input) (taxes : Coins),
    filterInputsLoop tk taxes inputs = sumOfTaxes tk taxes (inputs.map Input.Coins) := by
  intro inputs
  induction inputs with
  | nil => intro taxes; rfl
  | cons input rest ih =>
    intro taxes
    rw [List.map_cons, sumOfTaxes_cons]
    unfold filterInputsLoop
    cases computeTax tk input.Coins with
    | none => rfl
    | some tax => exact ih _

theorem filterMsgLoop_eq (tk : TreasuryKeeper) : ∀ (msgs : List Msg) (taxes : Coins),
    filterMsgLoop tk taxes msgs = sumOfTaxes tk taxes (taxedPrincipals msgs) := by
  intro msgs
  induction msgs with
  | nil => intro taxes; rfl
  | cons msg rest ih =>
    intro taxes
    cases msg with
    | MsgSend fromAddress toAddress amount =>
      unfold filterMsgLoop taxedPrincipals
      simp only
      rw [sumOfTaxes_cons]
      cases computeTax tk amount with
      | none => rfl
      | some tax => exact ih _
    | MsgMultiSend inputs outputs =>
      unfold filterMsgLoop taxedPrincipals
      simp only
      rw [sumOfTaxes_append, filterInputsLoop_eq]
      cases sumOfTaxes tk taxes (inputs.map Input.Coins) with
      | none => rfl
      | some taxes2 => exact ih _
    | other signers =>
      unfold filterMsgLoop taxedPrincipals
      simp only
      exact ih _

theorem sumOfTaxes_spec (tk : TreasuryKeeper) : ∀ (ps : List Coins) (taxes out : Coins),
    Coins.IsValid taxes → sumOfTaxes tk taxes ps = some out →
      Coins.IsValid out ∧
        ∃ ts : List Coins, List.Forall₂ (fun p t => computeTax tk p = some t) ps ts ∧
          ∀ d, Coins.AmountOf out d
            = Coins.AmountOf taxes d + (ts.map (fun t => Coins.AmountOf t d)).sum := by
  intro ps
  induction ps with
  | nil =>
    intro taxes out hv ho
    have : taxes = out := by simpa [sumOfTaxes] using ho
    rw [← this]
    exact ⟨hv, [], List.Forall₂.nil, fun d => by simp⟩
  | cons p rest ih =>
    intro taxes out hv ho
    rw [sumOfTaxes_cons] at ho
    cases hc : computeTax tk p with
    | none => rw [hc] at ho; cases ho
    | some tax =>
      rw [hc] at ho
      simp only at ho
      have hadd := Add_IsValid taxes tax hv (computeTax_IsValid tk p tax hc)
      obtain ⟨hvo, ts, hts, hsum⟩ := ih _ out hadd.1 ho
      refine ⟨hvo, tax :: ts, List.Forall₂.cons hc hts, fun d => ?_⟩
      rw [hsum d, hadd.2 d, List.map_cons, List.sum_cons, add_assoc]

theorem sumOfTaxes_returns (tk : TreasuryKeeper) : ∀ (ps : List Coins) (taxes : Coins),
    (∀ p ∈ ps, ∃ t, computeTax tk p = some t) → ∃ out, sumOfTaxes tk taxes ps = some out := by
  intro ps
  induction ps with
  | nil => intro taxes _; exact ⟨taxes, rfl⟩
  | cons p rest ih =>
    intro taxes h
    obtain ⟨t, ht⟩ := h p (List.mem_cons_self _ _)
    rw [sumOfTaxes_cons, ht]
    exact ih _ (fun q hq => h q (List.mem_cons_of_mem _ hq))

theorem taxedPrincipals_other : ∀ (msgs : List Msg),
    (∀ msg ∈ msgs, ∃ signers, msg = Msg.other signers) → taxedPrincipals msgs = [] := by
  intro msgs
  induction msgs with
  | nil => intro _; rfl
  | cons msg rest ih =>
    intro h
    obtain ⟨signers, hs⟩ := h msg (List.mem_cons_self _ _)
    rw [hs]
    unfold taxedPrincipals
    exact ih (fun m hm => h m (List.mem_cons_of_mem _ hm))

/-- C14: for every list of messages, `filterMsgAndComputeTax` is the sum, from
the left and starting at no coins, of `computeTax` over the amount of each
`MsgSend` and the coins of each input of each `MsgMultiSend`, in the order of
the messages, the other messages adding nothing.  It returns whenever
`computeTax` returns on each of these principals; its result is then sorted with
positive amounts, and its amount in every denomination is the sum of the
amounts of the single taxes.  A list with no `MsgSend` and no `MsgMultiSend`
owes no coins. -/
theorem filterMsgAndComputeTax_sums (tk : TreasuryKeeper) (msgs : List Msg) :
    filterMsgAndComputeTax tk msgs = sumOfTaxes tk [] (taxedPrincipals msgs) ∧
    ((∀ p ∈ taxedPrincipals msgs, ∃ t, computeTax tk p = some t) →
      ∃ taxes, filterMsgAndComputeTax tk msgs = some taxes) ∧
    (∀ taxes, filterMsgAndComputeTax tk msgs = some taxes →
      Coins.IsValid taxes ∧
        ∃ ts : List Coins,
          List.Forall₂ (fun p t => computeTax tk p = some t) (taxedPrincipals msgs) ts ∧
          ∀ d, Coins.AmountOf taxes d = (ts.map (fun t => Coins.AmountOf t d)).sum) ∧
    ((∀ msg ∈ msgs, ∃ signers, msg = Msg.other signers) →
      filterMsgAndComputeTax tk msgs = some []) := by
  have heq : filterMsgAndComputeTax tk msgs = sumOfTaxes tk [] (taxedPrincipals msgs) :=
    filterMsgLoop_eq tk msgs []
  have hnil : Coins.IsValid [] := ⟨List.Pairwise.nil, fun _ h => by cases h⟩
  refine ⟨heq, ?_, ?_, ?_⟩
  · intro h
    rw [heq]
    exact sumOfTaxes_returns tk _ [] h
  · intro taxes ht
    rw [heq] at ht
    obtain ⟨hv, ts, hts, hsum⟩ := sumOfTaxes_spec tk _ [] taxes hnil ht
    refine ⟨hv, ts, hts, fun d => ?_⟩
    rw [hsum d, AmountOf_nil, zero_add]
  · intro h
    rw [heq, taxedPrincipals_other msgs h]
    rfl

theorem filterMsgAndComputeTax_sums_witness :
    taxedPrincipals sampleMsgs
        = [[⟨"foocoin", 10000000⟩], [⟨"foocoin", 3000000⟩], [⟨"foocoin", 5000000⟩, ⟨"uluna", 9⟩]] ∧
      filterMsgAndComputeTax sampleTreasuryKeeper sampleMsgs = some [⟨"foocoin", 18000⟩] ∧
      ∃ taxes, filterMsgAndComputeTax sampleTreasuryKeeper sampleMsgs = some taxes :=
  ⟨by decide, by decide,
    (filterMsgAndComputeTax_sums sampleTreasuryKeeper sampleMsgs).2.1 (by
      intro p hp
      have hps : taxedPrincipals sampleMsgs
          = [[⟨"foocoin", 10000000⟩], [⟨"foocoin", 3000000⟩],
              [⟨"foocoin", 5000000⟩, ⟨"uluna", 9⟩]] := by decide
      rw [hps] at hp
      simp only [List.mem_cons, List.mem_singleton, List.not_mem_nil, or_false] at hp
      rcases hp with h | h | h <;> subst h <;> exact ⟨_, rfl⟩)⟩

/-! ## The deduction of fees -/

theorem negative_Sorted (coins : Coins) (h : Coins.Sorted coins) :
    Coins.Sorted (Coins.negative coins) := by
  unfold Coins.Sorted Coins.negative
  rw [List.pairwise_map]
  exact h

theorem AmountOf_negative (coins : Coins) (d : String) :
    Coins.AmountOf (Coins.negative coins) d = - Coins.AmountOf coins d := by
  induction coins with
  | nil => simp [Coins.negative, AmountOf_nil]
  | cons c rest ih =>
    have hn : Coins.negative (c :: rest) = ⟨c.Denom, -c.Amount⟩ :: Coins.negative rest := rfl
    rw [hn, AmountOf_cons, AmountOf_cons]
    by_cases hd : c.Denom = d
    · simp [hd]
    · simp [hd, ih]

theorem SafeSub_amounts (a b : Coins) (ha : Coins.Sorted a) (hb : Coins.Sorted b) (d : String) :
    Coins.AmountOf (a.SafeSub b).1 d = Coins.AmountOf a d - Coins.AmountOf b d := by
  have h := (safeAdd_spec a (Coins.negative b) ha (negative_Sorted b hb)).2.2 d
  show Coins.AmountOf (safeAdd a (Coins.negative b)) d = _
  rw [h, AmountOf_negative]
  ring

theorem DeductFees_payable (impl : AccountImpl) (blockTime : Nat) (acc : Account) (fee : StdFee)
    (h : feePayable impl blockTime acc fee) :
    DeductFees impl blockTime acc fee =
      match impl.SetCoins acc (acc.Coins.SafeSub fee.Amount).1 with
      | none => Except.error (Result.error CodeType.Internal)
      | some acc2 => Except.ok acc2 := by
  obtain ⟨h1, h2, h3⟩ := h
  unfold DeductFees
  cases hs : impl.SetCoins acc (acc.Coins.SafeSub fee.Amount).1 <;>
    simp only [h1, not_true_eq_false, if_false, h2, h3, Bool.false_eq_true, hs]

theorem DeductFees_not_payable (impl : AccountImpl) (blockTime : Nat) (acc : Account)
    (fee : StdFee) (h : ¬ feePayable impl blockTime acc fee) :
    DeductFees impl blockTime acc fee =
      if ¬ Coins.IsValid fee.Amount then Except.error (Result.error CodeType.InsufficientFee)
      else Except.error (Result.error CodeType.InsufficientFunds) := by
  unfold DeductFees
  by_cases h1 : Coins.IsValid fee.Amount
  · simp only [h1, not_true_eq_false, if_false]
    by_cases h2 : (acc.Coins.SafeSub fee.Amount).2 = true
    · simp only [h2, if_true]
    · simp only [h2, Bool.false_eq_true, if_false]
      by_cases h3 : ((impl.SpendableCoins acc blockTime).SafeSub fee.Amount).2 = true
      · simp only [h3, if_true]
      · exfalso
        exact h ⟨h1, by simpa using h2, by simpa using h3⟩
  · simp only [h1, not_false_eq_true, if_true]

/-- C15: `DeductFees` at an account, a block time and a fee.  When the fee
amount is valid and neither the coins less the fee nor the spendable coins less
the fee have a negative amount, it calls `SetCoins` with the coins less the fee
and returns the account so updated (for a base account, the account with these
coins and nothing else changed), or no account and an internal error when
`SetCoins` fails; the coins less the fee have in every denomination the amount
of the coins minus that of the fee when the coins are sorted.  In every other
case it returns no account, with an insufficient-fee error when the fee amount
is invalid and an insufficient-funds error otherwise, whatever `SetCoins` is: it
is not called.  So an account is returned only in the first case. -/
theorem DeductFees_payable_or_error (impl : AccountImpl) (blockTime : Nat) (acc : Account)
    (fee : StdFee) :
    (feePayable impl blockTime acc fee →
      (DeductFees impl blockTime acc fee =
        match impl.SetCoins acc (acc.Coins.SafeSub fee.Amount).1 with
        | none => Except.error (Result.error CodeType.Internal)
        | some acc2 => Except.ok acc2) ∧
      (impl.SetCoins = BaseAccountImpl.SetCoins →
        DeductFees impl blockTime acc fee
          = Except.ok { acc with Coins := (acc.Coins.SafeSub fee.Amount).1 }) ∧
      (Coins.Sorted acc.Coins → ∀ d, Coins.AmountOf (acc.Coins.SafeSub fee.Amount).1 d
        = Coins.AmountOf acc.Coins d - Coins.AmountOf fee.Amount d)) ∧
    (¬ feePayable impl blockTime acc fee →
      (DeductFees impl blockTime acc fee = Except.error (Result.error CodeType.InsufficientFee) ∨
        DeductFees impl blockTime acc fee
          = Except.error (Result.error CodeType.InsufficientFunds)) ∧
      ∀ impl2 : AccountImpl, impl2.SpendableCoins = impl.SpendableCoins →
        DeductFees impl2 blockTime acc fee = DeductFees impl blockTime acc fee) ∧
    ((∃ acc2, DeductFees impl blockTime acc fee = Except.ok acc2) →
      feePayable impl blockTime acc fee) := by
  refine ⟨?_, ?_, ?_⟩
  · intro h
    refine ⟨DeductFees_payable impl blockTime acc fee h, ?_, ?_⟩
    · intro hb
      rw [DeductFees_payable impl blockTime acc fee h, hb]
      rfl
    · intro hs d
      exact SafeSub_amounts _ _ hs h.1.1 d
  · intro h
    have h0 := DeductFees_not_payable impl blockTime acc fee h
    refine ⟨?_, ?_⟩
    · rw [h0]
      by_cases h1 : Coins.IsValid fee.Amount
      · right; simp [h1]
      · left; simp [h1]
    · intro impl2 hsp
      have h2 : ¬ feePayable impl2 blockTime acc fee := by
        unfold feePayable at h ⊢
        rw [hsp]
        exact h
      rw [h0, DeductFees_not_payable impl2 blockTime acc fee h2]
  · rintro ⟨acc2, h2⟩
    by_contra h
    rw [DeductFees_not_payable impl blockTime acc fee h] at h2
    split_ifs at h2

theorem DeductFees_payable_or_error_witness :
    feePayable BaseAccountImpl 0 sampleAccount sampleFee ∧
      DeductFees BaseAccountImpl 0 sampleAccount sampleFee
        = Except.ok ⟨[1], [⟨"foocoin", 19999000⟩], none, 0, 0⟩ :=
  ⟨by decide,
    ((DeductFees_payable_or_error BaseAccountImpl 0 sampleAccount sampleFee).1 (by decide)).1⟩

/-! ## The check of a signature -/

theorem processSig_ok (crypto : Crypto) (impl : AccountImpl) (meter meter2 : GasMeter)
    (acc acc2 : Account) (sig : StdSignature) (signBytes : Bytes) (simulate : Bool)
    (params : Params)
    (h : processSig crypto impl meter acc sig signBytes simulate params
      = GasOutcome.ok meter2 (Except.ok acc2)) :
    ∃ pubKey acc1, ProcessPubKey crypto acc sig simulate = Except.ok pubKey ∧
      impl.SetPubKey acc pubKey = some acc1 ∧
      impl.SetSequence acc1 ((acc1.Sequence + 1) % uint64Size) = some acc2 := by
  unfold processSig at h
  split at h
  · cases h
  · rename_i pubKey hp
    refine ⟨pubKey, ?_⟩
    split at h
    · cases h
    · rename_i acc1 hs
      refine ⟨acc1, hp, hs, ?_⟩
      split at h
      · cases h
      · cases h
      · split at h
        · cases h
        · cases h
        · split_ifs at h
          · cases h
          · cases h
          · split at h
            · cases h
            · rename_i acc3 hq
              cases h
              exact hq

/-! ## The fee payer -/

theorem processSig_base (crypto : Crypto) (impl : AccountImpl) (hb : baseSetters impl)
    (meter meter2 : GasMeter) (acc acc2 : Account) (sig : StdSignature) (signBytes : Bytes)
    (simulate : Bool) (params : Params)
    (h : processSig crypto impl meter acc sig signBytes simulate params
      = GasOutcome.ok meter2 (Except.ok acc2)) :
    acc2.Address = acc.Address ∧ acc2.Coins = acc.Coins := by
  obtain ⟨pubKey, acc1, _, h1, h2⟩ := processSig_ok crypto impl meter meter2 acc acc2 sig
    signBytes simulate params h
  rw [hb.2.1] at h1
  rw [hb.2.2] at h2
  simp only [BaseAccountImpl, Option.some.injEq] at h1 h2
  subst h1
  subst h2
  exact ⟨rfl, rfl⟩

theorem storeKeyed_SetAccount (st : AnteState) (acc : Account) (h : storeKeyed st) :
    storeKeyed (st.SetAccount acc) := by
  intro addr acc2 hacc
  simp only [AnteState.SetAccount] at hacc
  split_ifs at hacc with ha
  · cases hacc
    exact ha.symm
  · exact h addr acc2 hacc

theorem sigLoop_later (crypto : Crypto) (impl : AccountImpl) (hb : baseSetters impl)
    (params : Params) (chainID : String) (stdTx : StdTx) (simulate isGenesis : Bool)
    (signerAddrs : List AccAddress) (firstAcc : Account) :
    ∀ (sigs : List StdSignature) (i : Nat) (st st2 : AnteState) (meter meter2 : GasMeter)
      (res : Result), 1 ≤ i → storeKeyed st →
      sigLoop crypto impl params chainID stdTx simulate isGenesis signerAddrs firstAcc i sigs st
        meter = BodyOutcome.done st2 meter2 res false →
      st2.CollectedFees = st.CollectedFees ∧
        ∀ addr, (st2.Accounts addr).map Account.Coins = (st.Accounts addr).map Account.Coins := by
  intro sigs
  induction sigs with
  | nil =>
    intro i st st2 meter meter2 res _ _ h
    unfold sigLoop at h
    cases h
    exact ⟨rfl, fun _ => rfl⟩
  | cons sig rest ih =>
    intro i st st2 meter meter2 res hi hk h
    have hi0 : i ≠ 0 := by omega
    unfold sigLoop at h
    simp only [hi0, ne_eq, not_false_eq_true, if_true] at h
    cases hget : signerAddrs.get? i with
    | none => rw [hget] at h; cases h
    | some addr =>
      rw [hget] at h
      simp only at h
      cases hacc : GetSignerAcc st addr with
      | error e => rw [hacc] at h; cases h
      | ok acc =>
        rw [hacc] at h
        simp only at h
        have haddr : acc.Address = addr ∧ st.Accounts addr = some acc := by
          unfold GetSignerAcc at hacc
          cases hs : st.Accounts addr with
          | none => rw [hs] at hacc; cases hacc
          | some a =>
            rw [hs] at hacc
            cases hacc
            exact ⟨hk addr _ hs, rfl⟩
        split at h
        · cases h
        · cases h
        · cases h
        · rename_i meter3 acc2 hp
          obtain ⟨ha, hc⟩ := processSig_base crypto impl hb _ _ _ _ _ _ _ _ hp
          obtain ⟨h1, h2⟩ := ih (i + 1) _ st2 meter3 meter2 res (by omega)
            (storeKeyed_SetAccount st acc2 hk) h
          refine ⟨h1, fun a => ?_⟩
          rw [h2 a]
          simp only [AnteState.SetAccount]
          split_ifs with hax
          · rw [hax, ha, haddr.1, haddr.2]
            simp [hc]
          · rfl

theorem sigLoop_first (crypto : Crypto) (impl : AccountImpl) (hb : baseSetters impl)
    (params : Params) (chainID : String) (stdTx : StdTx) (simulate isGenesis : Bool)
    (signerAddrs : List AccAddress) (firstAcc : Account) (sig : StdSignature)
    (rest : List StdSignature) (st st2 : AnteState) (meter meter2 : GasMeter) (res : Result)
    (hk : storeKeyed st)
    (h : sigLoop crypto impl params chainID stdTx simulate isGenesis signerAddrs firstAcc 0
      (sig :: rest) st meter = BodyOutcome.done st2 meter2 res false) :
    st2.CollectedFees = st.CollectedFees ∧
      (st2.Accounts firstAcc.Address).map Account.Coins = some firstAcc.Coins ∧
      ∀ addr, addr ≠ firstAcc.Address →
        (st2.Accounts addr).map Account.Coins = (st.Accounts addr).map Account.Coins := by
  unfold sigLoop at h
  simp only [ne_eq, not_true_eq_false, if_false] at h
  split at h
  · cases h
  · cases h
  · cases h
  · rename_i meter3 acc2 hp
    obtain ⟨ha, hc⟩ := processSig_base crypto impl hb _ _ _ _ _ _ _ _ hp
    obtain ⟨h1, h2⟩ := sigLoop_later crypto impl hb params chainID stdTx simulate isGenesis
      signerAddrs firstAcc rest 1 _ st2 meter3 meter2 res (le_refl 1)
      (storeKeyed_SetAccount st acc2 hk) h
    refine ⟨h1, ?_, fun a hne => ?_⟩
    · rw [h2 firstAcc.Address]
      simp [AnteState.SetAccount, ha, hc]
    · rw [h2 a]
      simp [AnteState.SetAccount, ha, hne]

theorem DeductFees_base (impl : AccountImpl) (hb : baseSetters impl) (blockTime : Nat)
    (acc acc1 : Account) (fee : StdFee)
    (h : DeductFees impl blockTime acc fee = Except.ok acc1) :
    feePayable impl blockTime acc fee ∧
      acc1 = { acc with Coins := (acc.Coins.SafeSub fee.Amount).1 } := by
  by_cases hp : feePayable impl blockTime acc fee
  · refine ⟨hp, ?_⟩
    rw [DeductFees_payable impl blockTime acc fee hp, hb.1] at h
    simp only [BaseAccountImpl] at h
    cases h
    rfl
  · rw [DeductFees_not_payable impl blockTime acc fee hp] at h
    split_ifs at h

theorem ValidateBasic_signatures (stdTx : StdTx) (h : stdTx.ValidateBasic = none) :
    stdTx.Signatures ≠ [] := by
  unfold StdTx.ValidateBasic at h
  split_ifs at h with h1 h2 h3 h4
  intro hs
  apply h3
  rw [hs]
  rfl

theorem anteBody_fee (crypto : Crypto) (impl : AccountImpl) (params : Params) (ctx : Context)
    (stdTx : StdTx) (simulate : Bool) (st st2 : AnteState) (meter meter2 : GasMeter)
    (res : Result) (hb : baseSetters impl) (hk : storeKeyed st)
    (hfee : stdTx.Fee.Amount.IsZero = false)
    (h : anteBody crypto impl params ctx stdTx simulate st meter
      = BodyOutcome.done st2 meter2 res false) :
    ∃ addr0 others acc0, stdTx.GetSigners = addr0 :: others ∧ st.Accounts addr0 = some acc0 ∧
      stdTx.Signatures ≠ [] ∧ feePayable impl ctx.BlockTime acc0 stdTx.Fee ∧
      (st2.Accounts addr0).map Account.Coins = some (acc0.Coins.SafeSub stdTx.Fee.Amount).1 ∧
      st2.CollectedFees = st.CollectedFees.Add stdTx.Fee.Amount ∧
      ∀ addr, addr ≠ addr0 →
        (st2.Accounts addr).map Account.Coins = (st.Accounts addr).map Account.Coins := by
  unfold anteBody at h
  split at h
  · cases h
  · rename_i hvb
    have hsigs := ValidateBasic_signatures stdTx hvb
    split at h
    · cases h
    · cases h
    · simp only [hfee, Bool.not_false, if_true] at h
      split_ifs at h with hm hc
      · cases h
      · cases h
      · split at h
        · cases h
        · rename_i addr0 others hsigners
          split at h
          · cases h
          · rename_i acc0 hacc
            have hacc0 : st.Accounts addr0 = some acc0 := by
              unfold GetSignerAcc at hacc
              cases hs : st.Accounts addr0 with
              | none => rw [hs] at hacc; cases hacc
              | some a => rw [hs] at hacc; cases hacc; rfl
            split at h
            · cases h
            · rename_i acc1 hded
              obtain ⟨hpay, hacc1⟩ := DeductFees_base impl hb _ _ _ _ hded
              cases hsig : stdTx.Signatures with
              | nil => exact absurd hsig hsigs
              | cons sig rest =>
                rw [hsig] at h
                have hk2 : storeKeyed
                    ((st.AddCollectedFees stdTx.Fee.Amount).RecordTaxProceeds stdTx.Fee.Amount) :=
                  fun a acc ha => hk a acc ha
                obtain ⟨h1, h2, h3⟩ := sigLoop_first crypto impl hb params _ stdTx simulate _ _
                  acc1 sig rest _ st2 _ meter2 res hk2 h
                have haddr : acc1.Address = addr0 := by
                  rw [hacc1]
                  exact hk addr0 acc0 hacc0
                refine ⟨addr0, others, acc0, hsigners, hacc0, by simp, hpay, ?_, h1, ?_⟩
                · rw [← haddr, h2, hacc1]
                · intro a ha
                  rw [← haddr] at ha
                  exact h3 a ha

theorem NewAnteHandler_pass_body (crypto : Crypto) (impl : AccountImpl) (params : Params)
    (tk : TreasuryKeeper) (st : AnteState) (ctx : Context) (stdTx : StdTx) (simulate : Bool)
    (r : AnteResult)
    (hpass : NewAnteHandler crypto impl params tk st ctx (Tx.StdTx stdTx) simulate = some r)
    (hok : r.abort = false) :
    ∃ meter meter2 res ctx2, anteBody crypto impl params ctx2 stdTx simulate st meter
      = BodyOutcome.done r.State meter2 res false := by
  unfold NewAnteHandler at hpass
  simp only at hpass
  cases htax : filterMsgAndComputeTax tk stdTx.Msgs with
  | none => rw [htax] at hpass; cases hpass
  | some taxes =>
    rw [htax] at hpass
    simp only at hpass
    by_cases hneg : (!simulate && (stdTx.Fee.Amount.SafeSub taxes).2) = true
    · rw [if_pos hneg] at hpass
      cases hpass
      cases hok
    · rw [if_neg hneg] at hpass
      cases hmem : (if (ctx.IsCheckTx && !simulate) = true then
          EnsureSufficientMempoolFees ctx stdTx.Fee taxes else some Result.empty) with
      | none => rw [hmem] at hpass; cases hpass
      | some res =>
        rw [hmem] at hpass
        simp only at hpass
        by_cases hres : (!res.IsOK) = true
        · rw [if_pos hres] at hpass
          cases hpass
          cases hok
        · rw [if_neg hres] at hpass
          split at hpass
          · rename_i st2 meter2 res2 abort hbody
            cases hpass
            simp only at hok
            subst hok
            exact ⟨_, _, _, _, hbody⟩
          · cases hpass
            cases hok
          · cases hpass

/-- C16: for an account implementation with the setters of the base account and
an account keeper that stores every account under its own address, when the
ante handler passes a `StdTx` with a non-zero fee without abort: the transaction
has a first signer and at least one signature, the coins stored for the first
signer afterwards are its coins before less the fee (in every denomination the amount before
minus that of the fee, when the coins before are sorted), the collected fees are
those before plus the fee (in every denomination the sum, when those before are
sorted), and the coins stored for every other address, the other signers among
them, are as before. -/
theorem anteHandler_fee_from_first_signer (crypto : Crypto) (impl : AccountImpl)
    (params : Params) (tk : TreasuryKeeper) (st : AnteState) (ctx : Context) (stdTx : StdTx)
    (simulate : Bool) (r : AnteResult) (hb : baseSetters impl) (hk : storeKeyed st)
    (hfee : stdTx.Fee.Amount.IsZero = false)
    (hpass : NewAnteHandler crypto impl params tk st ctx (Tx.StdTx stdTx) simulate = some r)
    (hok : r.abort = false) :
    ∃ addr0 others acc0, stdTx.GetSigners = addr0 :: others ∧ st.Accounts addr0 = some acc0 ∧
      stdTx.Signatures ≠ [] ∧
      (r.State.Accounts addr0).map Account.Coins
        = some (acc0.Coins.SafeSub stdTx.Fee.Amount).1 ∧
      (Coins.Sorted acc0.Coins → ∀ d,
        Coins.AmountOf (acc0.Coins.SafeSub stdTx.Fee.Amount).1 d
          = Coins.AmountOf acc0.Coins d - Coins.AmountOf stdTx.Fee.Amount d) ∧
      r.State.CollectedFees = st.CollectedFees.Add stdTx.Fee.Amount ∧
      (Coins.Sorted st.CollectedFees → ∀ d,
        Coins.AmountOf r.State.CollectedFees d
          = Coins.AmountOf st.CollectedFees d + Coins.AmountOf stdTx.Fee.Amount d) ∧
      ∀ addr, addr ≠ addr0 →
        (r.State.Accounts addr).map Account.Coins = (st.Accounts addr).map Account.Coins := by
  obtain ⟨meter, meter2, res, ctx2, hbody⟩ := NewAnteHandler_pass_body crypto impl params tk st
    ctx stdTx simulate r hpass hok
  obtain ⟨addr0, others, acc0, h1, h2, h3, h4, h5, h6, h7⟩ := anteBody_fee crypto impl params
    ctx2 stdTx simulate st r.State meter meter2 res hb hk hfee hbody
  refine ⟨addr0, others, acc0, h1, h2, h3, h5, ?_, h6, ?_, h7⟩
  · intro hs d
    exact SafeSub_amounts _ _ hs h4.1.1 d
  · intro hs d
    rw [h6]
    exact (safeAdd_spec _ _ hs h4.1.1).2.2 d

theorem anteHandler_fee_from_first_signer_witness :
    ∃ r, NewAnteHandler sampleKeyCrypto BaseAccountImpl sampleParams sampleTreasuryKeeper
        sampleTwoSignerState sampleContext (Tx.StdTx sampleTwoSignerTx) false = some r ∧
      r.abort = false ∧
      (r.State.Accounts [1]).map Account.Coins = some [⟨"foocoin", 19999000⟩] ∧
      r.State.CollectedFees = [⟨"foocoin", 1005⟩] ∧
      (r.State.Accounts [2]).map Account.Coins = some [⟨"foocoin", 20000000⟩] := by
  have hsome : (NewAnteHandler sampleKeyCrypto BaseAccountImpl sampleParams sampleTreasuryKeeper
      sampleTwoSignerState sampleContext (Tx.StdTx sampleTwoSignerTx) false).isSome = true := by
    decide
  obtain ⟨addr0, others, acc0, h1, h2, _, h4, _, h6, _, h8⟩ :=
    anteHandler_fee_from_first_signer sampleKeyCrypto BaseAccountImpl sampleParams
      sampleTreasuryKeeper sampleTwoSignerState sampleContext sampleTwoSignerTx false
      ((NewAnteHandler sampleKeyCrypto BaseAccountImpl sampleParams sampleTreasuryKeeper
        sampleTwoSignerState sampleContext (Tx.StdTx sampleTwoSignerTx) false).get hsome)
      ⟨rfl, rfl, rfl⟩
      (by
        intro addr acc h
        simp only [sampleTwoSignerState] at h
        split_ifs at h with h1 h2
        · cases h; exact h1.symm
        · cases h; exact h2.symm)
      (by decide) (by simp) rfl
  have hs : sampleTwoSignerTx.GetSigners = [[1], [2]] := by decide
  rw [hs] at h1
  cases h1
  have ha : sampleTwoSignerState.Accounts [1] = some ⟨[1], [⟨"foocoin", 20000000⟩], none, 0, 0⟩ :=
    rfl
  rw [ha] at h2
  cases h2
  exact ⟨_, (Option.some_get hsome).symm, rfl, h4, h6, h8 [2] (by decide)⟩

/-! ## The sequence number after a signature -/

theorem GetSigners_foldl_nodup (addrs : List AccAddress) :
    ∀ init : List AccAddress, init.Nodup →
      (addrs.foldl (fun signers addr => if addr ∈ signers then signers else signers ++ [addr])
        init).Nodup := by
  induction addrs with
  | nil => intro init h; exact h
  | cons a rest ih =>
    intro init h
    rw [List.foldl_cons]
    apply ih
    split_ifs with hm
    · exact h
    · rw [List.nodup_append]
      refine ⟨h, List.nodup_singleton a, ?_⟩
      intro x hx hx2
      rw [List.mem_singleton] at hx2
      rw [hx2] at hx
      exact hm hx

theorem GetSigners_nodup (stdTx : StdTx) : stdTx.GetSigners.Nodup :=
  GetSigners_foldl_nodup _ [] List.nodup_nil

theorem ProcessPubKey_error (crypto : Crypto) (acc : Account) (sig : StdSignature)
    (simulate : Bool) (res : Result)
    (h : ProcessPubKey crypto acc sig simulate = Except.error res) :
    res = Result.error CodeType.InvalidPubKey := by
  unfold ProcessPubKey at h
  split_ifs at h
  · split at h <;> cases h
  · split at h
    · split at h
      · cases h; rfl
      · split_ifs at h
        cases h; rfl
    · cases h

theorem processSig_error (crypto : Crypto) (impl : AccountImpl) (meter meter2 : GasMeter)
    (acc : Account) (sig : StdSignature) (signBytes : Bytes) (simulate : Bool)
    (params : Params) (res : Result)
    (h : processSig crypto impl meter acc sig signBytes simulate params
      = GasOutcome.ok meter2 (Except.error res)) :
    res.IsOK = false := by
  unfold processSig at h
  split at h
  · rename_i res0 hp
    cases h
    rw [ProcessPubKey_error crypto acc sig simulate _ hp]
    rfl
  · split at h
    · cases h
      rfl
    · split at h
      · cases h
      · cases h
      · split at h
        · cases h
        · cases h
        · split_ifs at h with h1 h2
          · cases h
            simpa using h1
          · cases h
            rfl
          · split at h
            · cases h
            · cases h

theorem sigLoop_later_untouched (crypto : Crypto) (impl : AccountImpl) (hb : baseSetters impl)
    (params : Params) (chainID : String) (stdTx : StdTx) (simulate isGenesis : Bool)
    (signerAddrs : List AccAddress) (firstAcc : Account) :
    ∀ (sigs : List StdSignature) (i : Nat) (st st2 : AnteState) (meter meter2 : GasMeter)
      (res : Result), 1 ≤ i → storeKeyed st →
      sigLoop crypto impl params chainID stdTx simulate isGenesis signerAddrs firstAcc i sigs st
        meter = BodyOutcome.done st2 meter2 res false →
      ∀ addr, addr ∉ signerAddrs.drop i → st2.Accounts addr = st.Accounts addr := by
  intro sigs
  induction sigs with
  | nil =>
    intro i st st2 meter meter2 res _ _ h
    unfold sigLoop at h
    cases h
    exact fun _ _ => rfl
  | cons sig rest ih =>
    intro i st st2 meter meter2 res hi hk h a ha
    have hi0 : i ≠ 0 := by omega
    unfold sigLoop at h
    simp only [hi0, ne_eq, not_false_eq_true, if_true] at h
    cases hget : signerAddrs.get? i with
    | none => rw [hget] at h; cases h
    | some addr =>
      rw [hget] at h
      simp only at h
      have hlt : i < signerAddrs.length := by
        by_contra hge
        rw [List.get?_eq_none.mpr (by omega)] at hget
        cases hget
      have hdrop : signerAddrs.drop i = addr :: signerAddrs.drop (i + 1) := by
        rw [List.drop_eq_getElem_cons hlt]
        congr 1
        rw [List.get?_eq_getElem? , List.getElem?_eq_getElem hlt] at hget
        exact Option.some.inj hget
      rw [hdrop] at ha
      have hne : a ≠ addr := fun e => ha (by rw [e]; exact List.mem_cons_self _ _)
      have hrest : a ∉ signerAddrs.drop (i + 1) := fun e => ha (List.mem_cons_of_mem _ e)
      cases hacc : GetSignerAcc st addr with
      | error e => rw [hacc] at h; cases h
      | ok acc =>
        rw [hacc] at h
        simp only at h
        have haddr : acc.Address = addr := by
          unfold GetSignerAcc at hacc
          cases hs : st.Accounts addr with
          | none => rw [hs] at hacc; cases hacc
          | some a0 =>
            rw [hs] at hacc
            cases hacc
            exact hk addr _ hs
        split at h
        · cases h
        · cases h
        · cases h
        · rename_i meter3 acc2 hp
          obtain ⟨ha2, _⟩ := processSig_base crypto impl hb _ _ _ _ _ _ _ _ hp
          rw [ih (i + 1) _ st2 meter3 meter2 res (by omega)
            (storeKeyed_SetAccount st acc2 hk) h a hrest]
          simp only [AnteState.SetAccount]
          rw [if_neg]
          rw [ha2, haddr]
          exact hne

theorem sigLoop_first_account (crypto : Crypto) (impl : AccountImpl) (hb : baseSetters impl)
    (params : Params) (chainID : String) (stdTx : StdTx) (simulate isGenesis : Bool)
    (addr0 : AccAddress) (others : List AccAddress) (hnodup : (addr0 :: others).Nodup)
    (firstAcc : Account) (hfirst : firstAcc.Address = addr0) (sig : StdSignature)
    (rest : List StdSignature) (st st2 : AnteState) (meter meter2 : GasMeter) (res : Result)
    (hk : storeKeyed st)
    (h : sigLoop crypto impl params chainID stdTx simulate isGenesis (addr0 :: others) firstAcc 0
      (sig :: rest) st meter = BodyOutcome.done st2 meter2 res false) :
    ∃ pubKey, ProcessPubKey crypto firstAcc sig simulate = Except.ok pubKey ∧
      st2.Accounts addr0 = some { firstAcc with
        PubKey := some pubKey, Sequence := (firstAcc.Sequence + 1) % uint64Size } := by
  unfold sigLoop at h
  simp only [ne_eq, not_true_eq_false, if_false] at h
  split at h
  · cases h
  · cases h
  · cases h
  · rename_i meter3 acc2 hp
    obtain ⟨pubKey, acc1, h1, h2, h3⟩ := processSig_ok crypto impl _ _ _ _ _ _ _ _ hp
    rw [hb.2.1] at h2
    rw [hb.2.2] at h3
    simp only [BaseAccountImpl, Option.some.injEq] at h2 h3
    subst h2
    subst h3
    refine ⟨pubKey, h1, ?_⟩
    have hnot : addr0 ∉ (addr0 :: others).drop 1 := by
      simpa using (List.nodup_cons.mp hnodup).1
    rw [sigLoop_later_untouched crypto impl hb params chainID stdTx simulate isGenesis
      (addr0 :: others) firstAcc rest 1 _ st2 meter3 meter2 res (le_refl 1)
      (storeKeyed_SetAccount st _ hk) h addr0 hnot]
    simp [AnteState.SetAccount, hfirst]

theorem anteBody_first_signer (crypto : Crypto) (impl : AccountImpl) (params : Params)
    (ctx : Context) (stdTx : StdTx) (simulate : Bool) (st st2 : AnteState)
    (meter meter2 : GasMeter) (res : Result) (hb : baseSetters impl) (hk : storeKeyed st)
    (h : anteBody crypto impl params ctx stdTx simulate st meter
      = BodyOutcome.done st2 meter2 res false) :
    ∃ addr0 others acc0 pubKey, stdTx.GetSigners = addr0 :: others ∧
      st.Accounts addr0 = some acc0 ∧
      st2.Accounts addr0 = some { acc0 with
        Coins := if stdTx.Fee.Amount.IsZero then acc0.Coins
          else (acc0.Coins.SafeSub stdTx.Fee.Amount).1
        PubKey := some pubKey
        Sequence := (acc0.Sequence + 1) % uint64Size } := by
  have hnodup := GetSigners_nodup stdTx
  unfold anteBody at h
  split at h
  · cases h
  · rename_i hvb
    have hsigs := ValidateBasic_signatures stdTx hvb
    split at h
    · cases h
    · cases h
    · by_cases hm : (!(ValidateMemo stdTx params).IsOK) = true
      · rw [if_pos hm] at h
        cases h
      · rw [if_neg hm] at h
        by_cases hc : (!(ValidateSigCount stdTx params).IsOK) = true
        · rw [if_pos hc] at h
          cases h
        · rw [if_neg hc] at h
          simp only at h
          split at h
          · cases h
          · rename_i addr0 others hsigners
            rw [hsigners] at hnodup
            split at h
            · cases h
            · rename_i acc0 hacc
              have hacc0 : st.Accounts addr0 = some acc0 := by
                unfold GetSignerAcc at hacc
                cases hs : st.Accounts addr0 with
                | none => rw [hs] at hacc; cases hacc
                | some a => rw [hs] at hacc; cases hacc; rfl
              have haddr0 : acc0.Address = addr0 := hk addr0 acc0 hacc0
              cases hsig : stdTx.Signatures with
              | nil => exact absurd hsig hsigs
              | cons sig rest =>
                rw [hsig, hsigners] at h
                by_cases hz : stdTx.Fee.Amount.IsZero = true
                · simp only [hz, Bool.not_true, Bool.false_eq_true, if_false] at h
                  obtain ⟨pubKey, _, h2⟩ := sigLoop_first_account crypto impl hb params _ stdTx
                    simulate _ addr0 others hnodup acc0 haddr0 sig rest st st2 _ meter2 res hk h
                  refine ⟨addr0, others, acc0, pubKey, hsigners, hacc0, ?_⟩
                  rw [h2, if_pos hz]
                · have hz2 : stdTx.Fee.Amount.IsZero = false := by simpa using hz
                  simp only [hz2, Bool.not_false, if_true] at h
                  split at h
                  · cases h
                  · rename_i acc1 hded
                    obtain ⟨_, hacc1⟩ := DeductFees_base impl hb _ _ _ _ hded
                    have hk2 : storeKeyed ((st.AddCollectedFees stdTx.Fee.Amount).RecordTaxProceeds
                        stdTx.Fee.Amount) := fun a acc ha => hk a acc ha
                    have haddr1 : acc1.Address = addr0 := by
                      rw [hacc1]
                      exact haddr0
                    obtain ⟨pubKey, _, h2⟩ := sigLoop_first_account crypto impl hb params _ stdTx
                      simulate _ addr0 others hnodup acc1 haddr1 sig rest _ st2 _ meter2 res hk2 h
                    refine ⟨addr0, others, acc0, pubKey, hsigners, hacc0, ?_⟩
                    rw [h2, hacc1]
                    simp [hz2]

/-- C17 (counterexample): the transaction `sampleOverspendTx` of the account
`[1]`, which holds 20000000 foocoin, passes the ante handler, and its message
fails; afterwards the sequence number of `[1]` is 1 and the balance stored for
`[1]` is 19800000 foocoin, the balance before less the fee of 200000 foocoin,
and not the balance before. -/
theorem overspend_with_fee_changes_balance :
    (∃ r, NewAnteHandler sampleKeyCrypto BaseAccountImpl sampleParams sampleTreasuryKeeper
        sampleAnteState sampleContext (Tx.StdTx sampleOverspendTx) false = some r ∧
      r.abort = false) ∧
    ∃ final res, runTx sampleKeyCrypto BaseAccountImpl sampleParams sampleTreasuryKeeper
        sampleFailingMsgs sampleAnteState sampleContext sampleOverspendTx = some (final, res) ∧
      res.IsOK = false ∧
      (sampleAnteState.Accounts [1]).map Account.Coins = some [⟨"foocoin", 20000000⟩] ∧
      (final.Accounts [1]).map Account.Coins = some [⟨"foocoin", 19800000⟩] ∧
      (final.Accounts [1]).map Account.Coins ≠ (sampleAnteState.Accounts [1]).map Account.Coins ∧
      (final.Accounts [1]).map Account.Sequence = some 1 := by
  have hsome : (NewAnteHandler sampleKeyCrypto BaseAccountImpl sampleParams sampleTreasuryKeeper
      sampleAnteState sampleContext (Tx.StdTx sampleOverspendTx) false).isSome = true := by
    decide
  have hrun : (runTx sampleKeyCrypto BaseAccountImpl sampleParams sampleTreasuryKeeper
      sampleFailingMsgs sampleAnteState sampleContext sampleOverspendTx).isSome = true := by
    decide
  have hafter : (((runTx sampleKeyCrypto BaseAccountImpl sampleParams sampleTreasuryKeeper
      sampleFailingMsgs sampleAnteState sampleContext sampleOverspendTx).get hrun).1.Accounts
      [1]).map Account.Coins = some [⟨"foocoin", 19800000⟩] := rfl
  have hbefore : (sampleAnteState.Accounts [1]).map Account.Coins
      = some [⟨"foocoin", 20000000⟩] := rfl
  refine ⟨⟨_, (Option.some_get hsome).symm, rfl⟩,
    ((runTx sampleKeyCrypto BaseAccountImpl sampleParams sampleTreasuryKeeper
      sampleFailingMsgs sampleAnteState sampleContext sampleOverspendTx).get hrun).1,
    ((runTx sampleKeyCrypto BaseAccountImpl sampleParams sampleTreasuryKeeper
      sampleFailingMsgs sampleAnteState sampleContext sampleOverspendTx).get hrun).2,
    (Option.some_get hrun).symm, rfl, hbefore, hafter, ?_, rfl⟩
  intro h
  exact absurd (hafter.symm.trans (h.trans hbefore)) (by decide)

/-- C17 (amended): for an account implementation with the setters of the base
account.  Whenever `processSig` succeeds, the account it returns is the account
given with the public key set to the key that `ProcessPubKey` chose and the
sequence number increased by 1 (as a `uint64`, so exactly by 1 below the
maximum); whenever it returns an error, the result is not OK and no account
comes with it.  When the account keeper stores every account under its own
address and a transaction passes the ante handler but its messages fail, the
account stored for the first signer afterwards has the sequence number
increased by 1, the key chosen, and the coins before less the fee of the
transaction, which are the coins before when the fee is zero. -/
theorem processSig_increments_sequence (crypto : Crypto) (impl : AccountImpl) (params : Params)
    (tk : TreasuryKeeper) (runMsgs : AnteState → List Msg → AnteState × Result)
    (meter : GasMeter) (acc : Account) (sig : StdSignature) (signBytes : Bytes)
    (simulate : Bool) (st : AnteState) (ctx : Context) (stdTx : StdTx)
    (hb : baseSetters impl) (hk : storeKeyed st) :
    (∀ meter2 acc2, processSig crypto impl meter acc sig signBytes simulate params
        = GasOutcome.ok meter2 (Except.ok acc2) →
      ∃ pubKey, ProcessPubKey crypto acc sig simulate = Except.ok pubKey ∧
        acc2 = { acc with
          PubKey := some pubKey, Sequence := (acc.Sequence + 1) % uint64Size } ∧
        (acc.Sequence + 1 < uint64Size → acc2.Sequence = acc.Sequence + 1)) ∧
    (∀ meter2 res, processSig crypto impl meter acc sig signBytes simulate params
        = GasOutcome.ok meter2 (Except.error res) → res.IsOK = false) ∧
    (∀ r final res,
      NewAnteHandler crypto impl params tk st ctx (Tx.StdTx stdTx) false = some r →
      r.abort = false →
      runTx crypto impl params tk runMsgs st ctx stdTx = some (final, res) →
      res.IsOK = false →
      ∃ addr0 others acc0 pubKey, stdTx.GetSigners = addr0 :: others ∧
        st.Accounts addr0 = some acc0 ∧
        final.Accounts addr0 = some { acc0 with
          Coins := if stdTx.Fee.Amount.IsZero then acc0.Coins
            else (acc0.Coins.SafeSub stdTx.Fee.Amount).1
          PubKey := some pubKey
          Sequence := (acc0.Sequence + 1) % uint64Size }) := by
  refine ⟨?_, ?_, ?_⟩
  · intro meter2 acc2 h
    obtain ⟨pubKey, acc1, h1, h2, h3⟩ := processSig_ok crypto impl _ _ _ _ _ _ _ _ h
    rw [hb.2.1] at h2
    rw [hb.2.2] at h3
    simp only [BaseAccountImpl, Option.some.injEq] at h2 h3
    subst h2
    subst h3
    refine ⟨pubKey, h1, rfl, ?_⟩
    intro hlt
    exact Nat.mod_eq_of_lt hlt
  · intro meter2 res h
    exact processSig_error crypto impl _ _ _ _ _ _ _ _ h
  · intro r final res hpass hok hrun hres
    obtain ⟨m1, m2, res2, ctx2, hbody⟩ := NewAnteHandler_pass_body crypto impl params tk st ctx
      stdTx false r hpass hok
    obtain ⟨addr0, others, acc0, pubKey, h1, h2, h3⟩ := anteBody_first_signer crypto impl params
      ctx2 stdTx false st r.State m1 m2 res2 hb hk hbody
    refine ⟨addr0, others, acc0, pubKey, h1, h2, ?_⟩
    have hfinal : final = r.State := by
      unfold runTx at hrun
      rw [hpass] at hrun
      simp only [hok, Bool.false_eq_true, if_false] at hrun
      split_ifs at hrun with hokmsgs
      · have hout := Option.some.inj hrun
        rw [hout] at hokmsgs
        simp only at hokmsgs
        rw [hres] at hokmsgs
        cases hokmsgs
      · have hout := Option.some.inj hrun
        exact (congrArg Prod.fst hout).symm
    rw [hfinal]
    exact h3

theorem processSig_increments_sequence_witness :
    ∃ final res, runTx sampleKeyCrypto BaseAccountImpl sampleParams sampleTreasuryKeeper
        sampleFailingMsgs sampleTwoSignerState sampleContext sampleTwoSignerTx
        = some (final, res) ∧
      (final.Accounts [1]).map Account.Coins = some [⟨"foocoin", 19999000⟩] ∧
      (final.Accounts [1]).map Account.Sequence = some 1 := by
  have hsome : (NewAnteHandler sampleKeyCrypto BaseAccountImpl sampleParams sampleTreasuryKeeper
      sampleTwoSignerState sampleContext (Tx.StdTx sampleTwoSignerTx) false).isSome = true := by
    decide
  have hrun : (runTx sampleKeyCrypto BaseAccountImpl sampleParams sampleTreasuryKeeper
      sampleFailingMsgs sampleTwoSignerState sampleContext sampleTwoSignerTx).isSome = true := by
    decide
  obtain ⟨addr0, others, acc0, pubKey, h1, h2, h3⟩ :=
    (processSig_increments_sequence sampleKeyCrypto BaseAccountImpl sampleParams
      sampleTreasuryKeeper sampleFailingMsgs NewInfiniteGasMeter sampleAccount
      ⟨some (PubKey.secp256k1 [1]), [9]⟩ [] false sampleTwoSignerState sampleContext
      sampleTwoSignerTx ⟨rfl, rfl, rfl⟩
      (by
        intro addr acc h
        simp only [sampleTwoSignerState] at h
        split_ifs at h with h1 h2
        · cases h; exact h1.symm
        · cases h; exact h2.symm)).2.2 _ _ _ (Option.some_get hsome).symm rfl
      (Option.some_get hrun).symm rfl
  have hs : sampleTwoSignerTx.GetSigners = [[1], [2]] := by decide
  rw [hs] at h1
  cases h1
  have ha : sampleTwoSignerState.Accounts [1] = some ⟨[1], [⟨"foocoin", 20000000⟩], none, 0, 0⟩ :=
    rfl
  rw [ha] at h2
  cases h2
  refine ⟨_, _, (Option.some_get hrun).symm, ?_, ?_⟩
  · rw [h3]
    rfl
  · rw [h3]
    rfl

/-! ## The public key of a signature -/

/-- C18 (the code at an account that has a key): in non-simulate mode
`ProcessPubKey` returns the public key of every account that has one, whatever
the signature is.  So for the account `[1]` with the key `secp256k1 [1]` it
succeeds on a signature with the key `secp256k1 [2]`, whose address `[2]` is
not the address of the account, and on a signature without a key. -/
theorem ProcessPubKey_skips_address_check :
    (∀ (crypto : Crypto) (address : AccAddress) (coins : Coins) (pubKey : PubKey)
        (accountNumber sequence : Nat) (sig : StdSignature),
      ProcessPubKey crypto ⟨address, coins, some pubKey, accountNumber, sequence⟩ sig false
        = Except.ok pubKey) ∧
    sampleKeyCrypto.Address (PubKey.secp256k1 [2]) ≠ sampleKeyedAccount.Address ∧
    ProcessPubKey sampleKeyCrypto sampleKeyedAccount ⟨some (PubKey.secp256k1 [2]), [9]⟩ false
      = Except.ok (PubKey.secp256k1 [1]) ∧
    ProcessPubKey sampleKeyCrypto sampleKeyedAccount ⟨none, [9]⟩ false
      = Except.ok (PubKey.secp256k1 [1]) := by
  refine ⟨fun _ _ _ _ _ _ _ => rfl, by decide, rfl, rfl⟩

/-! ## The number of signatures -/

theorem ValidateSigCountLoop_eq (params : Params) : ∀ (sigs : List StdSignature) (count : Nat),
    count ≤ params.TxSigLimit →
      ValidateSigCountLoop params count sigs =
        if count + totalSubKeys sigs > params.TxSigLimit then
          Result.error CodeType.TooManySignatures
        else Result.empty := by
  intro sigs
  induction sigs with
  | nil =>
    intro count h
    have : ¬ count + totalSubKeys [] > params.TxSigLimit := by
      simp only [totalSubKeys, List.map_nil, List.sum_nil]
      omega
    rw [if_neg this]
    rfl
  | cons sig rest ih =>
    intro count h
    have htot : totalSubKeys (sig :: rest) = sigSubKeys sig + totalSubKeys rest := by
      simp [totalSubKeys]
    have hstep : ValidateSigCountLoop params count (sig :: rest) =
        if count + sigSubKeys sig > params.TxSigLimit then
          Result.error CodeType.TooManySignatures
        else ValidateSigCountLoop params (count + sigSubKeys sig) rest := by
      unfold sigSubKeys
      rfl
    rw [hstep, htot]
    by_cases hgt : count + sigSubKeys sig > params.TxSigLimit
    · rw [if_pos hgt, if_pos (by omega)]
    · rw [if_neg hgt, ih _ (by omega), Nat.add_assoc]

/-- C19: `ValidateSigCount` returns the too-many-signatures error when the total
of `countSubKeys` over the public keys of all signatures (the counts being
natural numbers, a `nil` key counting as one) is greater than
`params.TxSigLimit`, and the OK result `sdk.Result{}` otherwise; so the error is
returned if and only if the total is greater than the limit, and the exit at a
sum of a prefix does not change the verdict. -/
theorem ValidateSigCount_iff_total_exceeds (stdTx : StdTx) (params : Params) :
    (ValidateSigCount stdTx params =
      if totalSubKeys stdTx.Signatures > params.TxSigLimit then
        Result.error CodeType.TooManySignatures
      else Result.empty) ∧
    (ValidateSigCount stdTx params = Result.error CodeType.TooManySignatures ↔
      totalSubKeys stdTx.Signatures > params.TxSigLimit) ∧
    ((ValidateSigCount stdTx params).IsOK = true ↔
      totalSubKeys stdTx.Signatures ≤ params.TxSigLimit) := by
  have h : ValidateSigCount stdTx params =
      if totalSubKeys stdTx.Signatures > params.TxSigLimit then
        Result.error CodeType.TooManySignatures
      else Result.empty := by
    unfold ValidateSigCount
    rw [ValidateSigCountLoop_eq params stdTx.Signatures 0 (Nat.zero_le _), Nat.zero_add]
  refine ⟨h, ?_, ?_⟩
  · rw [h]
    by_cases hgt : totalSubKeys stdTx.Signatures > params.TxSigLimit
    · simp [hgt]
    · simp only [hgt, if_false, iff_false]
      intro he
      cases he
  · rw [h]
    by_cases hgt : totalSubKeys stdTx.Signatures > params.TxSigLimit
    · rw [if_pos hgt]
      constructor
      · intro he
        cases he
      · intro hle
        omega
    · rw [if_neg hgt]
      constructor
      · intro _
        omega
      · intro _
        rfl

/-! ## The keys of a multi-signature key -/

theorem countSubKeysList_eq_sum (pubKeys : List PubKey) :
    countSubKeysList pubKeys = (pubKeys.map countSubKeys).sum := by
  induction pubKeys with
  | nil => rfl
  | cons subkey rest ih =>
    rw [List.map_cons, List.sum_cons, ← ih]
    rfl

theorem countSubKeys_multisig (K : Nat) (pubKeys : List PubKey) :
    countSubKeys (PubKey.multisig K pubKeys) = countSubKeysList pubKeys := by
  unfold countSubKeys
  rfl

theorem leafKeys_multisig (K : Nat) (pubKeys : List PubKey) :
    leafKeys (PubKey.multisig K pubKeys) = leafKeysList pubKeys := by
  unfold leafKeys
  rfl

mutual
theorem countSubKeys_eq_leaves : ∀ (pubKey : PubKey),
    countSubKeys pubKey = (leafKeys pubKey).length
  | PubKey.multisig K pubKeys => by
    rw [countSubKeys_multisig, leafKeys_multisig]
    exact countSubKeysList_eq_leaves pubKeys
  | PubKey.secp256k1 _ => rfl
  | PubKey.ed25519 _ => rfl
  | PubKey.other _ _ => rfl
theorem countSubKeysList_eq_leaves : ∀ (pubKeys : List PubKey),
    countSubKeysList pubKeys = (leafKeysList pubKeys).length
  | [] => rfl
  | subkey :: rest => by
    have h1 : countSubKeysList (subkey :: rest)
        = countSubKeys subkey + countSubKeysList rest := by
      rw [countSubKeysList]
    have h2 : leafKeysList (subkey :: rest) = leafKeys subkey ++ leafKeysList rest := by
      rw [leafKeysList]
    rw [h1, h2, List.length_append, countSubKeys_eq_leaves subkey,
      countSubKeysList_eq_leaves rest]
end

mutual
theorem leafKeys_not_multisig : ∀ (pubKey : PubKey),
    ∀ leaf ∈ leafKeys pubKey, leaf.isMultisig = false
  | PubKey.multisig K pubKeys => by
    rw [leafKeys_multisig]
    exact leafKeysList_not_multisig pubKeys
  | PubKey.secp256k1 _ => by
    intro leaf h
    rw [leafKeys, List.mem_singleton] at h
    rw [h]
    rfl
  | PubKey.ed25519 _ => by
    intro leaf h
    rw [leafKeys, List.mem_singleton] at h
    rw [h]
    rfl
  | PubKey.other _ _ => by
    intro leaf h
    rw [leafKeys, List.mem_singleton] at h
    rw [h]
    rfl
theorem leafKeysList_not_multisig : ∀ (pubKeys : List PubKey),
    ∀ leaf ∈ leafKeysList pubKeys, leaf.isMultisig = false
  | [] => by
    intro leaf h
    rw [leafKeysList] at h
    cases h
  | subkey :: rest => by
    intro leaf h
    rw [leafKeysList, List.mem_append] at h
    rcases h with h | h
    · exact leafKeys_not_multisig subkey leaf h
    · exact leafKeysList_not_multisig rest leaf h
end

/-- C20: `countSubKeys` is a total function of the public key, defined by
recursion on the tree of the key.  It returns 1 for a key that is not a
threshold multi-signature key, and for a threshold multi-signature key the sum
of `countSubKeys` over its sub-keys; for every key this is the number of the
leaves of its tree that are not multi-signature keys, nested multi-signature
keys being counted through their own sub-keys. -/
theorem countSubKeys_counts_leaves (pubKey : PubKey) :
    (pubKey.isMultisig = false → countSubKeys pubKey = 1) ∧
    (∀ K pubKeys, pubKey = PubKey.multisig K pubKeys →
      countSubKeys pubKey = (pubKeys.map countSubKeys).sum) ∧
    countSubKeys pubKey = (leafKeys pubKey).length ∧
    (∀ leaf ∈ leafKeys pubKey, leaf.isMultisig = false) := by
  refine ⟨?_, ?_, countSubKeys_eq_leaves pubKey, leafKeys_not_multisig pubKey⟩
  · intro h
    cases pubKey with
    | multisig K pubKeys => cases h
    | secp256k1 _ => rfl
    | ed25519 _ => rfl
    | other _ _ => rfl
  · intro K pubKeys h
    rw [h, countSubKeys_multisig, countSubKeysList_eq_sum]

theorem countSubKeys_counts_leaves_witness :
    countSubKeys sampleNestedKey = 3 ∧
      countSubKeys sampleNestedKey = (leafKeys sampleNestedKey).length ∧
      leafKeys sampleNestedKey
        = [PubKey.secp256k1 [1], PubKey.secp256k1 [2], PubKey.other "sr25519".toList [3]] ∧
      countSubKeys (PubKey.secp256k1 [1]) = 1 :=
  ⟨by decide, (countSubKeys_counts_leaves sampleNestedKey).2.2.1, by rfl,
    (countSubKeys_counts_leaves (PubKey.secp256k1 [1])).1 rfl⟩

/-! ## The size of the memo -/

/-- C21 (the code at a memo with a letter of two bytes): `ValidateMemo` compares
the number of bytes of the memo with `params.MaxMemoCharacters`.  With a limit
of 4 the memo "café", of exactly 4 characters and 5 bytes, is rejected as too
large, while the memo "cafe", of 4 characters and 4 bytes, is accepted. -/
theorem ValidateMemo_counts_bytes :
    (∀ (stdTx : StdTx) (params : Params), ValidateMemo stdTx params =
      if stdTx.Memo.utf8ByteSize > params.MaxMemoCharacters then
        Result.error CodeType.MemoTooLarge
      else Result.empty) ∧
    sampleShortMemoParams.MaxMemoCharacters = 4 ∧
    sampleAccentMemoTx.Memo.length = 4 ∧
    sampleAccentMemoTx.Memo.utf8ByteSize = 5 ∧
    ValidateMemo sampleAccentMemoTx sampleShortMemoParams
      = Result.error CodeType.MemoTooLarge ∧
    samplePlainMemoTx.Memo.length = 4 ∧
    ValidateMemo samplePlainMemoTx sampleShortMemoParams = Result.empty := by
  refine ⟨fun _ _ => rfl, rfl, ?_, ?_, ?_, ?_, ?_⟩ <;> decide

/-! ## The gas of a signature verification -/

theorem ConsumeGas_canConsume (meter : GasMeter) (amount : Nat)
    (h : meter.canConsume amount) :
    meter.ConsumeGas amount
      = GasOutcome.ok { meter with consumed := meter.consumed + amount } () := by
  obtain ⟨h1, h2⟩ := h
  unfold GasMeter.ConsumeGas
  have hov : ¬ uint64Size - 1 - meter.consumed < amount := by omega
  rw [if_neg hov]
  cases hl : meter.limit with
  | none => rfl
  | some limit =>
    have := h2 limit hl
    simp only
    rw [if_neg (by simp only [gt_iff_lt]; omega)]

theorem ConsumeGas_not_canConsume (meter : GasMeter) (amount : Nat)
    (hvalid : meter.consumed < uint64Size) (h : ¬ meter.canConsume amount) :
    meter.ConsumeGas amount = GasOutcome.panic ∨
      meter.ConsumeGas amount
        = GasOutcome.outOfGas { meter with consumed := meter.consumed + amount } := by
  unfold GasMeter.ConsumeGas
  by_cases hov : uint64Size - 1 - meter.consumed < amount
  · left
    rw [if_pos hov]
  · right
    rw [if_neg hov]
    cases hl : meter.limit with
    | none =>
      exfalso
      apply h
      refine ⟨by omega, fun limit hl2 => ?_⟩
      rw [hl] at hl2
      cases hl2
    | some limit =>
      simp only
      by_cases hgt : meter.consumed + amount > limit
      · rw [if_pos hgt]
      · exfalso
        apply h
        refine ⟨by omega, fun limit2 hl2 => ?_⟩
        rw [hl] at hl2
        cases hl2
        omega

theorem consumeSigVerificationGas_secp256k1 (crypto : Crypto) (params : Params)
    (meter : GasMeter) (sig : Bytes) (key : Bytes) :
    consumeSigVerificationGas crypto params meter sig (PubKey.secp256k1 key) =
      match meter.ConsumeGas params.SigVerifyCostSecp256k1 with
      | GasOutcome.ok meter2 _ => GasOutcome.ok meter2 Result.empty
      | GasOutcome.outOfGas meter2 => GasOutcome.outOfGas meter2
      | GasOutcome.panic => GasOutcome.panic := by
  rfl

theorem consumeSigVerificationGas_ed25519 (crypto : Crypto) (params : Params)
    (meter : GasMeter) (sig : Bytes) (key : Bytes) :
    consumeSigVerificationGas crypto params meter sig (PubKey.ed25519 key) =
      match meter.ConsumeGas params.SigVerifyCostED25519 with
      | GasOutcome.ok meter2 _ => GasOutcome.ok meter2 (Result.error CodeType.InvalidPubKey)
      | GasOutcome.outOfGas meter2 => GasOutcome.outOfGas meter2
      | GasOutcome.panic => GasOutcome.panic := by
  rfl

theorem consumeSigVerificationGas_other (crypto : Crypto) (params : Params)
    (meter : GasMeter) (sig : Bytes) (typeName : List Char) (key : Bytes) :
    consumeSigVerificationGas crypto params meter sig (PubKey.other typeName key) =
      if stringsContains (pubkeyType (PubKey.other typeName key)) "ed25519" then
        match meter.ConsumeGas params.SigVerifyCostED25519 with
        | GasOutcome.ok meter2 _ => GasOutcome.ok meter2 (Result.error CodeType.InvalidPubKey)
        | GasOutcome.outOfGas meter2 => GasOutcome.outOfGas meter2
        | GasOutcome.panic => GasOutcome.panic
      else if stringsContains (pubkeyType (PubKey.other typeName key)) "secp256k1" then
        match meter.ConsumeGas params.SigVerifyCostSecp256k1 with
        | GasOutcome.ok meter2 _ => GasOutcome.ok meter2 Result.empty
        | GasOutcome.outOfGas meter2 => GasOutcome.outOfGas meter2
        | GasOutcome.panic => GasOutcome.panic
      else if stringsContains (pubkeyType (PubKey.other typeName key)) "multisigthreshold" then
        GasOutcome.panic
      else GasOutcome.ok meter (Result.error CodeType.InvalidPubKey) := by
  have h : consumeSigVerificationGas crypto params meter sig (PubKey.other typeName key) =
      if stringsContains (pubkeyType (PubKey.other typeName key)) "ed25519" then
        match meter.ConsumeGas params.SigVerifyCostED25519 with
        | GasOutcome.ok meter2 _ => GasOutcome.ok meter2 (Result.error CodeType.InvalidPubKey)
        | GasOutcome.outOfGas meter2 => GasOutcome.outOfGas meter2
        | GasOutcome.panic => GasOutcome.panic
      else if stringsContains (pubkeyType (PubKey.other typeName key)) "secp256k1" then
        match meter.ConsumeGas params.SigVerifyCostSecp256k1 with
        | GasOutcome.ok meter2 _ => GasOutcome.ok meter2 Result.empty
        | GasOutcome.outOfGas meter2 => GasOutcome.outOfGas meter2
        | GasOutcome.panic => GasOutcome.panic
      else if stringsContains (pubkeyType (PubKey.other typeName key)) "multisigthreshold" then
        match crypto.decodeMultisignature sig with
        | none => GasOutcome.panic
        | some _ => GasOutcome.panic
      else GasOutcome.ok meter (Result.error CodeType.InvalidPubKey) := rfl
  rw [h]
  cases crypto.decodeMultisignature sig <;> rfl

theorem consumeSigVerificationGas_unrecognised (crypto : Crypto) (params : Params)
    (meter : GasMeter) (sig : Bytes) (pubkey : PubKey) (h : pubkey.unrecognised) :
    consumeSigVerificationGas crypto params meter sig pubkey
      = GasOutcome.ok meter (Result.error CodeType.InvalidPubKey) := by
  obtain ⟨h1, h2, h3⟩ := h
  cases pubkey with
  | secp256k1 key =>
    have : stringsContains (pubkeyType (PubKey.secp256k1 key)) "secp256k1" = true := rfl
    rw [this] at h2
    cases h2
  | ed25519 key =>
    have : stringsContains (pubkeyType (PubKey.ed25519 key)) "ed25519" = true := rfl
    rw [this] at h1
    cases h1
  | multisig K pubKeys =>
    have : stringsContains (pubkeyType (PubKey.multisig K pubKeys)) "multisigthreshold" = true :=
      rfl
    rw [this] at h3
    cases h3
  | other typeName key =>
    rw [consumeSigVerificationGas_other]
    simp only [h1, h2, h3, Bool.false_eq_true, if_false]

/-- C22: `consumeSigVerificationGas` on a meter that can take the cost.  For a
secp256k1 key it consumes exactly `params.SigVerifyCostSecp256k1` and returns
the OK result; for an ed25519 key it consumes `params.SigVerifyCostED25519` and
returns an invalid-pubkey error; for a key whose type name has none of the
names ed25519, secp256k1 and multisigthreshold it consumes no gas and returns
an invalid-pubkey error.  On a meter that cannot take the cost, the first two
end in the panic of the gas meter instead of a result. -/
theorem consumeSigVerificationGas_by_key_type (crypto : Crypto) (params : Params)
    (meter : GasMeter) (sig : Bytes) :
    (∀ key, meter.canConsume params.SigVerifyCostSecp256k1 →
      consumeSigVerificationGas crypto params meter sig (PubKey.secp256k1 key)
        = GasOutcome.ok { meter with consumed := meter.consumed + params.SigVerifyCostSecp256k1 }
            Result.empty) ∧
    (∀ key, meter.canConsume params.SigVerifyCostED25519 →
      consumeSigVerificationGas crypto params meter sig (PubKey.ed25519 key)
        = GasOutcome.ok { meter with consumed := meter.consumed + params.SigVerifyCostED25519 }
            (Result.error CodeType.InvalidPubKey)) ∧
    (∀ pubkey : PubKey, pubkey.unrecognised →
      consumeSigVerificationGas crypto params meter sig pubkey
        = GasOutcome.ok meter (Result.error CodeType.InvalidPubKey)) ∧
    (∀ key, meter.consumed < uint64Size → ¬ meter.canConsume params.SigVerifyCostSecp256k1 →
      consumeSigVerificationGas crypto params meter sig (PubKey.secp256k1 key)
          = GasOutcome.panic ∨
        consumeSigVerificationGas crypto params meter sig (PubKey.secp256k1 key)
          = GasOutcome.outOfGas
              { meter with consumed := meter.consumed + params.SigVerifyCostSecp256k1 }) ∧
    (∀ key, meter.consumed < uint64Size → ¬ meter.canConsume params.SigVerifyCostED25519 →
      consumeSigVerificationGas crypto params meter sig (PubKey.ed25519 key)
          = GasOutcome.panic ∨
        consumeSigVerificationGas crypto params meter sig (PubKey.ed25519 key)
          = GasOutcome.outOfGas
              { meter with consumed := meter.consumed + params.SigVerifyCostED25519 }) ∧
    Result.empty.IsOK = true ∧ (Result.error CodeType.InvalidPubKey).IsOK = false := by
  refine ⟨?_, ?_, ?_, ?_, ?_, rfl, rfl⟩
  · intro key h
    rw [consumeSigVerificationGas_secp256k1, ConsumeGas_canConsume meter _ h]
  · intro key h
    rw [consumeSigVerificationGas_ed25519, ConsumeGas_canConsume meter _ h]
  · intro pubkey h
    exact consumeSigVerificationGas_unrecognised crypto params meter sig pubkey h
  · intro key hv h
    rw [consumeSigVerificationGas_secp256k1]
    rcases ConsumeGas_not_canConsume meter _ hv h with h2 | h2 <;> rw [h2]
    · exact Or.inl rfl
    · exact Or.inr rfl
  · intro key hv h
    rw [consumeSigVerificationGas_ed25519]
    rcases ConsumeGas_not_canConsume meter _ hv h with h2 | h2 <;> rw [h2]
    · exact Or.inl rfl
    · exact Or.inr rfl

theorem consumeSigVerificationGas_by_key_type_witness :
    consumeSigVerificationGas sampleCrypto sampleParams (NewGasMeter 200000) [9]
        (PubKey.secp256k1 [1]) = GasOutcome.ok ⟨some 200000, 1000⟩ Result.empty ∧
      consumeSigVerificationGas sampleCrypto sampleParams (NewGasMeter 200000) [9]
        (PubKey.ed25519 [1])
        = GasOutcome.ok ⟨some 200000, 590⟩ (Result.error CodeType.InvalidPubKey) ∧
      consumeSigVerificationGas sampleCrypto sampleParams (NewGasMeter 200000) [9]
        (PubKey.other "sr25519.PubKeySr25519".toList [1])
        = GasOutcome.ok ⟨some 200000, 0⟩ (Result.error CodeType.InvalidPubKey) :=
  ⟨(consumeSigVerificationGas_by_key_type sampleCrypto sampleParams (NewGasMeter 200000)
      [9]).1 [1] ⟨by decide, fun limit h => by cases h; decide⟩,
    (consumeSigVerificationGas_by_key_type sampleCrypto sampleParams (NewGasMeter 200000)
      [9]).2.1 [1] ⟨by decide, fun limit h => by cases h; decide⟩,
    (consumeSigVerificationGas_by_key_type sampleCrypto sampleParams (NewGasMeter 200000)
      [9]).2.2.1 (PubKey.other "sr25519.PubKeySr25519".toList [1])
      ⟨by decide, by decide, by decide⟩⟩

/-! ## The minimum fee of the mempool -/

theorem Mul_NewDec (d : Dec) (i : Int) : d.Mul (Dec.NewDec i) = ⟨d.raw * i⟩ := by
  unfold Dec.Mul Dec.NewDec
  have : d.raw * (i * precisionReuse) = (d.raw * i) * precisionReuse := by ring
  simp only [this, chopPrecisionAndRound_mul]

theorem Ceil_RoundInt_nonneg (x : Int) (hx : 0 ≤ x) :
    0 ≤ (Dec.Ceil ⟨x⟩).RoundInt ∧
      ((Dec.Ceil ⟨x⟩).RoundInt - 1) * 10 ^ 18 < x ∧ x ≤ (Dec.Ceil ⟨x⟩).RoundInt * 10 ^ 18 := by
  have hP : precisionReuse = 1000000000000000000 := by
    unfold precisionReuse Precision
    norm_num
  have hq : Int.tdiv x precisionReuse = x / 1000000000000000000 := by
    rw [hP, Int.tdiv_eq_ediv hx (by norm_num)]
  have hr : Int.tmod x precisionReuse = x % 1000000000000000000 := by
    rw [hP, Int.tmod_eq_emod hx (by norm_num)]
  unfold Dec.Ceil Dec.RoundInt
  simp only [hq, hr]
  have h10 : (10 : Int) ^ 18 = 1000000000000000000 := by norm_num
  rw [h10]
  split_ifs with h1 h2
  · simp only [Dec.NewDecFromInt, chopPrecisionAndRound_mul]
    omega
  · omega
  · simp only [Dec.NewDecFromInt, chopPrecisionAndRound_mul]
    omega

theorem IsCeilOf_unique (price : Dec) (gas : Nat) (r r2 : Int)
    (h : IsCeilOf price gas r) (h2 : IsCeilOf price gas r2) : r = r2 := by
  unfold IsCeilOf at h h2
  have h10 : (10 : Int) ^ 18 = 1000000000000000000 := by norm_num
  rw [h10] at h h2
  omega

theorem requiredFeesLoop_cons (glDec : Dec) (gp : DecCoin) (rest : List DecCoin) :
    requiredFeesLoop glDec (gp :: rest) =
      match NewCoin gp.Denom (gp.Amount.Mul glDec).Ceil.RoundInt with
      | none => none
      | some coin =>
        match requiredFeesLoop glDec rest with
        | none => none
        | some coins => some (coin :: coins) := rfl

theorem requiredFeesLoop_spec (gas : Nat) : ∀ prices : List DecCoin,
    (∀ gp ∈ prices, 0 ≤ gp.Amount.raw) →
    ∃ required, requiredFeesLoop (Dec.NewDec (gas : Int)) prices = some required ∧
      List.Forall₂ (fun gp coin => coin.Denom = gp.Denom ∧ IsCeilOf gp.Amount gas coin.Amount)
        prices required := by
  intro prices
  induction prices with
  | nil => intro _; exact ⟨[], rfl, List.Forall₂.nil⟩
  | cons gp rest ih =>
    intro h
    obtain ⟨required, hreq, hall⟩ := ih (fun g hg => h g (List.mem_cons_of_mem _ hg))
    have hx : 0 ≤ gp.Amount.raw * (gas : Int) :=
      mul_nonneg (h gp (List.mem_cons_self _ _)) (Int.natCast_nonneg gas)
    obtain ⟨h0, h1, h2⟩ := Ceil_RoundInt_nonneg _ hx
    refine ⟨⟨gp.Denom, (Dec.Ceil ⟨gp.Amount.raw * (gas : Int)⟩).RoundInt⟩ :: required, ?_,
      List.Forall₂.cons ⟨rfl, h1, h2⟩ hall⟩
    have hcoin : NewCoin gp.Denom (Dec.Ceil ⟨gp.Amount.raw * (gas : Int)⟩).RoundInt
        = some ⟨gp.Denom, (Dec.Ceil ⟨gp.Amount.raw * (gas : Int)⟩).RoundInt⟩ := by
      unfold NewCoin
      rw [if_neg (not_lt.mpr h0)]
    rw [requiredFeesLoop_cons, Mul_NewDec, hcoin, hreq]

theorem AmountOf_required (gas : Nat) : ∀ (prices : List DecCoin) (required : Coins),
    List.Forall₂ (fun gp coin => coin.Denom = gp.Denom ∧ IsCeilOf gp.Amount gas coin.Amount)
      prices required →
    (prices.map DecCoin.Denom).Nodup →
    (∀ gp ∈ prices, IsCeilOf gp.Amount gas (Coins.AmountOf required gp.Denom)) ∧
      ∀ d, d ∉ prices.map DecCoin.Denom → Coins.AmountOf required d = 0 := by
  intro prices required hall
  induction hall with
  | nil =>
    intro _
    exact ⟨fun _ h => (by cases h), fun _ _ => AmountOf_nil _⟩
  | @cons gp coin rest required2 hhead _ ih =>
    intro hnodup
    rw [List.map_cons, List.nodup_cons] at hnodup
    obtain ⟨ih1, ih2⟩ := ih hnodup.2
    constructor
    · intro g hg
      rw [AmountOf_cons]
      rcases List.mem_cons.mp hg with hg | hg
      · rw [hg, if_pos hhead.1]
        exact hhead.2
      · have hne : coin.Denom ≠ g.Denom := by
          rw [hhead.1]
          intro e
          apply hnodup.1
          rw [e]
          exact List.mem_map_of_mem _ hg
        rw [if_neg hne]
        exact ih1 g hg
    · intro d hd
      rw [List.map_cons, List.mem_cons, not_or] at hd
      rw [AmountOf_cons, if_neg (by rw [hhead.1]; exact fun e => hd.1 e.symm)]
      exact ih2 d hd.2

theorem IsAnyGTE_iff (coins coinsB : Coins) :
    coins.IsAnyGTE coinsB = true ↔
      coinsB ≠ [] ∧ ∃ coin ∈ coins, Coins.AmountOf coinsB coin.Denom ≤ coin.Amount ∧
        Coins.AmountOf coinsB coin.Denom ≠ 0 := by
  unfold Coins.IsAnyGTE
  by_cases hB : coinsB = []
  · simp [hB]
  · have hlen : ¬ coinsB.length = 0 := fun e => hB (List.length_eq_zero.mp e)
    simp [hlen, hB, List.any_eq_true]

theorem EnsureSufficientMempoolFees_eq (ctx : Context) (stdFee : StdFee) (taxes : Coins) :
    EnsureSufficientMempoolFees ctx stdFee taxes =
      match (if !DecCoinsIsZero ctx.MinGasPrices then
          requiredFeesLoop (Dec.NewDec (toInt64 stdFee.Gas)) ctx.MinGasPrices else some []) with
      | none => none
      | some requiredFees =>
        if (stdFee.Amount.SafeSub taxes).2 then some (Result.error CodeType.InsufficientFee)
        else if !requiredFees.Empty && !(stdFee.Amount.SafeSub taxes).1.IsAnyGTE requiredFees then
          some (Result.error CodeType.InsufficientFee)
        else some Result.empty := rfl

theorem toInt64_of_lt (x : Nat) (h : x < 2 ^ 63) : toInt64 x = (x : Int) := by
  unfold toInt64
  rw [if_pos h]

/-- C23 (counterexample): on a node whose minimum gas price is 0.1 foocoin, a
fee of one foocoin for a gas limit of zero and no taxes: the fee less the taxes
has no negative amount, the ceiling of 0.1 times 0 is 0 and the fee has one
foocoin, which is at least 0; yet the result is an insufficient-fee error,
because a required fee of zero is not counted. -/
theorem zero_required_fee_not_sufficient :
    (sampleZeroGasFee.Amount.SafeSub []).2 = false ∧
      (∃ gp ∈ sampleCheckContext.MinGasPrices, ∃ r, IsCeilOf gp.Amount sampleZeroGasFee.Gas r ∧
        ∃ coin ∈ (sampleZeroGasFee.Amount.SafeSub []).1,
          coin.Denom = gp.Denom ∧ r ≤ coin.Amount) ∧
      requiredFeesLoop (Dec.NewDec (toInt64 sampleZeroGasFee.Gas)) sampleCheckContext.MinGasPrices
        = some [⟨"foocoin", 0⟩] ∧
      EnsureSufficientMempoolFees sampleCheckContext sampleZeroGasFee []
        = some (Result.error CodeType.InsufficientFee) ∧
      (Result.error CodeType.InsufficientFee).IsOK = false := by
  refine ⟨by decide, ?_, by decide, by decide, by decide⟩
  refine ⟨⟨"foocoin", ⟨10 ^ 17⟩⟩, by simp [sampleCheckContext], 0, ?_, ⟨"foocoin", 1⟩,
    by decide, rfl, by decide⟩
  unfold IsCeilOf
  norm_num [sampleZeroGasFee]

/-- The conversion `int64(stdFee.Gas)` wraps at a gas limit of `2 ^ 63`: the
product with the minimum gas price 0.1 is negative and `sdk.NewCoin` panics. -/
theorem EnsureSufficientMempoolFees_gas_wrap :
    EnsureSufficientMempoolFees sampleCheckContext sampleHugeGasFee [] = none := by
  have h : toInt64 sampleHugeGasFee.Gas = -9223372036854775808 := by decide
  rw [EnsureSufficientMempoolFees_eq, h]
  decide

/-- C23 (amended): for a gas limit below `2 ^ 63` and minimum gas prices that
are not negative, with different denominations.  `EnsureSufficientMempoolFees`
returns a result, which is OK or an insufficient-fee error.  It is OK if and
only if the fee less the taxes has no negative amount and either the minimum gas
prices are all zero, or for some minimum gas price the ceiling of price times
gas limit is not zero and the fee that remains after the taxes has a coin of
that denomination of at least this amount.  The required fee of each
denomination is exactly the ceiling of price times gas limit. -/
theorem EnsureSufficientMempoolFees_ok_iff (ctx : Context) (stdFee : StdFee) (taxes : Coins)
    (hgas : stdFee.Gas < 2 ^ 63)
    (hprices : ∀ gp ∈ ctx.MinGasPrices, 0 ≤ gp.Amount.raw)
    (hnodup : (ctx.MinGasPrices.map DecCoin.Denom).Nodup) :
    ∃ res required, EnsureSufficientMempoolFees ctx stdFee taxes = some res ∧
      (res = Result.empty ∨ res = Result.error CodeType.InsufficientFee) ∧
      (res.IsOK = true ↔
        (stdFee.Amount.SafeSub taxes).2 = false ∧
          (DecCoinsIsZero ctx.MinGasPrices = true ∨
            ∃ gp ∈ ctx.MinGasPrices, ∃ r, IsCeilOf gp.Amount stdFee.Gas r ∧ r ≠ 0 ∧
              ∃ coin ∈ (stdFee.Amount.SafeSub taxes).1,
                coin.Denom = gp.Denom ∧ r ≤ coin.Amount)) ∧
      requiredFeesLoop (Dec.NewDec (toInt64 stdFee.Gas)) ctx.MinGasPrices = some required ∧
      List.Forall₂
        (fun gp coin => coin.Denom = gp.Denom ∧ IsCeilOf gp.Amount stdFee.Gas coin.Amount)
        ctx.MinGasPrices required := by
  obtain ⟨required, hreq, hall⟩ := requiredFeesLoop_spec stdFee.Gas ctx.MinGasPrices hprices
  rw [← toInt64_of_lt stdFee.Gas hgas] at hreq
  obtain ⟨ham, hzero⟩ := AmountOf_required stdFee.Gas ctx.MinGasPrices required hall hnodup
  have hOK : Result.empty.IsOK = true := rfl
  have hErr : (Result.error CodeType.InsufficientFee).IsOK = false := rfl
  by_cases hneg : (stdFee.Amount.SafeSub taxes).2 = true
  · refine ⟨Result.error CodeType.InsufficientFee, required, ?_, Or.inr rfl, ?_, hreq, hall⟩
    · rw [EnsureSufficientMempoolFees_eq]
      by_cases hz : DecCoinsIsZero ctx.MinGasPrices = true
      · simp only [hz, Bool.not_true, Bool.false_eq_true, if_false, hneg, if_true]
      · have hz2 : DecCoinsIsZero ctx.MinGasPrices = false := by simpa using hz
        simp only [hz2, Bool.not_false, if_true, hreq, hneg]
    · rw [hErr, hneg]
      simp
  · have hneg2 : (stdFee.Amount.SafeSub taxes).2 = false := by simpa using hneg
    by_cases hz : DecCoinsIsZero ctx.MinGasPrices = true
    · refine ⟨Result.empty, required, ?_, Or.inl rfl, ?_, hreq, hall⟩
      · rw [EnsureSufficientMempoolFees_eq]
        simp only [hz, Bool.not_true, Bool.false_eq_true, if_false, hneg2]
        rfl
      · rw [hOK]
        simp [hneg2, hz]
    · have hz2 : DecCoinsIsZero ctx.MinGasPrices = false := by simpa using hz
      have hne : required ≠ [] := by
        intro e
        rw [e] at hall
        cases hp : ctx.MinGasPrices with
        | nil =>
          rw [hp] at hz
          exact hz rfl
        | cons g rest =>
          rw [hp] at hall
          cases hall
      have hempty : required.Empty = false := by
        cases required with
        | nil => exact absurd rfl hne
        | cons c cs => rfl
      have hiff : (stdFee.Amount.SafeSub taxes).1.IsAnyGTE required = true ↔
          ∃ gp ∈ ctx.MinGasPrices, ∃ r, IsCeilOf gp.Amount stdFee.Gas r ∧ r ≠ 0 ∧
            ∃ coin ∈ (stdFee.Amount.SafeSub taxes).1,
              coin.Denom = gp.Denom ∧ r ≤ coin.Amount := by
        rw [IsAnyGTE_iff]
        constructor
        · rintro ⟨_, coin, hc, hle, hnz⟩
          have hmem : coin.Denom ∈ ctx.MinGasPrices.map DecCoin.Denom := by
            by_contra hnot
            exact hnz (hzero _ hnot)
          obtain ⟨gp, hgp, hd⟩ := List.mem_map.mp hmem
          refine ⟨gp, hgp, Coins.AmountOf required coin.Denom, ?_, hnz, coin, hc, hd.symm, hle⟩
          rw [← hd]
          exact ham gp hgp
        · rintro ⟨gp, hgp, r, hr, hnz, coin, hc, hd, hle⟩
          have hr2 := ham gp hgp
          have heq := IsCeilOf_unique _ _ _ _ hr hr2
          refine ⟨hne, coin, hc, ?_, ?_⟩
          · rw [hd, ← heq]
            exact hle
          · rw [hd, ← heq]
            exact hnz
      by_cases hgte : (stdFee.Amount.SafeSub taxes).1.IsAnyGTE required = true
      · refine ⟨Result.empty, required, ?_, Or.inl rfl, ?_, hreq, hall⟩
        · rw [EnsureSufficientMempoolFees_eq]
          simp only [hz2, Bool.not_false, if_true, hreq, hneg2, hempty, hgte, Bool.not_true,
            Bool.and_false, Bool.false_eq_true, if_false]
        · rw [hOK]
          simp only [true_iff]
          exact ⟨hneg2, Or.inr (hiff.mp hgte)⟩
      · have hgte2 : (stdFee.Amount.SafeSub taxes).1.IsAnyGTE required = false := by
          simpa using hgte
        refine ⟨Result.error CodeType.InsufficientFee, required, ?_, Or.inr rfl, ?_, hreq, hall⟩
        · rw [EnsureSufficientMempoolFees_eq]
          simp only [hz2, Bool.not_false, if_true, hreq, hneg2, hempty, hgte2,
            Bool.and_self, Bool.false_eq_true, if_false]
        · rw [hErr]
          simp only [Bool.false_eq_true, false_iff, not_and, not_or]
          intro _
          exact ⟨hz, fun h => hgte (hiff.mpr h)⟩

theorem EnsureSufficientMempoolFees_ok_iff_witness :
    ∃ res required,
      EnsureSufficientMempoolFees sampleCheckContext sampleCoveringFee [⟨"foocoin", 10000⟩]
        = some res ∧
      res.IsOK = true ∧
      requiredFeesLoop (Dec.NewDec (toInt64 sampleCoveringFee.Gas))
        sampleCheckContext.MinGasPrices = some required ∧
      List.Forall₂
        (fun gp coin =>
          coin.Denom = gp.Denom ∧ IsCeilOf gp.Amount sampleCoveringFee.Gas coin.Amount)
        sampleCheckContext.MinGasPrices required := by
  obtain ⟨res, required, h1, _, h3, h4, h5⟩ :=
    EnsureSufficientMempoolFees_ok_iff sampleCheckContext sampleCoveringFee
      [⟨"foocoin", 10000⟩] (by decide) (by simp [sampleCheckContext]) (by decide)
  refine ⟨res, required, h1, h3.mpr ⟨by decide, Or.inr ?_⟩, h4, h5⟩
  refine ⟨⟨"foocoin", ⟨10 ^ 17⟩⟩, by simp [sampleCheckContext], 20000, ?_, by decide,
    ⟨"foocoin", 20000⟩, by decide, rfl, by decide⟩
  unfold IsCeilOf
  norm_num [sampleCoveringFee]

end Terra
